import Mathlib

/-! # dx-api-explorer: the component graph engine

A shallow embedding of `src/dx_api_component_type_procs.cpp`
(`make_component_r`, `validate_component_r`, `draw_component_r`,
`draw_component_debug_r`, `deselect_component_r`) together with the
properties of these routines that the specification states.

Conventions of the embedding.

* A `std::string` is a `String`, one `Char` standing for one C++ `char`.
* A C++ exception (or a failed library assertion) is an `Except.error`; the
  value of `error_t` records which one.
* A map with string keys is an association list in which a key is looked up
  at its first binding; a real map binds a key once.
* A `component_t&` is a location in a store of component objects, so that an
  assignment through one reference is seen through every other.
* Routines that may recurse forever (a reference can lead back to a component
  that is being traversed) take a `fuel` bound on the recursion depth.
* An `int` is an `Int` from -2147483648 to 2147483647; `to_int` is the value
  that is stored when an arithmetic result does not fit.
* `make_component_r_app` is `make_component_r` with the `app_context_t&` it
  is handed returned as state.

First the definitions: the embedding, the vocabulary of the statements, and
example data. Then the theorems.
-/

namespace dx_api_explorer

/-! ## Errors -/

/-- What a routine throws instead of returning. -/
inductive error_t
  /-- Thrown by `map::at` and `std::string::substr`: `std::out_of_range`. -/
  | out_of_range
  /-- Thrown by `make_component_r` itself: `std::runtime_error`. -/
  | runtime_error
  /-- A `nlohmann::json` access that does not yield a value: wrong type, or a
  key that a `const` object does not have. -/
  | json_error
  /-- A helper of `dx_api_model_procs.h` that fails. -/
  | proc_error
  /-- A C++ reference that does not designate a live component. -/
  | bad_reference
  /-- The recursion is deeper than the fuel given to the model. -/
  | out_of_fuel
  deriving DecidableEq, Repr

deriving instance DecidableEq for Except

/-! ## Strings -/

/-- The test `std::string::empty`. -/
def empty (s : String) : Bool := s.data.isEmpty

/-- The call `std::string::substr(pos, len)`; `len = none` is the defaulted `npos`. -/
def substr (s : String) (pos : Nat) (len : Option Nat) : Except error_t String :=
  if s.data.length < pos then .error .out_of_range
  else
    match len with
    | none => .ok (String.mk (s.data.drop pos))
    | some n => .ok (String.mk ((s.data.drop pos).take n))

/-! ## JSON values (`nlohmann::json`) -/

/-- A `nlohmann::json` value. The list of an object holds its members in the
iteration order of the underlying map, each key once. -/
inductive json
  | null
  | boolean (b : Bool)
  | number (n : Int)
  | string (s : String)
  | array (xs : List json)
  | object (kvs : List (String × json))

namespace json

/-- The member of an association list bound to `key`. -/
def find (kvs : List (String × json)) (key : String) : Option json :=
  match kvs with
  | [] => none
  | (k, v) :: rest => if k = key then some v else find rest key

/-- The subscript `j[key]` on a `const json&`: defined on an object that has the key. -/
def subscript (j : json) (key : String) : Except error_t json :=
  match j with
  | object kvs =>
    match find kvs key with
    | some v => .ok v
    | none => .error .json_error
  | _ => .error .json_error

/-- The test `j.contains(key)`: false on anything that is not an object. -/
def contains (j : json) (key : String) : Bool :=
  match j with
  | object kvs => (find kvs key).isSome
  | _ => false

/-- The implicit conversion of a `json` to `std::string`. -/
def get_string (j : json) : Except error_t String :=
  match j with
  | string s => .ok s
  | _ => .error .json_error

/-- The elements a range-based `for` over `j` visits: the elements of an
array, the values of an object, nothing for `null`, the value itself for any
other primitive. -/
def items (j : json) : List json :=
  match j with
  | array xs => xs
  | object kvs => kvs.map Prod.snd
  | null => []
  | boolean b => [boolean b]
  | number n => [number n]
  | string s => [string s]

end json

/-! ## The model types (`dx_api_model_types.h`) -/

/-- Modelled from the spec: the enumeration of component types, declared in
`dx_api_model_types.h`, which is not among the sources. The enumerators are
the ones the `switch` statements of `dx_api_component_type_procs.cpp` name. -/
inductive component_type_t
  | component_type_unspecified
  | component_type_unknown
  | component_type_reference
  | component_type_region
  | component_type_view
  | component_type_currency
  | component_type_text_area
  | component_type_text_input
  | component_type_default_form
  | component_type_count
  deriving DecidableEq, Repr

open component_type_t

/-- Modelled from the spec: `component_t` of `dx_api_model_types.h`, with the
members that `dx_api_component_type_procs.cpp` reads or writes. -/
structure component_t where
  type : component_type_t
  key : String
  name : String
  label : String
  class_id : String
  ref_type : component_type_t
  is_broken : Bool
  is_disabled : Bool
  is_readonly : Bool
  is_required : Bool
  is_selected : Bool
  broken_string : String
  debug_string : String
  json : String
  children : List component_t

/-- Modelled from the spec: a default-constructed `component_t`: empty
strings, cleared flags, unspecified type tags, no children. -/
def component_t.init : component_t :=
  { type := component_type_unspecified, key := "", name := "", label := "",
    class_id := "", ref_type := component_type_unspecified,
    is_broken := false, is_disabled := false, is_readonly := false,
    is_required := false, is_selected := false,
    broken_string := "", debug_string := "", json := "", children := [] }

/-- Modelled from the spec: `field_t` of `dx_api_model_types.h`: the editable
value and the flag set when the field is first shown editable. -/
structure field_t where
  data : String
  is_dirty : Bool
  deriving DecidableEq, Repr

/-- Modelled from the spec: the component map, key to component. -/
abbrev component_map_t := List (String × component_t)

/-- Modelled from the spec: the field map, key to field. -/
abbrev field_map_t := List (String × field_t)

/-- The lookup `map.at(key)`: the value bound to `key`, or `std::out_of_range`. -/
def map_at {α : Type} (m : List (String × α)) (key : String) : Except error_t α :=
  match m with
  | [] => .error .out_of_range
  | (k, v) :: rest => if k = key then .ok v else map_at rest key

/-- The map in which the value at `key` is replaced by its image under `f`. -/
def map_update {α : Type} (m : List (String × α)) (key : String) (f : α → α) :
    List (String × α) :=
  match m with
  | [] => []
  | (k, v) :: rest => if k = key then (k, f v) :: rest else (k, v) :: map_update rest key f

/-- The keys bound in a map. -/
def map_keys {α : Type} (m : List (String × α)) : List String := m.map Prod.fst

/-- Modelled from the spec: `resources_t`, owner of the two maps. -/
structure resources_t where
  components : component_map_t
  fields : field_map_t

/-- Modelled from the spec: `case_info_t`, of which only the content
namespace is read here. -/
structure case_info_t where
  content : json

/-- The members of `app_context_t` (`dx_api_app_types.h`) that
`make_component_r` reads. -/
structure app_context_t where
  case_info : case_info_t
  resources : resources_t

/-! ## The helper procedures (`dx_api_model_procs.h`) -/

/-- The procedures of `dx_api_model_procs.h` that the routines call. The
header is not among the sources, so they are parameters of the embedding:
every theorem below that takes a `model_procs_t` holds for whatever these
procedures compute. A procedure that can throw returns an `Except`. A call
that leaves a trailing argument to its default is a field of its own. -/
structure model_procs_t where
  to_component_type : json → Except error_t component_type_t
  resolve_name : json → json → String → Except error_t String
  resolve_name_4 : json → json → String → Bool → Except error_t String
  resolve_label : json → field_map_t → String → Except error_t String
  make_key : String → String → String
  to_bool : json → Except error_t Bool
  to_string : component_type_t → String → String
  to_string_3 : component_type_t → String → component_type_t → String
  dump : json → String
  is_editable : component_t → field_t → Bool

/-! ## `make_component_r` (lines 21-148) -/

/-- The `component_type_unknown` case of the switch (lines 30-39). -/
def make_unknown (P : model_procs_t) (component_json : json) (parent_class_id : String)
    (new_component : component_t) : Except error_t component_t := do
  let new_component := { new_component with class_id := parent_class_id }
  let name ← (← component_json.subscript "type").get_string
  let new_component := { new_component with name := name }
  pure { new_component with
    debug_string := P.to_string new_component.type new_component.name }

/-- The context of a reference (lines 51-68): a context that begins with
"@CLASS" sets the class to what follows its seventh character; any other
context marks the reference broken. -/
def apply_context (config_json : json) (new_component : component_t) :
    Except error_t component_t :=
  if config_json.contains "context" then
    match config_json.subscript "context" with
    | .error e => .error e
    | .ok context_json =>
      match context_json.get_string with
      | .error e => .error e
      | .ok context =>
        match substr context 0 (some 6) with
        | .error e => .error e
        | .ok head =>
          if head = "@CLASS" then
            match substr context 7 none with
            | .error e => .error e
            | .ok class_id => .ok { new_component with class_id := class_id }
          else
            .ok { new_component with
              is_broken := true, broken_string := "Unsupported context: " ++ context }
  else .ok new_component

/-- The `component_type_reference` case of the switch (lines 40-72). -/
def make_reference (P : model_procs_t) (component_json : json) (app : app_context_t)
    (parent_class_id : String) (new_component : component_t) : Except error_t component_t := do
  let new_component := { new_component with class_id := parent_class_id }
  let config_json ← component_json.subscript "config"
  let name ← P.resolve_name (← config_json.subscript "name") app.case_info.content
    new_component.class_id
  let new_component := { new_component with name := name }
  let ref_type ← P.to_component_type (← config_json.subscript "type")
  let new_component := { new_component with ref_type := ref_type }
  let new_component ← apply_context config_json new_component
  pure { new_component with
    debug_string :=
      P.to_string_3 new_component.type new_component.name new_component.ref_type }

/-- The `component_type_region` case of the switch (lines 73-82). -/
def make_region (P : model_procs_t) (component_json : json) (app : app_context_t)
    (parent_class_id : String) (new_component : component_t) : Except error_t component_t := do
  let new_component := { new_component with class_id := parent_class_id }
  let name ← P.resolve_name (← component_json.subscript "name") app.case_info.content
    new_component.class_id
  let new_component := { new_component with name := name }
  pure { new_component with
    debug_string := P.to_string new_component.type new_component.name }

/-- The optional template of a view (line 92): the type it names when the
config has the key, the current `ref_type` otherwise. -/
def read_template (P : model_procs_t) (config_json : json) (current : component_type_t) :
    Except error_t component_type_t :=
  if config_json.contains "template" then
    match config_json.subscript "template" with
    | .error e => .error e
    | .ok template => P.to_component_type template
  else .ok current

/-- The `component_type_view` case of the switch (lines 83-96). -/
def make_view (P : model_procs_t) (component_json : json) (app : app_context_t)
    (new_component : component_t) : Except error_t component_t := do
  let class_id ← (← component_json.subscript "classID").get_string
  let new_component := { new_component with class_id := class_id }
  let name ← P.resolve_name (← component_json.subscript "name") app.case_info.content
    new_component.class_id
  let new_component := { new_component with name := name }
  let config_json ← component_json.subscript "config"
  let ref_type ← read_template P config_json new_component.ref_type
  let new_component := { new_component with ref_type := ref_type }
  pure { new_component with
    debug_string :=
      P.to_string_3 new_component.type new_component.name new_component.ref_type }

/-- An optional boolean attribute of a field (lines 109-111): its value when
the config has the key, the current value of the flag otherwise. -/
def read_flag (P : model_procs_t) (config_json : json) (key : String) (current : Bool) :
    Except error_t Bool :=
  if config_json.contains key then
    match config_json.subscript key with
    | .error e => .error e
    | .ok value => P.to_bool value
  else .ok current

/-- The currency, text-area and text-input cases of the switch (lines 97-115). -/
def make_field (P : model_procs_t) (component_json : json) (app : app_context_t)
    (parent_class_id : String) (new_component : component_t) : Except error_t component_t := do
  let new_component := { new_component with class_id := parent_class_id }
  let config_json ← component_json.subscript "config"
  let name ← P.resolve_name_4 (← config_json.subscript "value") app.case_info.content
    new_component.class_id false
  let new_component := { new_component with name := name }
  let label ← P.resolve_label (← config_json.subscript "label") app.resources.fields
    new_component.class_id
  let new_component := { new_component with label := label }
  let is_disabled ← read_flag P config_json "disabled" new_component.is_disabled
  let new_component := { new_component with is_disabled := is_disabled }
  let is_readonly ← read_flag P config_json "readOnly" new_component.is_readonly
  let new_component := { new_component with is_readonly := is_readonly }
  let is_required ← read_flag P config_json "required" new_component.is_required
  let new_component := { new_component with is_required := is_required }
  pure { new_component with
    debug_string := P.to_string new_component.type new_component.label }

/-- The switch on the component type (lines 28-121). -/
def make_switch (P : model_procs_t) (component_json : json) (app : app_context_t)
    (parent_class_id : String) (new_component : component_t) : Except error_t component_t :=
  match new_component.type with
  | component_type_unknown => make_unknown P component_json parent_class_id new_component
  | component_type_reference => make_reference P component_json app parent_class_id new_component
  | component_type_region => make_region P component_json app parent_class_id new_component
  | component_type_view => make_view P component_json app new_component
  | component_type_currency => make_field P component_json app parent_class_id new_component
  | component_type_text_area => make_field P component_json app parent_class_id new_component
  | component_type_text_input => make_field P component_json app parent_class_id new_component
  | component_type_count => .ok new_component
  | component_type_default_form => .ok new_component
  | component_type_unspecified => .ok new_component

/-- The validation and finalisation of the new component (lines 123-134). -/
def finalize (P : model_procs_t) (new_component : component_t) : Except error_t component_t :=
  if empty new_component.name || empty new_component.class_id
      || new_component.type == component_type_unspecified then
    .error .runtime_error
  else
    .ok { new_component with
      key := P.make_key new_component.class_id new_component.name }

/-- The new component as the switch leaves it (lines 24-121), before it is
validated. -/
def make_component_draft (P : model_procs_t) (component_json : json) (app : app_context_t)
    (parent_class_id : String) : Except error_t component_t := do
  let new_component : component_t := { component_t.init with json := P.dump component_json }
  let type ← P.to_component_type (← component_json.subscript "type")
  let new_component := { new_component with type := type }
  make_switch P component_json app parent_class_id new_component

/-- The part of `make_component_r` before the children are processed
(lines 24-134): the new component, validated and finalised. -/
def make_component_node (P : model_procs_t) (component_json : json) (app : app_context_t)
    (parent_class_id : String) : Except error_t component_t :=
  match make_component_draft P component_json app parent_class_id with
  | .error e => .error e
  | .ok new_component => finalize P new_component

/-- The documents the loop over `component_json["children"]` visits; none
when the key is absent. -/
def children_json (component_json : json) : List json :=
  if component_json.contains "children" then
    match component_json.subscript "children" with
    | .ok children => children.items
    | .error _ => []
  else []

/-! The recursion of `make_component_r` ends because the children of a
document are smaller than the document. -/

theorem sizeOf_map_snd (kvs : List (String × json)) :
    sizeOf (kvs.map Prod.snd) ≤ sizeOf kvs := by
  induction kvs with
  | nil => simp
  | cons p ps ih =>
    obtain ⟨k, v⟩ := p
    simp
    omega

theorem sizeOf_find (kvs : List (String × json)) (key : String) (v : json)
    (h : json.find kvs key = some v) : sizeOf v + 2 ≤ sizeOf kvs := by
  induction kvs with
  | nil => simp [json.find] at h
  | cons p ps ih =>
    obtain ⟨k, w⟩ := p
    simp only [json.find] at h
    split at h
    · simp at h
      subst h
      simp
      omega
    · have := ih h
      simp
      omega

theorem sizeOf_items (j : json) : sizeOf j.items ≤ sizeOf j + 2 := by
  cases j with
  | object kvs =>
    have := sizeOf_map_snd kvs
    simp [json.items]
    omega
  | _ => simp [json.items] <;> omega

theorem sizeOf_children_json (j : json) : sizeOf (children_json j) ≤ sizeOf j := by
  have hpos : sizeOf ([] : List json) ≤ sizeOf j := by
    cases j <;> simp
  unfold children_json
  split
  · split
    · rename_i c hc
      unfold json.subscript at hc
      split at hc
      · split at hc
        · rename_i kvs v hv
          have h1 := sizeOf_find _ _ _ hv
          have h2 := sizeOf_items c
          simp at hc
          subst hc
          simp
          omega
        · simp at hc
      · simp at hc
    · exact hpos
  · exact hpos

mutual
/-- The routine `make_component_r`: the new component, then its children, each built
with the new component's class as parent class (lines 136-147). -/
def make_component_r (P : model_procs_t) (component_json : json) (app : app_context_t)
    (parent_class_id : String) : Except error_t component_t :=
  match make_component_node P component_json app parent_class_id with
  | .error e => .error e
  | .ok new_component =>
    match make_children P (children_json component_json) app new_component.class_id with
    | .error e => .error e
    | .ok children =>
      .ok { new_component with children := new_component.children ++ children }
termination_by 2 * sizeOf component_json + 1
decreasing_by
  have := sizeOf_children_json component_json
  simp_wf
  omega
/-- The loop over the children: each child is built and pushed back; an
exception thrown by a child ends the loop. -/
def make_children (P : model_procs_t) (children : List json) (app : app_context_t)
    (class_id : String) : Except error_t (List component_t) :=
  match children with
  | [] => .ok []
  | child :: rest =>
    match make_component_r P child app class_id with
    | .error e => .error e
    | .ok new_child_component =>
      match make_children P rest app class_id with
      | .error e => .error e
      | .ok new_children => .ok (new_child_component :: new_children)
termination_by 2 * sizeOf children
decreasing_by
  all_goals simp_wf
  all_goals omega
end

mutual
/-- The routine `make_component_r` with its reference parameter
`app_context_t& app` as state: the call returns the component together with
the `app` it leaves. The routine hands `app` on to the calls for the children
(line 142) and hands `app.case_info.content` and `app.resources.fields` to the
helper procedures (lines 46, 78, 88, 105, 106); it has no assignment to `app`
or to a member of it. -/
def make_component_r_app (P : model_procs_t) (component_json : json) (app : app_context_t)
    (parent_class_id : String) : Except error_t (component_t × app_context_t) :=
  match make_component_node P component_json app parent_class_id with
  | .error e => .error e
  | .ok new_component =>
    match make_children_app P (children_json component_json) app new_component.class_id with
    | .error e => .error e
    | .ok made =>
      .ok ({ new_component with children := new_component.children ++ made.1 }, made.2)
termination_by 2 * sizeOf component_json + 1
decreasing_by
  have := sizeOf_children_json component_json
  simp_wf
  omega
/-- The loop over the children with `app` as state: each call for a child
starts from the `app` that the call before it left. -/
def make_children_app (P : model_procs_t) (children : List json) (app : app_context_t)
    (class_id : String) : Except error_t (List component_t × app_context_t) :=
  match children with
  | [] => .ok ([], app)
  | child :: rest =>
    match make_component_r_app P child app class_id with
    | .error e => .error e
    | .ok made_child =>
      match make_children_app P rest made_child.2 class_id with
      | .error e => .error e
      | .ok made => .ok (made_child.1 :: made.1, made.2)
termination_by 2 * sizeOf children
decreasing_by
  all_goals simp_wf
  all_goals omega
end

/-! ## `validate_component_r` (lines 150-193) -/

mutual
/-- The routine `validate_component_r`. Its `components` argument is not used
by the source either. -/
def validate_component_r (component : component_t) (components : component_map_t)
    (fields : field_map_t) : Except error_t Bool :=
  match component with
  | { children := children, .. } =>
    let checked : Except error_t Bool :=
      match component.type with
      | component_type_currency | component_type_text_input | component_type_text_area =>
        if component.is_required then
          match map_at fields component.key with
          | .error e => .error e
          | .ok field => if empty field.data then .ok false else .ok true
        else .ok true
      | _ => .ok true
    match checked with
    | .error e => .error e
    | .ok is_valid => validate_children children components fields is_valid
/-- The loop over `component.children` of `validate_component_r`, entered
with the current value of `is_valid`. -/
def validate_children (children : List component_t) (components : component_map_t)
    (fields : field_map_t) (is_valid : Bool) : Except error_t Bool :=
  match children with
  | [] => .ok is_valid
  | child :: rest =>
    if !is_valid then .ok is_valid
    else
      match validate_component_r child components fields with
      | .error e => .error e
      | .ok v => validate_children rest components fields v
end

/-! ## Component objects and references to them

The traversals below take a `component_t&` and mutate it in place, and a
reference component is followed to the element of the component map at its
key, which is mutated in place as well. A component object is therefore
designated by its location: the object it is owned by (an element of the map,
or an object outside the map) and the path of child indices from there. -/

/-- The component reached from `c` by the path of child indices. -/
def component_t.descend (c : component_t) (path : List Nat) : Option component_t :=
  match path with
  | [] => some c
  | i :: rest =>
    match c.children.get? i with
    | none => none
    | some child => child.descend rest

/-- The tree in which the component at `path` is replaced by its image under
`f`; a path that leads nowhere changes nothing. -/
def component_t.update (c : component_t) (path : List Nat) (f : component_t → component_t) :
    component_t :=
  match path with
  | [] => f c
  | i :: rest =>
    match c.children.get? i with
    | none => c
    | some child => { c with children := c.children.set i (child.update rest f) }

/-- The owner of a tree of component objects: an object outside the component
map, or the element of the map at a key. -/
inductive root_t
  | detached
  | entry (key : String)
  deriving DecidableEq, Repr

/-- The location of a component object: what a `component_t&` designates. -/
structure loc_t where
  root : root_t
  path : List Nat
  deriving DecidableEq, Repr

/-- The location of the child at index `i`. -/
def loc_t.child (loc : loc_t) (i : Nat) : loc_t :=
  { loc with path := loc.path ++ [i] }

/-- The component objects a traversal can reach: one tree outside the map, and
the component map. -/
structure store_t where
  detached : component_t
  components : component_map_t

/-- The tree an owner holds. -/
def store_t.tree (S : store_t) (root : root_t) : Except error_t component_t :=
  match root with
  | .detached => .ok S.detached
  | .entry key =>
    match map_at S.components key with
    | .ok c => .ok c
    | .error _ => .error .bad_reference

/-- The component object at a location. -/
def store_t.read (S : store_t) (loc : loc_t) : Except error_t component_t :=
  match S.tree loc.root with
  | .error e => .error e
  | .ok c =>
    match c.descend loc.path with
    | some n => .ok n
    | none => .error .bad_reference

/-- An assignment to members of the component object at a location. -/
def store_t.update (S : store_t) (loc : loc_t) (f : component_t → component_t) : store_t :=
  match loc.root with
  | .detached => { S with detached := S.detached.update loc.path f }
  | .entry key => { S with components := map_update S.components key (fun c => c.update loc.path f) }

/-- A loop `for (x : xs) body`, where the body can throw. -/
def for_each {α σ : Type} (xs : List α) (body : α → σ → Except error_t σ) (s : σ) :
    Except error_t σ :=
  match xs with
  | [] => .ok s
  | x :: rest =>
    match body x s with
    | .error e => .error e
    | .ok s' => for_each rest body s'

/-! ## `deselect_component_r` (lines 388-406) -/

/-- The assignment `component.is_selected = value`. -/
def set_selected (value : Bool) (c : component_t) : component_t :=
  { c with is_selected := value }

/-- The routine `deselect_component_r`, on the component object at `component`. -/
def deselect_component_r (fuel : Nat) (component : loc_t) (S : store_t) :
    Except error_t store_t :=
  match fuel with
  | 0 => .error .out_of_fuel
  | fuel + 1 =>
    match S.read component with
    | .error e => .error e
    | .ok _ =>
      let S := S.update component (set_selected false)
      match S.read component with
      | .error e => .error e
      | .ok c =>
        let dereferenced : Except error_t store_t :=
          if c.type = component_type_reference ∧ c.is_broken = false then
            match map_at S.components c.key with
            | .error e => .error e
            | .ok _ => deselect_component_r fuel { root := .entry c.key, path := [] } S
          else .ok S
        match dereferenced with
        | .error e => .error e
        | .ok S =>
          match S.read component with
          | .error e => .error e
          | .ok c =>
            for_each (List.range c.children.length)
              (fun i S => deselect_component_r fuel (component.child i) S) S

/-- The click handler of both draw routines (lines 276-280 and 357-361):
every element of the map is deselected, then the clicked component is
selected. -/
def select_component (fuel : Nat) (component : loc_t) (S : store_t) : Except error_t store_t :=
  match for_each (map_keys S.components)
      (fun key S => deselect_component_r fuel { root := .entry key, path := [] } S) S with
  | .error e => .error e
  | .ok S => .ok (S.update component (set_selected true))

/-! ## The draw routines (lines 195-386) -/

/-- The answers of the ImGui library during a frame, which depend on the
mouse and the keyboard: whether the item just drawn is clicked, and the text
an input widget leaves in its buffer; both by the number of such queries
made before in the frame. -/
structure imgui_t where
  is_item_clicked : Nat → Bool
  input_text : Nat → String → String

/-- The value an `int` holds after an arithmetic result `x` is stored in it:
`x` itself from -2147483648 to 2147483647, and outside that range the value
of the same 32 bits, so that 2147483648 is stored as -2147483648. -/
def to_int (x : Int) : Int := (x + 2147483648) % 4294967296 - 2147483648

/-- What the draw routines read and write: the component objects, the field
map, the running widget id (`int& id`, a 32-bit `int`), the JSON shown in the
debug pane, and the number of ImGui queries made so far in the frame. The
bounding boxes, which are floating-point coordinates that ImGui reports, are
left out. -/
structure frame_t where
  store : store_t
  fields : field_map_t
  id : Int
  component_debug_json : String
  queries : Nat

/-- The click handler, run when the item is clicked and the component is not
selected yet (lines 273-282 and 354-363). -/
def on_click (fuel : Nat) (G : imgui_t) (component : loc_t) (F : frame_t) :
    Except error_t frame_t :=
  match F.store.read component with
  | .error e => .error e
  | .ok c =>
    let clicked := G.is_item_clicked F.queries
    let F := { F with queries := F.queries + 1 }
    if clicked ∧ c.is_selected = false then
      match select_component fuel component F.store with
      | .error e => .error e
      | .ok S => .ok { F with store := S, component_debug_json := c.json }
    else .ok F

/-- The field widget of `draw_component_r` (lines 230-258): the field bound to
the component is looked up; when it is editable it is marked dirty and handed
to the input widget. -/
def draw_field (P : model_procs_t) (G : imgui_t) (c : component_t) (F : frame_t) :
    Except error_t frame_t :=
  match map_at F.fields c.key with
  | .error e => .error e
  | .ok field =>
    if P.is_editable c field then
      .ok { F with
        fields := map_update F.fields c.key
          (fun field => { field with is_dirty := true, data := G.input_text F.queries field.data }),
        queries := F.queries + 1 }
    else .ok F

/-- The routine `draw_component_r`, on the component object at `component`. -/
def draw_component_r (fuel : Nat) (P : model_procs_t) (G : imgui_t) (show_xray : Bool)
    (component : loc_t) (F : frame_t) : Except error_t frame_t :=
  match fuel with
  | 0 => .error .out_of_fuel
  | fuel + 1 =>
    match F.store.read component with
    | .error e => .error e
    | .ok c =>
      let F := { F with id := to_int (F.id + 1) }
      match c.type with
      | component_type_reference =>
        if c.is_broken = false then
          match map_at F.store.components c.key with
          | .error e => .error e
          | .ok _ =>
            draw_component_r fuel P G show_xray { root := .entry c.key, path := [] } F
        else .ok F
      | component_type_currency | component_type_text_area | component_type_text_input =>
        match draw_field P G c F with
        | .error e => .error e
        | .ok F => on_click fuel G component F
      | _ =>
        let should_process_children :=
          if c.type = component_type_view ∧
              (c.ref_type = component_type_unspecified ∨ c.ref_type = component_type_unknown)
          then false
          else !c.children.isEmpty
        if should_process_children then
          for_each (List.range c.children.length)
            (fun i F => draw_component_r fuel P G show_xray (component.child i) F) F
        else .ok F

/-- The routine `draw_component_debug_r`, on the component object at
`component`. -/
def draw_component_debug_r (fuel : Nat) (G : imgui_t) (component : loc_t) (F : frame_t) :
    Except error_t frame_t :=
  match fuel with
  | 0 => .error .out_of_fuel
  | fuel + 1 =>
    match on_click fuel G component F with
    | .error e => .error e
    | .ok F =>
      match F.store.read component with
      | .error e => .error e
      | .ok c =>
        let dereferenced : Except error_t frame_t :=
          if c.is_broken then .ok F
          else if c.type = component_type_reference then
            match map_at F.store.components c.key with
            | .error e => .error e
            | .ok _ => draw_component_debug_r fuel G { root := .entry c.key, path := [] } F
          else .ok F
        match dereferenced with
        | .error e => .error e
        | .ok F =>
          match F.store.read component with
          | .error e => .error e
          | .ok c =>
            for_each (List.range c.children.length)
              (fun i F => draw_component_debug_r fuel G (component.child i) F) F

/-! ## The vocabulary of the statements -/

/-- The currency, text-area and text-input types: the editable fields. -/
def is_field_type (t : component_type_t) : Bool :=
  match t with
  | component_type_currency => true
  | component_type_text_area => true
  | component_type_text_input => true
  | _ => false

mutual
/-- The component and all its owned descendants, in pre-order. -/
def component_t.nodes (c : component_t) : List component_t :=
  match c with
  | { children := children, .. } => c :: nodes_list children
/-- The pre-order listing of a sequence of sibling trees. -/
def nodes_list (cs : List component_t) : List component_t :=
  match cs with
  | [] => []
  | c :: rest => c.nodes ++ nodes_list rest
end

/-- A required editable field: a currency, text-area or text-input component
with `is_required` set. -/
def is_required_field (n : component_t) : Bool := is_field_type n.type && n.is_required

/-- The component is bound by its key to a field whose data is the empty string. -/
def bound_data_empty (fields : field_map_t) (n : component_t) : Prop :=
  ∃ field, map_at fields n.key = .ok field ∧ field.data = ""

/-- The document reached from `d` by the path of indices into the
children that `make_component_r` iterates. -/
def doc_descend (d : json) (path : List Nat) : Option json :=
  match path with
  | [] => some d
  | i :: rest =>
    match (children_json d).get? i with
    | none => none
    | some child => doc_descend child rest

/-- The config of the document has a "context" member. -/
def config_has_context (d : json) : Bool :=
  match d.subscript "config" with
  | .ok config_json => config_json.contains "context"
  | .error _ => false

/-- The form "@CLASS <name>" of a context: the literal "@CLASS", one space,
then a non-empty name. -/
def is_class_context (context : String) : Bool :=
  decide (context.data.take 7 = "@CLASS ".data) && decide (7 < context.data.length)

/-- The context begins with the six characters "@CLASS". -/
def begins_with_class (context : String) : Bool :=
  decide (context.data.take 6 = "@CLASS".data)

/-- A reference document as `make_component_r` reads it with parent class
`p`: its type maps to `component_type_reference`, it has the config `cfg`,
`config.name` resolves to `nm` and `config.type` maps to `rt`. -/
def reference_document (P : model_procs_t) (app : app_context_t) (d : json) (p : String)
    (cfg : json) (nm : String) (rt : component_type_t) : Prop :=
  (∃ tj, d.subscript "type" = .ok tj ∧ P.to_component_type tj = .ok component_type_reference) ∧
  d.subscript "config" = .ok cfg ∧
  (∃ nj, cfg.subscript "name" = .ok nj ∧ P.resolve_name nj app.case_info.content p = .ok nm) ∧
  (∃ rj, cfg.subscript "type" = .ok rj ∧ P.to_component_type rj = .ok rt)

/-- The members of a component other than `is_selected` and the children. -/
def own (c : component_t) : component_t := { c with is_selected := false, children := [] }

/-- The store `S'` is the store `S` with some `is_selected` flags cleared:
the same locations hold components, each with the members and the number of
children it had, and none is selected that was not. -/
def cleared (S S' : store_t) : Prop :=
  map_keys S'.components = map_keys S.components ∧
  (∀ at_ e, S.read at_ = .error e → ∃ e', S'.read at_ = .error e') ∧
  (∀ at_ n, S.read at_ = .ok n → ∃ n', S'.read at_ = .ok n' ∧ own n' = own n ∧
    n'.children.length = n.children.length ∧ (n'.is_selected = true → n.is_selected = true))

/-- No component at or below the location is selected. -/
def deselected_below (S : store_t) (loc : loc_t) : Prop :=
  ∀ rest n, S.read { loc with path := loc.path ++ rest } = .ok n → n.is_selected = false

/-- The references of the roots `roots` are ranked in the store: a component
below one of these roots lies less than `bound` steps deep, and when it is a
reference that is not broken, the map has its key, the element there is one of
the roots, and it has a smaller rank than the root the reference is under. No
chain of child and dereference steps then returns to where it has been. -/
def well_ranked (rank : root_t → Nat) (bound : Nat) (roots : root_t → Prop) (S : store_t) :
    Prop :=
  ∀ loc n, roots loc.root → S.read loc = .ok n →
    loc.path.length < bound ∧
    (n.type = component_type_reference → n.is_broken = false →
      (∃ target, map_at S.components n.key = .ok target) ∧
      roots (.entry n.key) ∧ rank (.entry n.key) < rank loc.root)

/-- The references of a component map are ranked by `rank`: every reference
that is not broken, anywhere in the map, has its key in the map, and the
element there has a smaller rank than the element the reference is under. -/
def references_ranked (rank : String → Nat) (components : component_map_t) : Prop :=
  ∀ p ∈ components, ∀ n ∈ p.2.nodes,
    n.type = component_type_reference → n.is_broken = false →
    n.key ∈ map_keys components ∧ rank n.key < rank p.1

/-- The number of components in a map, owned descendants included. -/
def count_nodes (components : component_map_t) : Nat :=
  (components.map (fun p => p.2.nodes.length)).sum

/-- The types for which the switch of `make_component_r` does nothing
(lines 116-120). -/
def is_ignored_type (t : component_type_t) : Bool :=
  match t with
  | component_type_count => true
  | component_type_default_form => true
  | component_type_unspecified => true
  | _ => false

/-- The validation of section 4.4, by its words: the components are examined
in document order; a required editable field whose bound field has empty data
is the first failure, at which the examination stops with false; the lookup
of a bound field can throw. -/
def validate_in_document_order (nodes : List component_t) (fields : field_map_t) :
    Except error_t Bool :=
  match nodes with
  | [] => .ok true
  | n :: rest =>
    if is_required_field n then
      match map_at fields n.key with
      | .error e => .error e
      | .ok field =>
        if empty field.data then .ok false else validate_in_document_order rest fields
    else validate_in_document_order rest fields

/-- One step of a traversal that follows the owned children and the references
that are not broken: from a component to one of its owned children, or from
a reference that is not broken to the element of the map at its key. -/
inductive step (S : store_t) : loc_t → loc_t → Prop
  | child (loc : loc_t) (n : component_t) (i : Nat) :
      S.read loc = .ok n → i < n.children.length → step S loc (loc.child i)
  | dereference (loc : loc_t) (n : component_t) :
      S.read loc = .ok n → n.type = component_type_reference → n.is_broken = false →
      step S loc { root := .entry n.key, path := [] }

/-- The locations reached from a location by any number of steps, through both
child and reference edges. -/
def reachable (S : store_t) (loc target : loc_t) : Prop :=
  Relation.ReflTransGen (step S) loc target

/-- What a location holds apart from selection: nothing, or a component with
its members other than `is_selected` and its number of children. -/
def store_t.outline (S : store_t) (loc : loc_t) : Option (component_t × Nat) :=
  match S.read loc with
  | .ok n => some (own n, n.children.length)
  | .error _ => none

/-- The two stores differ at most in `is_selected` flags. -/
def same_shape (S T : store_t) : Prop :=
  ∀ loc, S.outline loc = T.outline loc

mutual
/-- The tree with every `is_selected` flag cleared: what a tree is apart from
its selection. -/
def component_t.unselected (c : component_t) : component_t :=
  match c with
  | { children := children, .. } =>
    { c with is_selected := false, children := unselected_list children }
/-- A sequence of sibling trees with every `is_selected` flag cleared. -/
def unselected_list (cs : List component_t) : List component_t :=
  match cs with
  | [] => []
  | c :: rest => c.unselected :: unselected_list rest
end

/-- The store with every `is_selected` flag cleared: the same keys in the same
order, and each tree with all its members other than `is_selected`. -/
def store_t.unselected (S : store_t) : store_t :=
  { detached := S.detached.unselected,
    components := S.components.map (fun p => (p.1, p.2.unselected)) }

/-- No chain of child and dereference steps that starts at the location goes
on for ever: the relation "owned child of, or map target of a reference that
is not broken" is well-founded from the location. -/
def well_founded_from (S : store_t) (loc : loc_t) : Prop :=
  Acc (fun next current => step S current next) loc

/-- Every reference that is not broken and is reached from the location has
its key in the component map. -/
def references_present (S : store_t) (loc : loc_t) : Prop :=
  ∀ target n, reachable S loc target → S.read target = .ok n →
    n.type = component_type_reference → n.is_broken = false →
    n.key ∈ map_keys S.components

/-! ## A concrete instance of the helper procedures -/

/-- Modelled from the spec: `to_component_type`: the recognised type strings, and
"unknown" for any other string (section 4.2). -/
def spec_to_component_type (j : json) : Except error_t component_type_t :=
  match j.get_string with
  | .error e => .error e
  | .ok s =>
    if s = "reference" then .ok component_type_reference
    else if s = "region" then .ok component_type_region
    else if s = "view" then .ok component_type_view
    else if s = "currency" then .ok component_type_currency
    else if s = "text_area" then .ok component_type_text_area
    else if s = "text_input" then .ok component_type_text_input
    else if s = "default_form" then .ok component_type_default_form
    else .ok component_type_unknown

/-- Modelled from the spec: `resolve_name` (section 4.1): an expression bound in
the content namespace resolves to the bound string; any other expression is
returned verbatim when a literal is allowed, and fails otherwise. -/
def spec_resolve_name (expr : json) (content : json) (_class_id : String)
    (allow_literal : Bool) : Except error_t String :=
  match expr.get_string with
  | .error e => .error e
  | .ok s =>
    match content.subscript s with
    | .ok (json.string bound) => .ok bound
    | _ => if allow_literal then .ok s else .error .proc_error

/-- Modelled from the spec: `resolve_label` (section 4.1); the field map of this
embedding carries no label metadata, so the label expression is returned as
it is written. -/
def spec_resolve_label (expr : json) (_fields : field_map_t) (_class_id : String) :
    Except error_t String :=
  expr.get_string

/-- Modelled from the spec: `to_bool`: the value of a JSON boolean. -/
def spec_to_bool (j : json) : Except error_t Bool :=
  match j with
  | json.boolean b => .ok b
  | _ => .error .proc_error

/-- The name of a component type, for debug strings. -/
def type_name (t : component_type_t) : String :=
  match t with
  | component_type_unspecified => "Unspecified"
  | component_type_unknown => "Unknown"
  | component_type_reference => "Reference"
  | component_type_region => "Region"
  | component_type_view => "View"
  | component_type_currency => "Currency"
  | component_type_text_area => "TextArea"
  | component_type_text_input => "TextInput"
  | component_type_default_form => "DefaultForm"
  | component_type_count => "Count"

mutual
/-- A compact serialisation of a JSON value. -/
def spec_dump (j : json) : String :=
  match j with
  | json.null => "null"
  | json.boolean b => if b then "true" else "false"
  | json.number n => toString n
  | json.string s => "\"" ++ s ++ "\""
  | json.array xs => "[" ++ spec_dump_array xs ++ "]"
  | json.object kvs => "\x7b" ++ spec_dump_object kvs ++ "\x7d"
/-- The elements of an array, serialised. -/
def spec_dump_array (xs : List json) : String :=
  match xs with
  | [] => ""
  | [x] => spec_dump x
  | x :: rest => spec_dump x ++ "," ++ spec_dump_array rest
/-- The members of an object, serialised. -/
def spec_dump_object (kvs : List (String × json)) : String :=
  match kvs with
  | [] => ""
  | [(k, v)] => "\"" ++ k ++ "\":" ++ spec_dump v
  | (k, v) :: rest => "\"" ++ k ++ "\":" ++ spec_dump v ++ "," ++ spec_dump_object rest
end

/-- Modelled from the spec: an instance of the helper procedures, following
sections 4.1 and 4.2 of the specification; `make_key` concatenates class and
name, the debug string has the form "Type: Name [Info]". -/
def spec_procs : model_procs_t :=
  { to_component_type := spec_to_component_type
    resolve_name := fun expr content class_id => spec_resolve_name expr content class_id true
    resolve_name_4 := spec_resolve_name
    resolve_label := spec_resolve_label
    make_key := fun class_id name => class_id ++ name
    to_bool := spec_to_bool
    to_string := fun t name => type_name t ++ ": " ++ name
    to_string_3 := fun t name r => type_name t ++ ": " ++ name ++ " [" ++ type_name r ++ "]"
    dump := spec_dump
    is_editable := fun c _ => !(c.is_disabled || c.is_readonly) }

/-! ## Example data -/

/-- The component of the scenario of section 8: a required text input with
key "CaseAmount". -/
def amount_input : component_t :=
  { component_t.init with
    type := component_type_text_input, key := "CaseAmount", name := "Amount",
    label := "Amount Label", class_id := "Case", is_required := true }

/-- A field map that binds "CaseAmount" to the given data. -/
def amount_fields (data : String) : field_map_t := [("CaseAmount", { data := data, is_dirty := false })]

/-- A non-broken reference, without children, to the component at "CaseAmount". -/
def amount_reference : component_t :=
  { component_t.init with
    type := component_type_reference, key := "CaseAmount", name := "Amount",
    class_id := "Case", ref_type := component_type_text_input }

/-- A region that owns a reference and an unknown component, and no field. -/
def plain_region : component_t :=
  { component_t.init with
    type := component_type_region, key := "CaseMain", name := "Main", class_id := "Case",
    children := [amount_reference,
      { component_t.init with
        type := component_type_unknown, key := "CaseWidget", name := "Widget",
        class_id := "Case" }] }

def case_app : app_context_t :=
  { case_info := { content := .object [("@PropertyName", .string "Amount")] },
    resources := { components := [], fields := [] } }

def amount_doc : json :=
  .object [("type", .string "text_input"),
    ("config", .object [("value", .string "@PropertyName"), ("label", .string "Amount Label"),
      ("required", .boolean true)])]

def address_doc : json :=
  .object [("type", .string "reference"),
    ("config", .object [("name", .string "Address"), ("type", .string "view"),
      ("context", .string "@CLASS Data-Address")])]

def main_doc : json :=
  .object [("type", .string "region"), ("name", .string "Main"),
    ("children", .array [amount_doc, address_doc])]

def details_doc : json :=
  .object [("type", .string "view"), ("classID", .string "Work"), ("name", .string "Details"),
    ("config", .object [("template", .string "default_form")]),
    ("children", .array [main_doc])]

/-- The component made from `amount_doc` with parent class "Work". -/
def amount_made : component_t :=
  { component_t.init with
    type := component_type_text_input, key := "WorkAmount", name := "Amount",
    label := "Amount Label", class_id := "Work", is_required := true,
    debug_string := "TextInput: Amount Label", json := spec_dump amount_doc }

/-- The component made from `address_doc` with parent class "Work". -/
def address_made : component_t :=
  { component_t.init with
    type := component_type_reference, key := "Data-AddressAddress", name := "Address",
    class_id := "Data-Address", ref_type := component_type_view,
    debug_string := "Reference: Address [View]", json := spec_dump address_doc }

/-- The component made from `main_doc` with parent class "Work". -/
def main_made : component_t :=
  { component_t.init with
    type := component_type_region, key := "WorkMain", name := "Main", class_id := "Work",
    debug_string := "Region: Main", json := spec_dump main_doc,
    children := [amount_made, address_made] }

/-- The component made from `details_doc`, whatever the parent class. -/
def details_made : component_t :=
  { component_t.init with
    type := component_type_view, key := "WorkDetails", name := "Details", class_id := "Work",
    ref_type := component_type_default_form,
    debug_string := "View: Details [DefaultForm]", json := spec_dump details_doc,
    children := [main_made] }

/-- A reference with a class context, and a region as its child. -/
def address_lines_doc : json :=
  .object [("type", .string "reference"),
    ("config", .object [("name", .string "Address"), ("type", .string "view"),
      ("context", .string "@CLASS Data-Address")]),
    ("children", .array [.object [("type", .string "region"), ("name", .string "Lines")]])]

/-- What `make_component_r` makes of the child of `address_lines_doc`. -/
def lines_made : component_t :=
  { component_t.init with
    type := component_type_region, key := "Data-AddressLines", name := "Lines",
    class_id := "Data-Address", debug_string := "Region: Lines",
    json := spec_dump (.object [("type", .string "region"), ("name", .string "Lines")]) }

/-- What `make_component_r` makes of `address_lines_doc` with parent class
"Case". -/
def address_lines_made : component_t :=
  { component_t.init with
    type := component_type_reference, key := "Data-AddressAddress", name := "Address",
    class_id := "Data-Address", ref_type := component_type_view,
    debug_string := "Reference: Address [View]", json := spec_dump address_lines_doc,
    children := [lines_made] }

/-- A reference whose context is not supported. -/
def portal_doc : json :=
  .object [("type", .string "reference"),
    ("config", .object [("name", .string "Header"), ("type", .string "view"),
      ("context", .string "@PORTAL")])]

/-- What `make_component_r` makes of `portal_doc` with parent class "Case". -/
def portal_made : component_t :=
  { component_t.init with
    type := component_type_reference, key := "CaseHeader", name := "Header",
    class_id := "Case", ref_type := component_type_view, is_broken := true,
    broken_string := "Unsupported context: @PORTAL",
    debug_string := "Reference: Header [View]", json := spec_dump portal_doc }

/-- A reference whose context begins with "@CLASS" without being of the form
"@CLASS <name>". -/
def dashed_context_doc : json :=
  .object [("type", .string "reference"),
    ("config", .object [("name", .string "Header"), ("type", .string "view"),
      ("context", .string "@CLASS-Work")])]

/-- What `make_component_r` makes of `dashed_context_doc` with parent class
"Case". -/
def dashed_context_made : component_t :=
  { component_t.init with
    type := component_type_reference, key := "WorkHeader", name := "Header",
    class_id := "Work", ref_type := component_type_view,
    debug_string := "Reference: Header [View]", json := spec_dump dashed_context_doc }

/-- A reference with a class context, one of whose children is not a
component document. -/
def bad_child_doc : json :=
  .object [("type", .string "reference"),
    ("config", .object [("name", .string "Address"), ("type", .string "view"),
      ("context", .string "@CLASS Data-Address")]),
    ("children", .array [.string "oops"])]

/-- A region whose second child has a type that maps to
`component_type_default_form`, for which the switch assigns no name. -/
def bad_grandchild_doc : json :=
  .object [("type", .string "region"), ("name", .string "Outer"),
    ("children", .array [main_doc, .object [("type", .string "default_form")]])]

/-- A reference whose context is not supported, and which has as its child a
reference of the same name without a context. -/
def nested_header_doc : json :=
  .object [("type", .string "reference"),
    ("config", .object [("name", .string "Header"), ("type", .string "view"),
      ("context", .string "@PORTAL")]),
    ("children", .array [.object [("type", .string "reference"),
      ("config", .object [("name", .string "Header"), ("type", .string "view")])]])]

/-- What `make_component_r` makes of `nested_header_doc` with parent class
"Case": a broken reference that owns a reference, not broken, with the same
key "CaseHeader". -/
def broken_parent : component_t :=
  { component_t.init with
    type := component_type_reference, key := "CaseHeader", name := "Header",
    class_id := "Case", ref_type := component_type_view, is_broken := true,
    broken_string := "Unsupported context: @PORTAL",
    debug_string := "Reference: Header [View]", json := spec_dump nested_header_doc,
    children := [{ component_t.init with
      type := component_type_reference, key := "CaseHeader", name := "Header",
      class_id := "Case", ref_type := component_type_view,
      debug_string := "Reference: Header [View]",
      json := spec_dump (.object [("type", .string "reference"),
        ("config", .object [("name", .string "Header"), ("type", .string "view")])]) }] }

/-- A broken reference without children. -/
def broken_leaf : component_t :=
  { component_t.init with
    type := component_type_reference, key := "CaseHeader", name := "Header",
    class_id := "Case", is_broken := true, broken_string := "Unsupported context: @PORTAL",
    is_selected := true }

/-- A frame that holds `broken_leaf` outside an empty component map. -/
def broken_leaf_frame : frame_t :=
  { store := { detached := broken_leaf, components := [] }, fields := [], id := 0,
    component_debug_json := "", queries := 0 }

/-- An ImGui that reports every item clicked and leaves every text as it is. -/
def always_clicked : imgui_t :=
  { is_item_clicked := fun _ => true, input_text := fun _ text => text }

/-- A region that owns two references to the component at "CaseAmount". -/
def two_references : component_t :=
  { component_t.init with
    type := component_type_region, key := "CaseMain", name := "Main", class_id := "Case",
    children := [amount_reference, amount_reference] }

/-- A text area, with `is_selected` as given. -/
def note_area (is_selected : Bool) : component_t :=
  { component_t.init with
    type := component_type_text_area, key := "CaseNote", name := "Note", class_id := "Case",
    is_selected := is_selected }

/-- A component map in which "CaseAmount" is reached through two references,
and "CaseNote" is the selected component. -/
def selection_before : store_t :=
  { detached := component_t.init,
    components := [("CaseMain", two_references), ("CaseAmount", amount_input),
      ("CaseNote", note_area true)] }

/-- The same map once "CaseAmount" has been selected. -/
def selection_after : store_t :=
  { detached := component_t.init,
    components := [("CaseMain", two_references),
      ("CaseAmount", { amount_input with is_selected := true }),
      ("CaseNote", note_area false)] }

/-- A rank for the keys of `selection_before`: "CaseMain" above the others. -/
def selection_rank (key : String) : Nat := if key = "CaseMain" then 1 else 0

/-- A required text input whose key "CaseGhost" no field map below binds. -/
def ghost_input : component_t :=
  { component_t.init with
    type := component_type_text_input, key := "CaseGhost", name := "Ghost",
    class_id := "Case", is_required := true }

/-- A region that owns the required input "CaseAmount" and, after it, the
required input "CaseGhost". -/
def amount_then_ghost : component_t :=
  { component_t.init with
    type := component_type_region, key := "CaseMain", name := "Main", class_id := "Case",
    children := [amount_input, ghost_input] }

/-- A view without a template that owns the required input "CaseGhost" and,
after it, the required input "CaseAmount". -/
def ghost_then_amount_view : component_t :=
  { component_t.init with
    type := component_type_view, key := "CaseDetails", name := "Details", class_id := "Case",
    children := [ghost_input, amount_input] }

/-- A view without a template that owns the required input "CaseAmount". -/
def amount_view : component_t :=
  { component_t.init with
    type := component_type_view, key := "CaseDetails", name := "Details", class_id := "Case",
    children := [amount_input] }

/-- A frame whose component map holds `amount_view` and whose field map binds
"CaseAmount" to empty data. -/
def amount_view_frame : frame_t :=
  { store := { detached := component_t.init, components := [("CaseDetails", amount_view)] },
    fields := amount_fields "", id := 0, component_debug_json := "", queries := 0 }

/-- The map of `selection_before` with no component selected. -/
def selection_none : store_t :=
  { detached := component_t.init,
    components := [("CaseMain", two_references), ("CaseAmount", amount_input),
      ("CaseNote", note_area false)] }

/-- The map of `selection_before` with "CaseAmount" selected as well. -/
def selection_both : store_t :=
  { detached := component_t.init,
    components := [("CaseMain", two_references),
      ("CaseAmount", { amount_input with is_selected := true }),
      ("CaseNote", note_area true)] }

/-- The map of `selection_both` once `deselect_component_r` has run on
"CaseMain": "CaseAmount", which the references of "CaseMain" lead to, is
deselected, and "CaseNote", which they do not lead to, is still selected. -/
def selection_main_cleared : store_t :=
  { detached := component_t.init,
    components := [("CaseMain", two_references), ("CaseAmount", amount_input),
      ("CaseNote", note_area true)] }

/-- A reference that is not broken and whose key is "CaseLoop". -/
def loop_reference : component_t :=
  { component_t.init with
    type := component_type_reference, key := "CaseLoop", name := "Loop", class_id := "Case",
    ref_type := component_type_view }

/-- A component map that stores `loop_reference` at its own key. -/
def loop_store : store_t :=
  { detached := component_t.init, components := [("CaseLoop", loop_reference)] }

/-! # Theorems -/

/-! ## Basic facts -/

theorem empty_iff (s : String) : empty s = true ↔ s = "" := by
  constructor
  · intro h
    cases s with
    | mk d => cases d with
      | nil => rfl
      | cons a l => simp [empty] at h
  · rintro rfl
    rfl

theorem empty_eq_false_iff (s : String) : empty s = false ↔ s ≠ "" := by
  rw [Ne, ← empty_iff]
  simp

theorem bind_eq_ok {ε α β : Type} {x : Except ε α} {f : α → Except ε β} {b : β} :
    (x >>= f) = .ok b ↔ ∃ a, x = .ok a ∧ f a = .ok b := by
  cases x with
  | error e => simp [bind, Except.bind]
  | ok a => simp [bind, Except.bind]

theorem pure_eq_ok {ε α : Type} {a b : α} : (pure a : Except ε α) = .ok b ↔ a = b := by
  simp [pure, Except.pure]

theorem map_at_of_mem_keys {α : Type} (m : List (String × α)) (key : String)
    (h : key ∈ map_keys m) : ∃ v, map_at m key = .ok v := by
  induction m with
  | nil => simp [map_keys] at h
  | cons p rest ih =>
    obtain ⟨k, v⟩ := p
    by_cases hk : k = key
    · exact ⟨v, by simp [map_at, hk]⟩
    · have h2 : key ∈ map_keys rest := by
        simp only [map_keys, List.map_cons, List.mem_cons] at h
        rcases h with h | h
        · exact absurd h.symm hk
        · exact h
      obtain ⟨w, hw⟩ := ih h2
      exact ⟨w, by simp [map_at, hk, hw]⟩

theorem map_at_of_mem_nodup {α : Type} (m : List (String × α)) (k : String) (v : α)
    (hmem : (k, v) ∈ m) (hnodup : (map_keys m).Nodup) : map_at m k = .ok v := by
  induction m with
  | nil => exact absurd hmem (List.not_mem_nil _)
  | cons p rest ih =>
    obtain ⟨k', v'⟩ := p
    simp only [map_keys, List.map_cons, List.nodup_cons] at hnodup
    rcases List.mem_cons.1 hmem with h | h
    · simp only [Prod.mk.injEq] at h
      obtain ⟨rfl, rfl⟩ := h
      simp [map_at]
    · have hne : k' ≠ k := by
        rintro rfl
        exact hnodup.1 (List.mem_map.2 ⟨(k', v), h, rfl⟩)
      simp only [map_at, hne, if_false]
      exact ih h hnodup.2

theorem mem_keys_of_mem {α : Type} (m : List (String × α)) (k : String) (v : α)
    (hmem : (k, v) ∈ m) : k ∈ map_keys m :=
  List.mem_map.2 ⟨(k, v), hmem, rfl⟩

theorem mem_keys_of_map_at {α : Type} (m : List (String × α)) (k : String) (v : α)
    (hat : map_at m k = .ok v) : k ∈ map_keys m := by
  induction m with
  | nil => simp [map_at] at hat
  | cons p rest ih =>
    obtain ⟨k', v'⟩ := p
    simp only [map_at] at hat
    by_cases hk : k' = k
    · simp [map_keys, hk]
    · simp only [hk, if_false] at hat
      simp only [map_keys, List.map_cons, List.mem_cons]
      exact Or.inr (ih hat)

theorem mem_of_map_at {α : Type} (m : List (String × α)) (k : String) (v : α)
    (h : map_at m k = .ok v) : (k, v) ∈ m := by
  induction m with
  | nil => simp [map_at] at h
  | cons p rest ih =>
    obtain ⟨k', v'⟩ := p
    simp only [map_at] at h
    by_cases hk : k' = k
    · simp only [hk, if_true, Except.ok.injEq] at h
      subst h
      subst hk
      exact List.mem_cons_self _ _
    · simp only [hk, if_false] at h
      exact List.mem_cons_of_mem _ (ih h)

theorem le_sum_of_mem (xs : List Nat) (x : Nat) (h : x ∈ xs) : x ≤ xs.sum := by
  induction xs with
  | nil => exact absurd h (List.not_mem_nil _)
  | cons y ys ih =>
    simp only [List.sum_cons]
    rcases List.mem_cons.1 h with rfl | h
    · exact Nat.le_add_right _ _
    · exact Nat.le_trans (ih h) (Nat.le_add_left _ _)

theorem map_keys_map_update {α : Type} (m : List (String × α)) (key : String) (f : α → α) :
    map_keys (map_update m key f) = map_keys m := by
  induction m with
  | nil => rfl
  | cons p rest ih =>
    obtain ⟨k, v⟩ := p
    simp only [map_update]
    split
    · rfl
    · simp only [map_keys, List.map_cons] at ih ⊢
      rw [ih]

theorem map_at_map_update {α : Type} (m : List (String × α)) (key key' : String) (f : α → α) :
    map_at (map_update m key f) key' =
      if key' = key then
        match map_at m key with
        | .ok v => .ok (f v)
        | .error e => .error e
      else map_at m key' := by
  induction m with
  | nil =>
    simp only [map_update, map_at]
    split <;> rfl
  | cons p rest ih =>
    obtain ⟨k, v⟩ := p
    simp only [map_update]
    by_cases hk : k = key
    · subst hk
      simp only [if_true, map_at]
      by_cases hk' : key' = k
      · subst hk'
        simp
      · simp [hk', Ne.symm hk']
    · simp only [hk, if_false, map_at]
      by_cases hk' : key' = key
      · subst hk'
        simp only [hk, if_false, if_true]
        rw [ih]
        simp
      · by_cases hkk : k = key'
        · simp [hkk, hk']
        · simp only [hkk, if_false, hk']
          rw [ih]
          simp [hk']

theorem forall₂_get? {α β : Type} {R : α → β → Prop} {xs : List α} {ys : List β}
    (h : List.Forall₂ R xs ys) (i : Nat) (y : β) (hy : ys.get? i = some y) :
    ∃ x, xs.get? i = some x ∧ R x y := by
  induction h generalizing i with
  | nil => simp at hy
  | cons h1 _ ih =>
    cases i with
    | zero =>
      simp only [List.get?_cons_zero, Option.some.injEq] at hy
      subst hy
      exact ⟨_, rfl, h1⟩
    | succ i => exact ih i hy

theorem for_each_nil {α σ : Type} (body : α → σ → Except error_t σ) (s : σ) :
    for_each [] body s = .ok s := rfl

theorem nodes_eq (c : component_t) : c.nodes = c :: nodes_list c.children := by
  cases c; simp [component_t.nodes]

theorem descend_nil (c : component_t) : c.descend [] = some c := rfl

theorem descend_cons (c : component_t) (i : Nat) (rest : List Nat) :
    c.descend (i :: rest) =
      match c.children.get? i with
      | none => none
      | some child => child.descend rest := rfl

theorem descend_append (c : component_t) (path rest : List Nat) :
    c.descend (path ++ rest) =
      match c.descend path with
      | none => none
      | some m => m.descend rest := by
  induction path generalizing c with
  | nil => rfl
  | cons i path ih =>
    simp only [List.cons_append, descend_cons]
    cases c.children.get? i with
    | none => rfl
    | some child => exact ih child

mutual
theorem mem_nodes_descend (c m : component_t) (h : m ∈ c.nodes) :
    ∃ path, c.descend path = some m := by
  match c, h with
  | { type := type, key := key, name := name, label := label, class_id := class_id,
      ref_type := ref_type, is_broken := is_broken, is_disabled := is_disabled,
      is_readonly := is_readonly, is_required := is_required, is_selected := is_selected,
      broken_string := broken_string, debug_string := debug_string, json := json,
      children := children }, h =>
    rw [nodes_eq] at h
    rcases List.mem_cons.1 h with h | h
    · exact ⟨[], by rw [h]; rfl⟩
    · obtain ⟨i, child, path, hi, hp⟩ := mem_nodes_list_descend children m h
      exact ⟨i :: path, by simp only [component_t.descend, hi, hp]⟩
theorem mem_nodes_list_descend (cs : List component_t) (m : component_t)
    (h : m ∈ nodes_list cs) :
    ∃ i child path, cs.get? i = some child ∧ child.descend path = some m := by
  match cs, h with
  | [], h => simp [nodes_list] at h
  | c :: rest, h =>
    simp only [nodes_list, List.mem_append] at h
    rcases h with h | h
    · obtain ⟨path, hp⟩ := mem_nodes_descend c m h
      exact ⟨0, c, path, rfl, hp⟩
    · obtain ⟨i, child, path, hi, hp⟩ := mem_nodes_list_descend rest m h
      exact ⟨i + 1, child, path, by simpa using hi, hp⟩
end

theorem nodes_of_child (children : List component_t) (i : Nat) (child : component_t)
    (h : children.get? i = some child) :
    child.nodes.length ≤ (nodes_list children).length ∧
      ∀ n ∈ child.nodes, n ∈ nodes_list children := by
  induction children generalizing i with
  | nil => simp at h
  | cons c rest ih =>
    cases i with
    | zero =>
      simp only [List.get?_cons_zero, Option.some.injEq] at h
      subst h
      simp only [nodes_list, List.length_append, List.mem_append]
      exact ⟨Nat.le_add_right _ _, fun n hn => Or.inl hn⟩
    | succ i =>
      obtain ⟨h1, h2⟩ := ih i h
      simp only [nodes_list, List.length_append, List.mem_append]
      exact ⟨Nat.le_trans h1 (Nat.le_add_left _ _), fun n hn => Or.inr (h2 n hn)⟩

/-- A component reached by a path is one of the nodes of the tree, and the
path is shorter than the tree has nodes. -/
theorem descend_mem_nodes (path : List Nat) :
    ∀ (c n : component_t), c.descend path = some n →
      n ∈ c.nodes ∧ path.length < c.nodes.length := by
  induction path with
  | nil =>
    intro c n h
    simp only [descend_nil, Option.some.injEq] at h
    subst h
    rw [nodes_eq]
    exact ⟨List.mem_cons_self _ _, by simp⟩
  | cons i rest ih =>
    intro c n h
    rw [descend_cons] at h
    cases hi : c.children.get? i with
    | none =>
      rw [hi] at h
      exact absurd h (by simp)
    | some child =>
      rw [hi] at h
      obtain ⟨h1, h2⟩ := ih child n h
      obtain ⟨h3, h4⟩ := nodes_of_child c.children i child hi
      rw [nodes_eq]
      refine ⟨List.mem_cons_of_mem _ (h4 n h1), ?_⟩
      simp only [List.length_cons]
      omega

/-! ## `validate_component_r` -/

theorem validate_component_r_eq (c : component_t) (M : component_map_t) (F : field_map_t) :
    validate_component_r c M F =
      match (if is_required_field c then
          match map_at F c.key with
          | .error e => .error e
          | .ok field => if empty field.data then .ok false else .ok true
        else (.ok true : Except error_t Bool)) with
      | .error e => .error e
      | .ok v => validate_children c.children M F v := by
  cases c with
  | mk type key name label class_id ref_type is_broken is_disabled is_readonly is_required
      is_selected broken_string debug_string json children =>
    cases type <;> cases is_required <;>
      simp [validate_component_r, is_field_type, is_required_field]

theorem validate_node_spec (c : component_t) (M : component_map_t) (F : field_map_t)
    (hkey : is_required_field c = true → c.key ∈ map_keys F) :
    ∃ v, validate_component_r c M F = validate_children c.children M F v ∧
      (v = false ↔ is_required_field c = true ∧ bound_data_empty F c) := by
  rw [validate_component_r_eq]
  by_cases hr : is_required_field c = true
  · obtain ⟨f, hf⟩ := map_at_of_mem_keys F c.key (hkey hr)
    by_cases he : empty f.data = true
    · refine ⟨false, by simp [hr, hf, he], ?_⟩
      simp [hr, bound_data_empty, hf, (empty_iff _).1 he]
    · refine ⟨true, by simp [hr, hf, he], ?_⟩
      simp [hr, bound_data_empty, hf]
      intro h
      exact he ((empty_iff _).2 h)
  · exact ⟨true, by simp [hr], by simp [hr]⟩

mutual
theorem validate_component_r_spec (c : component_t) (M : component_map_t) (F : field_map_t)
    (hkeys : ∀ n ∈ c.nodes, is_required_field n = true → n.key ∈ map_keys F) :
    ∃ b, validate_component_r c M F = .ok b ∧
      (b = false ↔ ∃ n ∈ c.nodes, is_required_field n = true ∧ bound_data_empty F n) := by
  match c, hkeys with
  | { type := type, key := key, name := name, label := label, class_id := class_id,
      ref_type := ref_type, is_broken := is_broken, is_disabled := is_disabled,
      is_readonly := is_readonly, is_required := is_required, is_selected := is_selected,
      broken_string := broken_string, debug_string := debug_string, json := json,
      children := children }, hkeys =>
    rw [nodes_eq] at hkeys
    obtain ⟨v, hv, hviff⟩ := validate_node_spec _ M F (hkeys _ (List.mem_cons_self _ _))
    obtain ⟨b, hb, hbiff⟩ := validate_children_spec children M F v
      (fun n hn => hkeys n (List.mem_cons_of_mem _ hn))
    refine ⟨b, by rw [hv]; exact hb, ?_⟩
    rw [hbiff, hviff, nodes_eq]
    simp only [List.mem_cons, exists_eq_or_imp]
theorem validate_children_spec (cs : List component_t) (M : component_map_t) (F : field_map_t)
    (v : Bool)
    (hkeys : ∀ n ∈ nodes_list cs, is_required_field n = true → n.key ∈ map_keys F) :
    ∃ b, validate_children cs M F v = .ok b ∧
      (b = false ↔ v = false ∨ ∃ n ∈ nodes_list cs, is_required_field n = true ∧
          bound_data_empty F n) := by
  match cs, hkeys with
  | [], _ => exact ⟨v, by simp [validate_children], by simp [nodes_list]⟩
  | c :: rest, hkeys =>
    simp only [nodes_list, List.mem_append] at hkeys
    obtain ⟨b1, hb1, hb1iff⟩ := validate_component_r_spec c M F (fun n hn => hkeys n (Or.inl hn))
    obtain ⟨b2, hb2, hb2iff⟩ := validate_children_spec rest M F b1 (fun n hn => hkeys n (Or.inr hn))
    cases v with
    | false => exact ⟨false, by simp [validate_children], by simp⟩
    | true =>
      refine ⟨b2, by simp [validate_children, hb1, hb2], ?_⟩
      rw [hb2iff, hb1iff]
      simp only [nodes_list, List.mem_append, Bool.true_eq_false, false_or]
      constructor
      · rintro (⟨n, hn, h⟩ | ⟨n, hn, h⟩)
        · exact ⟨n, Or.inl hn, h⟩
        · exact ⟨n, Or.inr hn, h⟩
      · rintro ⟨n, hn | hn, h⟩
        · exact Or.inl ⟨n, hn, h⟩
        · exact Or.inr ⟨n, hn, h⟩
end

mutual
theorem validate_component_r_map_irrelevant (c : component_t) (M1 M2 : component_map_t)
    (F : field_map_t) : validate_component_r c M1 F = validate_component_r c M2 F := by
  match c with
  | { type := type, key := key, name := name, label := label, class_id := class_id,
      ref_type := ref_type, is_broken := is_broken, is_disabled := is_disabled,
      is_readonly := is_readonly, is_required := is_required, is_selected := is_selected,
      broken_string := broken_string, debug_string := debug_string, json := json,
      children := children } =>
    rw [validate_component_r_eq, validate_component_r_eq _ M2]
    have h := fun v => validate_children_map_irrelevant children M1 M2 F v
    simp only [h]
theorem validate_children_map_irrelevant (cs : List component_t) (M1 M2 : component_map_t)
    (F : field_map_t) (v : Bool) : validate_children cs M1 F v = validate_children cs M2 F v := by
  match cs with
  | [] => simp [validate_children]
  | c :: rest =>
    have h1 := validate_component_r_map_irrelevant c M1 M2 F
    have h2 := fun v => validate_children_map_irrelevant rest M1 M2 F v
    simp only [validate_children, h1, h2]
end

/-! ## `make_component_r`: the new component -/

theorem make_unknown_ok (P : model_procs_t) (d : json) (p : String)
    (c n : component_t) (h : make_unknown P d p c = .ok n) :
    n.class_id = p ∧ n.type = c.type ∧ n.children = c.children := by
  simp only [make_unknown, bind_eq_ok, pure_eq_ok] at h
  obtain ⟨a, _, nm, _, rfl⟩ := h
  simp

theorem make_region_ok (P : model_procs_t) (d : json) (app : app_context_t) (p : String)
    (c n : component_t) (h : make_region P d app p c = .ok n) :
    n.class_id = p ∧ n.type = c.type ∧ n.children = c.children := by
  simp only [make_region, bind_eq_ok, pure_eq_ok] at h
  obtain ⟨a, _, nm, _, rfl⟩ := h
  simp

theorem make_field_ok (P : model_procs_t) (d : json) (app : app_context_t) (p : String)
    (c n : component_t) (h : make_field P d app p c = .ok n) :
    n.class_id = p ∧ n.type = c.type ∧ n.children = c.children := by
  simp only [make_field, bind_eq_ok, pure_eq_ok] at h
  obtain ⟨cfg, _, v, _, nm, _, l, _, lb, _, c1, h1, c2, h2, c3, h3, rfl⟩ := h
  simp

theorem make_view_ok (P : model_procs_t) (d : json) (app : app_context_t)
    (c n : component_t) (h : make_view P d app c = .ok n) :
    n.type = c.type ∧ n.children = c.children ∧
      ∃ j, d.subscript "classID" = .ok j ∧ j.get_string = .ok n.class_id := by
  simp only [make_view, bind_eq_ok, pure_eq_ok] at h
  obtain ⟨j, hj, cls, hcls, nj, _, nm, _, cfg, _, rt, _, rfl⟩ := h
  exact ⟨rfl, rfl, j, hj, hcls⟩

theorem apply_context_ok (cfg : json) (c n : component_t) (h : apply_context cfg c = .ok n) :
    n.type = c.type ∧ n.children = c.children ∧ n.name = c.name ∧
      (cfg.contains "context" = false → n = c) := by
  unfold apply_context at h
  split at h
  · rename_i hc
    split at h
    · simp at h
    · split at h
      · simp at h
      · split at h
        · simp at h
        · split at h
          · split at h
            · simp at h
            · simp only [Except.ok.injEq] at h
              subst h
              simp [hc]
          · simp only [Except.ok.injEq] at h
            subst h
            simp [hc]
  · rename_i hc
    simp only [Except.ok.injEq] at h
    subst h
    simp

theorem make_reference_ok (P : model_procs_t) (d : json) (app : app_context_t) (p : String)
    (c n : component_t) (h : make_reference P d app p c = .ok n) :
    n.type = c.type ∧ n.children = c.children ∧ (config_has_context d = false → n.class_id = p) := by
  simp only [make_reference, bind_eq_ok, pure_eq_ok] at h
  obtain ⟨cfg, hcfg, nj, _, nm, _, rj, _, rt, _, m, hm, rfl⟩ := h
  obtain ⟨h1, h2, _, h4⟩ := apply_context_ok _ _ _ hm
  refine ⟨h1, h2, ?_⟩
  intro hctx
  simp only [config_has_context, hcfg] at hctx
  rw [h4 hctx]

theorem make_switch_ok (P : model_procs_t) (d : json) (app : app_context_t) (p : String)
    (c n : component_t) (h : make_switch P d app p c = .ok n) :
    n.type = c.type ∧ n.children = c.children ∧
      (empty n.class_id = false → n.type ≠ component_type_view →
        ¬ (n.type = component_type_reference ∧ config_has_context d = true) →
        c.class_id = "" → n.class_id = p) := by
  unfold make_switch at h
  split at h
  · rename_i ht
    obtain ⟨h1, h2, h3⟩ := make_unknown_ok _ _ _ _ _ h
    exact ⟨h2, h3, fun _ _ _ _ => h1⟩
  · rename_i ht
    obtain ⟨h2, h3, h1⟩ := make_reference_ok _ _ _ _ _ _ h
    refine ⟨h2, h3, fun _ _ hr _ => h1 ?_⟩
    cases hcc : config_has_context d with
    | false => rfl
    | true => exact absurd ⟨h2.trans ht, hcc⟩ hr
  · obtain ⟨h1, h2, h3⟩ := make_region_ok _ _ _ _ _ _ h
    exact ⟨h2, h3, fun _ _ _ _ => h1⟩
  · rename_i ht
    obtain ⟨h2, h3, _⟩ := make_view_ok _ _ _ _ _ h
    exact ⟨h2, h3, fun _ hv _ _ => absurd (h2.trans ht) hv⟩
  · obtain ⟨h1, h2, h3⟩ := make_field_ok _ _ _ _ _ _ h
    exact ⟨h2, h3, fun _ _ _ _ => h1⟩
  · obtain ⟨h1, h2, h3⟩ := make_field_ok _ _ _ _ _ _ h
    exact ⟨h2, h3, fun _ _ _ _ => h1⟩
  · obtain ⟨h1, h2, h3⟩ := make_field_ok _ _ _ _ _ _ h
    exact ⟨h2, h3, fun _ _ _ _ => h1⟩
  all_goals
    simp only [Except.ok.injEq] at h
    subst h
    refine ⟨rfl, rfl, fun he _ _ hc => ?_⟩
    rw [hc] at he
    exact absurd he (by decide)

theorem finalize_ok (P : model_procs_t) (c n : component_t) (h : finalize P c = .ok n) :
    n = { c with key := P.make_key c.class_id c.name } ∧
      empty c.name = false ∧ empty c.class_id = false ∧ c.type ≠ component_type_unspecified := by
  unfold finalize at h
  split at h
  · simp at h
  · rename_i hne
    simp only [Except.ok.injEq] at h
    simp only [Bool.or_eq_true, beq_iff_eq, not_or, Bool.not_eq_true] at hne
    exact ⟨h.symm, hne.1.1, hne.1.2, hne.2⟩

/-- What a successfully made new component satisfies. -/
theorem make_component_node_ok (P : model_procs_t) (d : json) (app : app_context_t) (p : String)
    (n : component_t) (h : make_component_node P d app p = .ok n) :
    n.key = P.make_key n.class_id n.name ∧
    empty n.name = false ∧ empty n.class_id = false ∧ n.type ≠ component_type_unspecified ∧
    n.children = [] ∧
    (∃ tj, d.subscript "type" = .ok tj ∧ P.to_component_type tj = .ok n.type) ∧
    (n.type ≠ component_type_view →
      ¬ (n.type = component_type_reference ∧ config_has_context d = true) →
      n.class_id = p) := by
  unfold make_component_node at h
  split at h
  · simp at h
  rename_i m hdraft
  have hfin := h
  simp only [make_component_draft, bind_eq_ok] at hdraft
  obtain ⟨tj, htj, t, ht, hm⟩ := hdraft
  obtain ⟨rfl, hname, hcls, htype⟩ := finalize_ok _ _ _ hfin
  obtain ⟨h1, h2, h3⟩ := make_switch_ok _ _ _ _ _ _ hm
  simp only [component_t.init] at h1 h2 h3
  refine ⟨rfl, hname, hcls, htype, h2, ⟨tj, htj, by rw [ht, h1]⟩, ?_⟩
  intro hv hr
  exact h3 hcls hv hr trivial

/-! ## `make_component_r`: the children -/

theorem make_component_r_eq (P : model_procs_t) (d : json) (app : app_context_t) (p : String) :
    make_component_r P d app p =
      match make_component_node P d app p with
      | .error e => .error e
      | .ok n =>
        match make_children P (children_json d) app n.class_id with
        | .error e => .error e
        | .ok cs => .ok { n with children := n.children ++ cs } := by
  rw [make_component_r]

theorem make_children_nil (P : model_procs_t) (app : app_context_t) (cls : String) :
    make_children P [] app cls = .ok [] := by
  rw [make_children]

theorem make_children_cons (P : model_procs_t) (d : json) (ds : List json) (app : app_context_t)
    (cls : String) :
    make_children P (d :: ds) app cls =
      match make_component_r P d app cls with
      | .error e => .error e
      | .ok c =>
        match make_children P ds app cls with
        | .error e => .error e
        | .ok cs => .ok (c :: cs) := by
  rw [make_children]

/-- A successful `make_component_r` is a successful new component followed by
a successful loop over the children, run with the class of the new component. -/
theorem make_component_r_ok (P : model_procs_t) (d : json) (app : app_context_t) (p : String)
    (c : component_t) (h : make_component_r P d app p = .ok c) :
    ∃ n, make_component_node P d app p = .ok n ∧
      make_children P (children_json d) app n.class_id = .ok c.children ∧
      c = { n with children := c.children } := by
  rw [make_component_r_eq] at h
  split at h
  · simp at h
  · rename_i n hn
    split at h
    · simp at h
    · rename_i cs hcs
      have hnil := (make_component_node_ok P d app p n hn).2.2.2.2.1
      simp only [Except.ok.injEq] at h
      subst h
      simp only [hnil, List.nil_append]
      exact ⟨n, hn, hcs, rfl⟩

theorem make_children_ok (P : model_procs_t) (app : app_context_t) (cls : String)
    (ds : List json) (cs : List component_t) (h : make_children P ds app cls = .ok cs) :
    List.Forall₂ (fun d c => make_component_r P d app cls = .ok c) ds cs := by
  induction ds generalizing cs with
  | nil =>
    rw [make_children_nil] at h
    simp only [Except.ok.injEq] at h
    subst h
    exact List.Forall₂.nil
  | cons d ds ih =>
    rw [make_children_cons] at h
    split at h
    · simp at h
    · rename_i c hc
      split at h
      · simp at h
      · rename_i cs2 hcs2
        simp only [Except.ok.injEq] at h
        subst h
        exact List.Forall₂.cons hc (ih cs2 hcs2)

theorem make_children_of_forall₂ (P : model_procs_t) (app : app_context_t) (cls : String)
    (ds : List json) (cs : List component_t)
    (h : List.Forall₂ (fun d c => make_component_r P d app cls = .ok c) ds cs) :
    make_children P ds app cls = .ok cs := by
  induction h with
  | nil => exact make_children_nil P app cls
  | cons h1 _ ih => rw [make_children_cons, h1, ih]

theorem make_component_r_of (P : model_procs_t) (d : json) (app : app_context_t) (p : String)
    (c : component_t)
    (hn : make_component_node P d app p = .ok { c with children := [] })
    (hcs : make_children P (children_json d) app c.class_id = .ok c.children) :
    make_component_r P d app p = .ok c := by
  cases c
  rw [make_component_r_eq, hn]
  simp only [hcs, List.nil_append]

theorem make_children_of (P : model_procs_t) (d : json) (ds : List json) (app : app_context_t)
    (cls : String) (c : component_t) (cs : List component_t)
    (hc : make_component_r P d app cls = .ok c) (hcs : make_children P ds app cls = .ok cs) :
    make_children P (d :: ds) app cls = .ok (c :: cs) := by
  rw [make_children_cons, hc]
  simp only [hcs]

theorem make_children_total (P : model_procs_t) (app : app_context_t) (cls : String)
    (ds : List json) (h : ∀ d ∈ ds, ∃ c, make_component_r P d app cls = .ok c) :
    ∃ cs, make_children P ds app cls = .ok cs := by
  induction ds with
  | nil => exact ⟨[], make_children_nil P app cls⟩
  | cons d ds ih =>
    obtain ⟨c, hc⟩ := h d (List.mem_cons_self _ _)
    obtain ⟨cs, hcs⟩ := ih (fun x hx => h x (List.mem_cons_of_mem _ hx))
    exact ⟨c :: cs, make_children_of P d ds app cls c cs hc hcs⟩

theorem make_component_r_error_of_node (P : model_procs_t) (d : json) (app : app_context_t)
    (p : String) (e : error_t) (h : make_component_node P d app p = .error e) :
    make_component_r P d app p = .error e := by
  rw [make_component_r_eq, h]

theorem make_children_error_of_get? (P : model_procs_t) (app : app_context_t) (cls : String)
    (ds : List json) (i : Nat) (d : json) (hd : ds.get? i = some d)
    (h : ∃ e, make_component_r P d app cls = .error e) :
    ∃ e, make_children P ds app cls = .error e := by
  induction ds generalizing i with
  | nil => simp at hd
  | cons x xs ih =>
    rw [make_children_cons]
    cases i with
    | zero =>
      simp only [List.get?_cons_zero, Option.some.injEq] at hd
      subst hd
      obtain ⟨e, he⟩ := h
      exact ⟨e, by rw [he]⟩
    | succ i =>
      cases hx : make_component_r P x app cls with
      | error e => exact ⟨e, rfl⟩
      | ok c =>
        obtain ⟨e, he⟩ := ih i hd
        exact ⟨e, by simp only [he]⟩

theorem make_component_r_error_of_child (P : model_procs_t) (d : json) (app : app_context_t)
    (p : String) (n : component_t) (hn : make_component_node P d app p = .ok n)
    (h : ∃ e, make_children P (children_json d) app n.class_id = .error e) :
    ∃ e, make_component_r P d app p = .error e := by
  obtain ⟨e, he⟩ := h
  exact ⟨e, by rw [make_component_r_eq, hn]; simp only [he]⟩

/-- A document that has, at any depth, a node whose draft violates the
validation, whatever parent class it is given, cannot be made. -/
theorem make_component_r_error_of_descendant (P : model_procs_t) (app : app_context_t)
    (path : List Nat) :
    ∀ (d : json) (p : String) (d' : json), doc_descend d path = some d' →
      (∀ q n, make_component_draft P d' app q = .ok n →
        empty n.name = true ∨ empty n.class_id = true ∨ n.type = component_type_unspecified) →
      ∃ e, make_component_r P d app p = .error e := by
  induction path with
  | nil =>
    intro d p d' hd hviol
    simp only [doc_descend, Option.some.injEq] at hd
    subst hd
    have hnode : ∃ e, make_component_node P d app p = .error e := by
      unfold make_component_node
      cases hdraft : make_component_draft P d app p with
      | error e => exact ⟨e, rfl⟩
      | ok n =>
        refine ⟨.runtime_error, ?_⟩
        simp only [finalize]
        rcases hviol p n hdraft with h | h | h <;> simp [h]
    obtain ⟨e, he⟩ := hnode
    exact ⟨e, make_component_r_error_of_node P d app p e he⟩
  | cons i rest ih =>
    intro d p d' hd hviol
    simp only [doc_descend] at hd
    split at hd
    · simp at hd
    · rename_i d1 hd1
      cases hnode : make_component_node P d app p with
      | error e => exact ⟨e, make_component_r_error_of_node P d app p e hnode⟩
      | ok n =>
        exact make_component_r_error_of_child P d app p n hnode
          (make_children_error_of_get? P app _ _ i d1 hd1 (ih d1 n.class_id d' hd hviol))

/-! ## `make_component_r`: the tree -/

theorem doc_descend_append (d : json) (path : List Nat) (i : Nat) :
    doc_descend d (path ++ [i]) =
      match doc_descend d path with
      | none => none
      | some x => (children_json x).get? i := by
  induction path generalizing d with
  | nil =>
    simp only [List.nil_append, doc_descend]
    cases (children_json d).get? i <;> rfl
  | cons j rest ih =>
    simp only [List.cons_append, doc_descend]
    cases (children_json d).get? j with
    | none => rfl
    | some x => exact ih x

/-- The child at index `i` of a made component is made from the document at
index `i`, with the class of the made component as parent class. -/
theorem make_component_r_child (P : model_procs_t) (d : json) (app : app_context_t) (p : String)
    (c : component_t) (h : make_component_r P d app p = .ok c) (i : Nat) (child : component_t)
    (hc : c.children.get? i = some child) :
    ∃ d', (children_json d).get? i = some d' ∧
      make_component_r P d' app c.class_id = .ok child := by
  obtain ⟨n, _, hcs, hcn⟩ := make_component_r_ok P d app p c h
  have hcls : c.class_id = n.class_id := by rw [hcn]
  rw [hcls]
  exact forall₂_get? (make_children_ok P app _ _ _ hcs) i child hc

/-- Every component of a made tree is made from the document at the same
path, with some parent class. -/
theorem make_component_r_descend (P : model_procs_t) (app : app_context_t) (path : List Nat) :
    ∀ (d : json) (p : String) (c m : component_t), make_component_r P d app p = .ok c →
      c.descend path = some m →
      ∃ d' q, doc_descend d path = some d' ∧ make_component_r P d' app q = .ok m := by
  induction path with
  | nil =>
    intro d p c m h hm
    simp only [component_t.descend, Option.some.injEq] at hm
    subst hm
    exact ⟨d, p, rfl, h⟩
  | cons i rest ih =>
    intro d p c m h hm
    simp only [component_t.descend] at hm
    split at hm
    · simp at hm
    · rename_i child hchild
      obtain ⟨d1, hd1, hmk⟩ := make_component_r_child P d app p c h i child hchild
      obtain ⟨d', q, hd', hq⟩ := ih d1 c.class_id child m hmk hm
      exact ⟨d', q, by simp only [doc_descend, hd1, hd'], hq⟩

/-- Every component of a made tree is itself the result of `make_component_r`
on some document. -/
theorem make_component_r_nodes (P : model_procs_t) (d : json) (app : app_context_t) (p : String)
    (c : component_t) (h : make_component_r P d app p = .ok c) (m : component_t)
    (hm : m ∈ c.nodes) : ∃ d' q, make_component_r P d' app q = .ok m := by
  obtain ⟨path, hp⟩ := mem_nodes_descend c m hm
  obtain ⟨d', q, _, hq⟩ := make_component_r_descend P app path d p c m h hp
  exact ⟨d', q, hq⟩

/-- The own members of a made component are those of its new component. -/
theorem make_component_r_own (P : model_procs_t) (d : json) (app : app_context_t) (p : String)
    (c : component_t) (h : make_component_r P d app p = .ok c) :
    c.key = P.make_key c.class_id c.name ∧
    empty c.name = false ∧ empty c.class_id = false ∧ c.type ≠ component_type_unspecified ∧
    (c.type ≠ component_type_view →
      ¬ (c.type = component_type_reference ∧ config_has_context d = true) →
      c.class_id = p) := by
  obtain ⟨n, hn, _, hcn⟩ := make_component_r_ok P d app p c h
  obtain ⟨h1, h2, h3, h4, _, _, h7⟩ := make_component_node_ok P d app p n hn
  rw [hcn]
  exact ⟨h1, h2, h3, h4, h7⟩

theorem details_doc_made :
    make_component_r spec_procs details_doc case_app "Case" = .ok details_made :=
  make_component_r_of _ _ _ _ _ rfl
    (make_children_of _ _ _ _ _ _ _
      (make_component_r_of _ _ _ _ _ rfl
        (make_children_of _ _ _ _ _ _ _
          (make_component_r_of _ _ _ _ _ rfl (make_children_nil _ _ _))
          (make_children_of _ _ _ _ _ _ _
            (make_component_r_of _ _ _ _ _ rfl (make_children_nil _ _ _))
            (make_children_nil _ _ _))))
      (make_children_nil _ _ _))

theorem lines_doc_made :
    make_component_r spec_procs (.object [("type", .string "region"), ("name", .string "Lines")])
      case_app "Data-Address" = .ok lines_made :=
  make_component_r_of _ _ _ _ _ rfl (make_children_nil _ _ _)

/-! ## `make_component_r`: references and their context -/

theorem contains_of_subscript (j : json) (key : String) (v : json)
    (h : j.subscript key = .ok v) : j.contains key = true := by
  unfold json.subscript at h
  unfold json.contains
  split at h
  · split at h
    · rename_i hf
      simp [hf]
    · simp at h
  · simp at h

theorem substr_class_head (n : String) : substr ("@CLASS " ++ n) 0 (some 6) = .ok "@CLASS" := by
  have hd : ("@CLASS " ++ n).data = '@' :: 'C' :: 'L' :: 'A' :: 'S' :: 'S' :: ' ' :: n.data := by
    rw [String.data_append]
    rfl
  simp only [substr, hd]
  rfl

theorem substr_class_tail (n : String) : substr ("@CLASS " ++ n) 7 none = .ok n := by
  have hd : ("@CLASS " ++ n).data = '@' :: 'C' :: 'L' :: 'A' :: 'S' :: 'S' :: ' ' :: n.data := by
    rw [String.data_append]
    rfl
  simp only [substr, hd]
  simp

theorem substr_head_ne (context : String) (h : begins_with_class context = false) :
    ∃ head, substr context 0 (some 6) = .ok head ∧ head ≠ "@CLASS" := by
  refine ⟨String.mk (context.data.take 6), by simp [substr], ?_⟩
  intro heq
  have : context.data.take 6 = "@CLASS".data := by
    rw [← heq]
  simp [begins_with_class, this] at h

/-- The context of a reference, when it is "@CLASS " followed by `n`. -/
theorem apply_context_class (cfg : json) (n : String) (c : component_t)
    (hctx : cfg.subscript "context" = .ok (json.string ("@CLASS " ++ n))) :
    apply_context cfg c = .ok { c with class_id := n } := by
  simp only [apply_context, contains_of_subscript _ _ _ hctx, hctx, json.get_string,
    substr_class_head, substr_class_tail, if_true]

/-- The context of a reference, when it does not begin with "@CLASS". -/
theorem apply_context_other (cfg : json) (context : String) (c : component_t)
    (hctx : cfg.subscript "context" = .ok (json.string context))
    (hform : begins_with_class context = false) :
    apply_context cfg c = .ok { c with
      is_broken := true, broken_string := "Unsupported context: " ++ context } := by
  obtain ⟨head, hhead, hne⟩ := substr_head_ne context hform
  simp only [apply_context, contains_of_subscript _ _ _ hctx, hctx, json.get_string,
    hhead, hne, if_true, if_false]

/-- The draft of a reference document. -/
theorem make_component_draft_reference (P : model_procs_t) (app : app_context_t) (d : json)
    (p : String) (cfg : json) (nm : String) (rt : component_type_t) (m : component_t)
    (hdoc : reference_document P app d p cfg nm rt)
    (hm : apply_context cfg { component_t.init with
        json := P.dump d, type := component_type_reference, class_id := p, name := nm,
        ref_type := rt } = .ok m) :
    make_component_draft P d app p =
      .ok { m with debug_string := P.to_string_3 m.type m.name m.ref_type } := by
  obtain ⟨⟨tj, htj, ht⟩, hcfg, ⟨nj, hnj, hnm⟩, ⟨rj, hrj, hrt⟩⟩ := hdoc
  simp only [make_component_draft, htj, ht, bind, Except.bind, make_switch, make_reference,
    hcfg, hnj, hnm, hrj, hrt, component_t.init] at hm ⊢
  rw [hm]
  rfl

/-- The finalised component of a reference document whose draft is known. -/
theorem make_component_r_reference (P : model_procs_t) (app : app_context_t) (d : json)
    (p : String) (cfg : json) (nm : String) (rt : component_type_t) (m : component_t)
    (hdoc : reference_document P app d p cfg nm rt)
    (hm : apply_context cfg { component_t.init with
        json := P.dump d, type := component_type_reference, class_id := p, name := nm,
        ref_type := rt } = .ok m)
    (hname : m.name ≠ "") (hclass : m.class_id ≠ "")
    (hchildren : ∀ d' ∈ children_json d, ∃ c', make_component_r P d' app m.class_id = .ok c') :
    ∃ c, make_component_r P d app p = .ok c ∧ c.class_id = m.class_id ∧
      c.is_broken = m.is_broken ∧ c.broken_string = m.broken_string ∧
      List.Forall₂ (fun d' c' => make_component_r P d' app m.class_id = .ok c')
        (children_json d) c.children := by
  have hdraft := make_component_draft_reference P app d p cfg nm rt m hdoc hm
  obtain ⟨htype, hnil, _, _⟩ := apply_context_ok _ _ _ hm
  simp only [component_t.init] at htype hnil
  have hnode : make_component_node P d app p = .ok
      { m with
        debug_string := P.to_string_3 m.type m.name m.ref_type,
        key := P.make_key m.class_id m.name } := by
    simp only [make_component_node, hdraft, finalize, (empty_eq_false_iff _).2 hname,
      (empty_eq_false_iff _).2 hclass, htype]
    rfl
  obtain ⟨cs, hcs⟩ := make_children_total P app m.class_id (children_json d) hchildren
  have hres : make_component_r P d app p = .ok
      { m with
        debug_string := P.to_string_3 m.type m.name m.ref_type,
        key := P.make_key m.class_id m.name,
        children := m.children ++ cs } := by
    rw [make_component_r_eq, hnode]
    simp only [hcs]
  refine ⟨_, hres, rfl, rfl, rfl, ?_⟩
  simp only [hnil, List.nil_append]
  exact make_children_ok P app _ _ _ hcs

/-! ## Assignments to `is_selected` -/

theorem own_set_selected (b : Bool) (c : component_t) : own (set_selected b c) = own c := rfl

theorem own_fields {a b : component_t} (h : own a = own b) :
    a.type = b.type ∧ a.is_broken = b.is_broken ∧ a.key = b.key := by
  have h1 := congrArg component_t.type h
  have h2 := congrArg component_t.is_broken h
  have h3 := congrArg component_t.key h
  exact ⟨h1, h2, h3⟩

/-- An assignment to `is_selected` at `path` changes `is_selected` there and
nothing else: every place of the tree keeps its other members and its number
of children. -/
theorem descend_update (b : Bool) (path : List Nat) :
    ∀ (c : component_t) (at_ : List Nat),
      match c.descend at_ with
      | none => (c.update path (set_selected b)).descend at_ = none
      | some n => ∃ n', (c.update path (set_selected b)).descend at_ = some n' ∧
          own n' = own n ∧ n'.children.length = n.children.length ∧
          n'.is_selected = (if at_ = path then b else n.is_selected) := by
  induction path with
  | nil =>
    intro c at_
    cases at_ with
    | nil => exact ⟨_, rfl, rfl, rfl, by simp [set_selected, component_t.update]⟩
    | cons j rest =>
      have h : (c.update [] (set_selected b)).descend (j :: rest) = c.descend (j :: rest) := rfl
      rw [h]
      cases hd : c.descend (j :: rest) with
      | none => rfl
      | some n => exact ⟨n, rfl, rfl, rfl, by simp⟩
  | cons i path ih =>
    intro c at_
    simp only [component_t.update]
    cases hi : c.children.get? i with
    | none =>
      simp only
      cases hd : c.descend at_ with
      | none => rfl
      | some n =>
        refine ⟨n, rfl, rfl, rfl, ?_⟩
        have hne : at_ ≠ i :: path := by
          rintro rfl
          rw [descend_cons, hi] at hd
          simp at hd
        simp [hne]
    | some child =>
      simp only
      cases at_ with
      | nil =>
        simp only [descend_nil]
        exact ⟨_, rfl, rfl, by simp, by simp⟩
      | cons j rest =>
        simp only [descend_cons]
        by_cases hji : j = i
        · subst hji
          have hlt : j < c.children.length := by
            rw [List.get?_eq_some] at hi
            exact hi.1
          have hset : (c.children.set j (child.update path (set_selected b))).get? j =
              some (child.update path (set_selected b)) := by
            simp [hlt]
          rw [hset, hi]
          have := ih child rest
          simp only [List.cons.injEq, true_and]
          exact this
        · have hset : (c.children.set i (child.update path (set_selected b))).get? j =
              c.children.get? j := by
            simp [List.getElem?_set, Ne.symm hji]
          rw [hset]
          cases hj : c.children.get? j with
          | none => rfl
          | some cj =>
            simp only
            cases hd : cj.descend rest with
            | none => rfl
            | some n => exact ⟨n, rfl, rfl, rfl, by simp [hji]⟩

/-- An assignment to `is_selected` at a location changes `is_selected` there
and nothing else in the store. -/
theorem read_update (b : Bool) (S : store_t) (loc at_ : loc_t) :
    match S.read at_ with
    | .error _ => ∃ e, (S.update loc (set_selected b)).read at_ = .error e
    | .ok n => ∃ n', (S.update loc (set_selected b)).read at_ = .ok n' ∧
        own n' = own n ∧ n'.children.length = n.children.length ∧
        n'.is_selected = (if at_ = loc then b else n.is_selected) := by
  obtain ⟨root, path⟩ := loc
  obtain ⟨root', path'⟩ := at_
  -- the tree that `at_` lives in, before and after
  have key : ∀ (t : component_t), S.tree root' = .ok t →
      ∃ t', (S.update ⟨root, path⟩ (set_selected b)).tree root' = .ok t' ∧
        (t' = t ∧ root' ≠ root ∨ t' = t.update path (set_selected b) ∧ root' = root) := by
    intro t ht
    cases root with
    | detached =>
      cases root' with
      | detached =>
        simp only [store_t.tree, Except.ok.injEq] at ht
        subst ht
        exact ⟨_, rfl, Or.inr ⟨rfl, rfl⟩⟩
      | entry k' => exact ⟨t, ht, Or.inl ⟨rfl, by simp⟩⟩
    | entry k =>
      cases root' with
      | detached => exact ⟨t, ht, Or.inl ⟨rfl, by simp⟩⟩
      | entry k' =>
        simp only [store_t.tree, store_t.update, map_at_map_update] at ht ⊢
        by_cases hk : k' = k
        · subst hk
          cases hm : map_at S.components k' with
          | error e => simp [hm] at ht
          | ok v =>
            simp only [hm, Except.ok.injEq] at ht
            subst ht
            exact ⟨_, by simp, Or.inr ⟨rfl, rfl⟩⟩
        · simp only [hk, if_false]
          cases hm : map_at S.components k' with
          | error e => simp [hm] at ht
          | ok v =>
            simp only [hm, Except.ok.injEq] at ht
            subst ht
            exact ⟨_, rfl, Or.inl ⟨rfl, by simpa using hk⟩⟩
  have nokey : ∀ e, S.tree root' = .error e →
      ∃ e', (S.update ⟨root, path⟩ (set_selected b)).tree root' = .error e' := by
    intro e he
    cases root with
    | detached =>
      cases root' with
      | detached => simp [store_t.tree] at he
      | entry k' => exact ⟨e, he⟩
    | entry k =>
      cases root' with
      | detached => simp [store_t.tree] at he
      | entry k' =>
        simp only [store_t.tree, store_t.update, map_at_map_update] at he ⊢
        by_cases hk : k' = k
        · subst hk
          cases hm : map_at S.components k' with
          | error e => exact ⟨.bad_reference, by simp⟩
          | ok v => simp [hm] at he
        · simp only [hk, if_false]
          cases hm : map_at S.components k' with
          | error e => exact ⟨_, rfl⟩
          | ok v => simp [hm] at he
  simp only [store_t.read]
  cases ht : S.tree root' with
  | error e =>
    obtain ⟨e', he'⟩ := nokey e ht
    exact ⟨e', by rw [he']⟩
  | ok t =>
    obtain ⟨t', ht', hcases⟩ := key t ht
    simp only [ht']
    rcases hcases with ⟨rfl, hroot⟩ | ⟨rfl, rfl⟩
    · cases hd : t'.descend path' with
      | none => exact ⟨_, rfl⟩
      | some n =>
        refine ⟨n, rfl, rfl, rfl, ?_⟩
        have : ¬ (loc_t.mk root' path' = loc_t.mk root path) := by
          intro h
          exact hroot (loc_t.mk.inj h).1
        simp [this]
    · have hu := descend_update b path t path'
      cases hd : t.descend path' with
      | none =>
        rw [hd] at hu
        simp only at hu
        rw [hu]
        exact ⟨_, rfl⟩
      | some n =>
        rw [hd] at hu
        obtain ⟨n', h1, h2, h3, h4⟩ := hu
        rw [h1]
        exact ⟨n', rfl, h2, h3, by simpa using h4⟩

theorem store_update_keys (S : store_t) (loc : loc_t) (f : component_t → component_t) :
    map_keys (S.update loc f).components = map_keys S.components := by
  obtain ⟨root, path⟩ := loc
  cases root with
  | detached => rfl
  | entry k => exact map_keys_map_update _ _ _

/-! ## `deselect_component_r` clears selections and changes nothing else -/

theorem cleared_refl (S : store_t) : cleared S S :=
  ⟨rfl, fun _ e h => ⟨e, h⟩, fun _ n h => ⟨n, h, rfl, rfl, id⟩⟩

theorem cleared_trans {S1 S2 S3 : store_t} (h12 : cleared S1 S2) (h23 : cleared S2 S3) :
    cleared S1 S3 := by
  obtain ⟨k12, e12, o12⟩ := h12
  obtain ⟨k23, e23, o23⟩ := h23
  refine ⟨k23.trans k12, ?_, ?_⟩
  · intro at_ e h
    obtain ⟨e', h'⟩ := e12 at_ e h
    exact e23 at_ e' h'
  · intro at_ n h
    obtain ⟨n', h', a, b, c⟩ := o12 at_ n h
    obtain ⟨n'', h'', a', b', c'⟩ := o23 at_ n' h'
    exact ⟨n'', h'', a'.trans a, b'.trans b, fun hs => c (c' hs)⟩

theorem cleared_update (S : store_t) (loc : loc_t) :
    cleared S (S.update loc (set_selected false)) := by
  refine ⟨store_update_keys S loc _, ?_, ?_⟩
  · intro at_ e h
    have := read_update false S loc at_
    rw [h] at this
    exact this
  · intro at_ n h
    have := read_update false S loc at_
    rw [h] at this
    obtain ⟨n', h1, h2, h3, h4⟩ := this
    refine ⟨n', h1, h2, h3, ?_⟩
    intro hs
    rw [h4] at hs
    split at hs
    · exact absurd hs (by decide)
    · exact hs

theorem cleared_read_back {S S' : store_t} (h : cleared S S') (at_ : loc_t) (n' : component_t)
    (hn' : S'.read at_ = .ok n') :
    ∃ n, S.read at_ = .ok n ∧ own n' = own n ∧ n'.children.length = n.children.length ∧
      (n'.is_selected = true → n.is_selected = true) := by
  cases hr : S.read at_ with
  | error e =>
    obtain ⟨e', he'⟩ := h.2.1 at_ e hr
    rw [he'] at hn'
    exact absurd hn' (by simp)
  | ok n =>
    obtain ⟨n2, h2, a, b, c⟩ := h.2.2 at_ n hr
    rw [h2] at hn'
    simp only [Except.ok.injEq] at hn'
    subst hn'
    exact ⟨n, rfl, a, b, c⟩

theorem deselected_below_mono {S S' : store_t} (h : cleared S S') (loc : loc_t)
    (hd : deselected_below S loc) : deselected_below S' loc := by
  intro rest n' hn'
  obtain ⟨n, hn, _, _, hsel⟩ := cleared_read_back h _ n' hn'
  have := hd rest n hn
  cases hs : n'.is_selected with
  | false => rfl
  | true => rw [hsel hs] at this; exact absurd this (by decide)

theorem for_each_cleared {α : Type} (Q : α → store_t → Prop)
    (hQ : ∀ x S S', Q x S → cleared S S' → Q x S')
    (body : α → store_t → Except error_t store_t) (xs : List α)
    (hbody : ∀ x ∈ xs, ∀ S S', body x S = .ok S' → cleared S S' ∧ Q x S') :
    ∀ S S', for_each xs body S = .ok S' → cleared S S' ∧ ∀ x ∈ xs, Q x S' := by
  induction xs with
  | nil =>
    intro S S' h
    simp only [for_each, Except.ok.injEq] at h
    subst h
    exact ⟨cleared_refl S, fun x hx => absurd hx (List.not_mem_nil _)⟩
  | cons x xs ih =>
    intro S S' h
    simp only [for_each] at h
    split at h
    · simp at h
    · rename_i S1 h1
      obtain ⟨c1, q1⟩ := hbody x (List.mem_cons_self _ _) S S1 h1
      obtain ⟨c2, q2⟩ := ih (fun y hy => hbody y (List.mem_cons_of_mem _ hy)) S1 S' h
      refine ⟨cleared_trans c1 c2, ?_⟩
      intro y hy
      rcases List.mem_cons.1 hy with rfl | hy
      · exact hQ _ _ _ q1 c2
      · exact q2 y hy

theorem read_child_of_read (S : store_t) (loc : loc_t) (i : Nat) (rest : List Nat)
    (n : component_t) (h : S.read { loc with path := loc.path ++ i :: rest } = .ok n) :
    ∃ m, S.read loc = .ok m ∧ i < m.children.length := by
  simp only [store_t.read] at h ⊢
  cases ht : S.tree loc.root with
  | error e => simp [ht] at h
  | ok t =>
    simp only [ht, descend_append] at h ⊢
    cases hm : t.descend loc.path with
    | none => simp [hm] at h
    | some m =>
      simp only [hm] at h
      refine ⟨m, rfl, ?_⟩
      cases hi : m.children.get? i with
      | none =>
        rw [descend_cons, hi] at h
        simp at h
      | some ch =>
        rw [List.get?_eq_some] at hi
        exact hi.1

/-- A completed `deselect_component_r` clears flags only, and leaves the
component and everything it owns deselected. -/
theorem deselect_component_r_cleared (fuel : Nat) :
    ∀ (loc : loc_t) (S S' : store_t), deselect_component_r fuel loc S = .ok S' →
      cleared S S' ∧ deselected_below S' loc := by
  induction fuel with
  | zero =>
    intro loc S S' h
    simp [deselect_component_r] at h
  | succ fuel ih =>
    intro loc S S' h
    simp only [deselect_component_r] at h
    split at h
    · simp at h
    rename_i c0 hc0
    split at h
    · simp at h
    rename_i c1 hc1
    split at h
    · simp at h
    rename_i S2 hS2
    split at h
    · simp at h
    rename_i c2 hc2
    have h01 : cleared S (S.update loc (set_selected false)) := cleared_update S loc
    have h12 : cleared (S.update loc (set_selected false)) S2 := by
      split at hS2
      · split at hS2
        · simp at hS2
        · exact (ih _ _ _ hS2).1
      · simp only [Except.ok.injEq] at hS2
        subst hS2
        exact cleared_refl _
    obtain ⟨h23, hq⟩ := for_each_cleared (fun i S => deselected_below S (loc.child i))
      (fun i _ _ hd hc => deselected_below_mono hc _ hd) _ _
      (fun i _ Sa Sb hab => ih (loc.child i) Sa Sb hab) S2 S' h
    refine ⟨cleared_trans h01 (cleared_trans h12 h23), ?_⟩
    intro rest n hn
    cases rest with
    | nil =>
      simp only [List.append_nil] at hn
      have hn : S'.read loc = .ok n := hn
      obtain ⟨n1, hn1, _, _, hsel⟩ := cleared_read_back (cleared_trans h12 h23) loc n hn
      have hu := read_update false S loc loc
      rw [hc0] at hu
      obtain ⟨n1', hn1', _, _, hfalse⟩ := hu
      rw [hn1] at hn1'
      simp only [Except.ok.injEq] at hn1'
      subst hn1'
      simp only [if_true] at hfalse
      cases hs : n.is_selected with
      | false => rfl
      | true => rw [hsel hs] at hfalse; exact absurd hfalse (by decide)
    | cons i rest =>
      obtain ⟨m, hm, hi⟩ := read_child_of_read S' loc i rest n hn
      obtain ⟨m2, hm2, _, hlen, _⟩ := cleared_read_back h23 loc m hm
      rw [hc2] at hm2
      simp only [Except.ok.injEq] at hm2
      subst hm2
      have hmem : i ∈ List.range c2.children.length := by
        rw [List.mem_range, ← hlen]
        exact hi
      refine hq i hmem rest n ?_
      simpa [loc_t.child] using hn

/-- The deselection pass of the click handler clears flags only and leaves no
component of the map selected. -/
theorem deselect_all_cleared (fuel : Nat) (keys : List String) (S S' : store_t)
    (h : for_each keys
      (fun key S => deselect_component_r fuel { root := .entry key, path := [] } S) S = .ok S') :
    cleared S S' ∧ ∀ key ∈ keys, deselected_below S' { root := .entry key, path := [] } :=
  for_each_cleared (fun key S => deselected_below S { root := .entry key, path := [] })
    (fun _ _ _ hd hc => deselected_below_mono hc _ hd) _ keys
    (fun _ _ Sa Sb hab => deselect_component_r_cleared fuel _ Sa Sb hab) S S' h

/-- What a completed click handler leaves: the flags of the map are all clear
except at the selected location. -/
theorem select_component_spec (fuel : Nat) (loc : loc_t) (S S' : store_t) (K : component_t)
    (hK : S.read loc = .ok K) (h : select_component fuel loc S = .ok S') :
    map_keys S'.components = map_keys S.components ∧
    (∃ K', S'.read loc = .ok K' ∧ own K' = own K ∧ K'.children.length = K.children.length ∧
      K'.is_selected = true) ∧
    (∀ key path n, S'.read { root := .entry key, path := path } = .ok n →
      (n.is_selected = true ↔ { root := .entry key, path := path } = loc)) ∧
    (∀ at_ n, S.read at_ = .ok n → ∃ n', S'.read at_ = .ok n' ∧ own n' = own n ∧
      n'.children.length = n.children.length) := by
  simp only [select_component] at h
  split at h
  · simp at h
  rename_i Sm hSm
  simp only [Except.ok.injEq] at h
  subst h
  obtain ⟨hc, hd⟩ := deselect_all_cleared fuel _ S Sm hSm
  refine ⟨(store_update_keys Sm loc _).trans hc.1, ?_, ?_, ?_⟩
  · obtain ⟨Km, hKm, a, b, _⟩ := hc.2.2 loc K hK
    have hu := read_update true Sm loc loc
    rw [hKm] at hu
    obtain ⟨K', h1, h2, h3, h4⟩ := hu
    exact ⟨K', h1, h2.trans a, h3.trans b, by simpa using h4⟩
  · intro key path n hn
    have hu := read_update true Sm loc { root := .entry key, path := path }
    cases hm : Sm.read { root := .entry key, path := path } with
    | error e =>
      rw [hm] at hu
      obtain ⟨e', he'⟩ := hu
      rw [he'] at hn
      exact absurd hn (by simp)
    | ok nm =>
      rw [hm] at hu
      obtain ⟨n', h1, _, _, h4⟩ := hu
      rw [hn] at h1
      simp only [Except.ok.injEq] at h1
      subst h1
      have hkey : key ∈ map_keys S.components := by
        rw [← hc.1]
        simp only [store_t.read, store_t.tree] at hm
        cases hat : map_at Sm.components key with
        | error e => simp [hat] at hm
        | ok v => exact mem_keys_of_map_at _ _ _ hat
      have hfalse : nm.is_selected = false := hd key hkey path nm (by simpa using hm)
      rw [h4, hfalse]
      by_cases hloc : ({ root := .entry key, path := path } : loc_t) = loc
      · simp [hloc]
      · simp [hloc]
  · intro at_ n hn
    obtain ⟨nm, hnm, a, b, _⟩ := hc.2.2 at_ n hn
    have hu := read_update true Sm loc at_
    rw [hnm] at hu
    obtain ⟨n', h1, h2, h3, _⟩ := hu
    exact ⟨n', h1, h2.trans a, h3.trans b⟩

theorem on_click_read (fuel : Nat) (G : imgui_t) (loc : loc_t) (F F1 : frame_t)
    (h : on_click fuel G loc F = .ok F1) (at_ : loc_t) (n : component_t)
    (hn : F.store.read at_ = .ok n) :
    ∃ n', F1.store.read at_ = .ok n' ∧ own n' = own n ∧
      n'.children.length = n.children.length := by
  simp only [on_click] at h
  split at h
  · simp at h
  rename_i c hc
  split at h
  · split at h
    · simp at h
    · rename_i S' hS'
      simp only [Except.ok.injEq] at h
      subst h
      exact (select_component_spec fuel loc F.store S' c hc hS').2.2.2 at_ n hn
  · simp only [Except.ok.injEq] at h
    subst h
    exact ⟨n, hn, rfl, rfl⟩

/-! ## `deselect_component_r` terminates when the references are ranked -/

theorem read_entry_nil (S : store_t) (key : String) (t : component_t) :
    S.read { root := .entry key, path := [] } = .ok t ↔ map_at S.components key = .ok t := by
  simp only [store_t.read, store_t.tree]
  cases map_at S.components key with
  | error e => simp
  | ok v => simp [descend_nil]

theorem read_child (S : store_t) (loc : loc_t) (m : component_t) (i : Nat)
    (hm : S.read loc = .ok m) (hi : i < m.children.length) :
    ∃ child, S.read (loc.child i) = .ok child := by
  simp only [store_t.read, loc_t.child] at hm ⊢
  cases ht : S.tree loc.root with
  | error e => simp [ht] at hm
  | ok t =>
    simp only [ht] at hm ⊢
    cases hd : t.descend loc.path with
    | none => simp [hd] at hm
    | some x =>
      simp only [hd, Except.ok.injEq] at hm
      subst hm
      rw [descend_append, hd]
      simp only
      rw [descend_cons]
      have hget : x.children.get? i = some (x.children.get ⟨i, hi⟩) := List.get?_eq_get hi
      rw [hget]
      exact ⟨_, rfl⟩

/-- A map whose references are ranked is well ranked, with the elements of
the map as roots. -/
theorem well_ranked_of_references_ranked (rank : String → Nat) (S : store_t)
    (h : references_ranked rank S.components) :
    well_ranked
      (fun r => match r with | .detached => 0 | .entry key => rank key)
      (count_nodes S.components + 1)
      (fun r => r ≠ .detached) S := by
  intro loc n hroot hread
  obtain ⟨root, path⟩ := loc
  cases root with
  | detached => exact absurd rfl hroot
  | entry key =>
    simp only [store_t.read, store_t.tree] at hread
    cases hat : map_at S.components key with
    | error e => simp [hat] at hread
    | ok e =>
      simp only [hat] at hread
      cases hd : e.descend path with
      | none => simp [hd] at hread
      | some m =>
        simp only [hd, Except.ok.injEq] at hread
        subst hread
        obtain ⟨hmem, hlen⟩ := descend_mem_nodes path e m hd
        have hin := mem_of_map_at _ _ _ hat
        have hle : e.nodes.length ≤ count_nodes S.components :=
          le_sum_of_mem _ _ (List.mem_map.2 ⟨(key, e), hin, rfl⟩)
        refine ⟨by simp only; omega, ?_⟩
        intro ht hb
        obtain ⟨hk, hr⟩ := h (key, e) hin m hmem ht hb
        exact ⟨map_at_of_mem_keys _ _ hk, by simp, hr⟩

theorem well_ranked_cleared {rank : root_t → Nat} {bound : Nat} {roots : root_t → Prop}
    {S S' : store_t} (h : well_ranked rank bound roots S) (hc : cleared S S') :
    well_ranked rank bound roots S' := by
  intro loc n' hroot hread
  obtain ⟨n, hn, hown, _, _⟩ := cleared_read_back hc loc n' hread
  obtain ⟨hlen, href⟩ := h loc n hroot hn
  obtain ⟨ht, hb, hk⟩ := own_fields hown
  refine ⟨hlen, ?_⟩
  intro ht' hb'
  obtain ⟨⟨t, htarget⟩, hr, hrank⟩ := href (ht ▸ ht') (hb ▸ hb')
  rw [hk]
  refine ⟨?_, hr, hrank⟩
  obtain ⟨t', ht', _⟩ := hc.2.2 _ t ((read_entry_nil S n.key t).2 htarget)
  exact ⟨t', (read_entry_nil S' n.key t').1 ht'⟩

theorem for_each_completes {α : Type} (Inv : store_t → Prop)
    (body : α → store_t → Except error_t store_t) (xs : List α)
    (hbody : ∀ x ∈ xs, ∀ S, Inv S → ∃ S', body x S = .ok S' ∧ Inv S') :
    ∀ S, Inv S → ∃ S', for_each xs body S = .ok S' ∧ Inv S' := by
  induction xs with
  | nil => exact fun S hS => ⟨S, rfl, hS⟩
  | cons x xs ih =>
    intro S hS
    obtain ⟨S1, h1, hS1⟩ := hbody x (List.mem_cons_self _ _) S hS
    obtain ⟨S2, h2, hS2⟩ := ih (fun y hy => hbody y (List.mem_cons_of_mem _ hy)) S1 hS1
    exact ⟨S2, by simp only [for_each, h1, h2], hS2⟩

/-- In a well-ranked store `deselect_component_r` completes, given fuel
beyond the rank of the location. -/
theorem deselect_component_r_completes (rank : root_t → Nat) (bound : Nat)
    (roots : root_t → Prop) (fuel : Nat) :
    ∀ (loc : loc_t) (S : store_t) (c : component_t), well_ranked rank bound roots S →
      roots loc.root → S.read loc = .ok c →
      rank loc.root * bound + (bound - loc.path.length) < fuel →
      ∃ S', deselect_component_r fuel loc S = .ok S' := by
  induction fuel with
  | zero =>
    intro loc S c _ _ _ hfuel
    exact absurd hfuel (Nat.not_lt_zero _)
  | succ fuel ih =>
    intro loc S c hS hroot hc hfuel
    have hlen : loc.path.length < bound := (hS loc c hroot hc).1
    have h01 : cleared S (S.update loc (set_selected false)) := cleared_update S loc
    have hS1 := well_ranked_cleared hS h01
    obtain ⟨c1, hc1, _, _, _⟩ := h01.2.2 loc c hc
    -- the dereference
    have hderef : ∃ S2, (if c1.type = component_type_reference ∧ c1.is_broken = false then
          match map_at (S.update loc (set_selected false)).components c1.key with
          | .error e => Except.error e
          | .ok _ => deselect_component_r fuel { root := .entry c1.key, path := [] }
              (S.update loc (set_selected false))
        else Except.ok (S.update loc (set_selected false))) = Except.ok S2 ∧
        cleared (S.update loc (set_selected false)) S2 := by
      by_cases href : c1.type = component_type_reference ∧ c1.is_broken = false
      · obtain ⟨⟨t, ht⟩, hr, hrank⟩ := (hS1 loc c1 hroot hc1).2 href.1 href.2
        have hmul : (rank (root_t.entry c1.key) + 1) * bound ≤ rank loc.root * bound :=
          Nat.mul_le_mul_right _ hrank
        have hfuel2 : rank (root_t.entry c1.key) * bound + (bound - 0) < fuel := by
          rw [Nat.add_mul] at hmul
          omega
        obtain ⟨S2, hS2⟩ := ih { root := .entry c1.key, path := [] } _ t hS1 hr
          ((read_entry_nil _ _ _).2 ht) hfuel2
        refine ⟨S2, ?_, (deselect_component_r_cleared fuel _ _ _ hS2).1⟩
        simp only [href, and_self, if_true, ht, hS2]
      · exact ⟨_, by simp only [href, if_false], cleared_refl _⟩
    obtain ⟨S2, hS2, h12⟩ := hderef
    obtain ⟨c2, hc2, _, hlen2, _⟩ := h12.2.2 loc c1 hc1
    -- the loop over the children
    obtain ⟨S3, hS3, _⟩ := for_each_completes (fun Sa => cleared S2 Sa)
      (fun i Sa => deselect_component_r fuel (loc.child i) Sa) (List.range c2.children.length)
      (fun i hi Sa hSa => by
        obtain ⟨ca, hca, _, hlena, _⟩ := hSa.2.2 loc c2 hc2
        have hi2 : i < ca.children.length := by
          rw [hlena]
          exact List.mem_range.1 hi
        obtain ⟨child, hchild⟩ := read_child Sa loc ca i hca hi2
        have hSa2 := well_ranked_cleared (well_ranked_cleared hS1 h12) hSa
        have hfuel3 : rank (loc.child i).root * bound +
            (bound - (loc.child i).path.length) < fuel := by
          simp only [loc_t.child, List.length_append, List.length_singleton]
          omega
        obtain ⟨Sb, hSb⟩ := ih (loc.child i) Sa child hSa2 hroot hchild hfuel3
        exact ⟨Sb, hSb, cleared_trans hSa (deselect_component_r_cleared fuel _ _ _ hSb).1⟩)
      S2 (cleared_refl S2)
    refine ⟨S3, ?_⟩
    simp only [deselect_component_r, hc, hc1]
    simp only [hS2, hc2, hS3]

/-- In a well-ranked store the click handler completes, given enough fuel. -/
theorem select_component_completes (rank : String → Nat) (S : store_t) (loc : loc_t)
    (h : references_ranked rank S.components) :
    ∃ fuel0, ∀ fuel, fuel0 ≤ fuel → ∃ S', select_component fuel loc S = .ok S' := by
  have hS := well_ranked_of_references_ranked rank S h
  refine ⟨(((map_keys S.components).map rank).sum + 1) * (count_nodes S.components + 1) + 1, ?_⟩
  intro fuel hfuel
  obtain ⟨Sm, hSm, _⟩ := for_each_completes (fun Sa => cleared S Sa)
    (fun key Sa => deselect_component_r fuel { root := .entry key, path := [] } Sa)
    (map_keys S.components)
    (fun key hkey Sa hSa => by
      obtain ⟨t, ht⟩ := map_at_of_mem_keys _ _ hkey
      obtain ⟨ta, hta, _⟩ := hSa.2.2 _ t ((read_entry_nil S key t).2 ht)
      have hrank : rank key ≤ ((map_keys S.components).map rank).sum :=
        le_sum_of_mem _ _ (List.mem_map.2 ⟨key, hkey, rfl⟩)
      have hmul : rank key * (count_nodes S.components + 1) ≤
          ((map_keys S.components).map rank).sum * (count_nodes S.components + 1) :=
        Nat.mul_le_mul_right _ hrank
      have hfuel2 : rank key * (count_nodes S.components + 1) +
          (count_nodes S.components + 1 - 0) < fuel := by
        rw [Nat.add_mul] at hfuel
        omega
      obtain ⟨Sb, hSb⟩ := deselect_component_r_completes _ _ _ fuel
        { root := .entry key, path := [] } Sa ta (well_ranked_cleared hS hSa) (by simp) hta
        hfuel2
      exact ⟨Sb, hSb, cleared_trans hSa (deselect_component_r_cleared fuel _ _ _ hSb).1⟩)
    S (cleared_refl S)
  exact ⟨Sm.update loc (set_selected true), by simp only [select_component, hSm]⟩

theorem children_json_absent (d : json) (h : d.contains "children" = false) :
    children_json d = [] := by
  simp [children_json, h]

theorem children_json_array (d : json) (xs : List json)
    (h : d.subscript "children" = .ok (json.array xs)) : children_json d = xs := by
  simp [children_json, contains_of_subscript _ _ _ h, h, json.items]

theorem forall₂_get?_left {α β : Type} {R : α → β → Prop} {xs : List α} {ys : List β}
    (h : List.Forall₂ R xs ys) (i : Nat) (x : α) (hx : xs.get? i = some x) :
    ∃ y, ys.get? i = some y ∧ R x y := by
  induction h generalizing i with
  | nil => simp at hx
  | cons h1 _ ih =>
    cases i with
    | zero =>
      simp only [List.get?_cons_zero, Option.some.injEq] at hx
      subst hx
      exact ⟨_, rfl, h1⟩
    | succ i => exact ih i hx

theorem main_doc_made :
    make_component_r spec_procs main_doc case_app "Work" = .ok main_made :=
  make_component_r_of _ _ _ _ _ rfl
    (make_children_of _ _ _ _ _ _ _
      (make_component_r_of _ _ _ _ _ rfl (make_children_nil _ _ _))
      (make_children_of _ _ _ _ _ _ _
        (make_component_r_of _ _ _ _ _ rfl (make_children_nil _ _ _))
        (make_children_nil _ _ _)))

/-- The new component of a document of type view does not depend on the parent
class. -/
theorem make_component_node_view (P : model_procs_t) (d : json) (app : app_context_t)
    (p1 p2 : String)
    (hview : ∃ tj, d.subscript "type" = .ok tj ∧
      P.to_component_type tj = .ok component_type_view) :
    make_component_node P d app p1 = make_component_node P d app p2 := by
  obtain ⟨tj, htj, ht⟩ := hview
  simp only [make_component_node, make_component_draft, htj, ht, bind, Except.bind,
    make_switch]

/-- The class of the new component of a document of type view is the string
at its "classID". -/
theorem make_component_node_view_class (P : model_procs_t) (d : json) (app : app_context_t)
    (p : String) (n : component_t)
    (hview : ∃ tj, d.subscript "type" = .ok tj ∧
      P.to_component_type tj = .ok component_type_view)
    (h : make_component_node P d app p = .ok n) :
    ∃ j, d.subscript "classID" = .ok j ∧ j.get_string = .ok n.class_id := by
  obtain ⟨tj, htj, ht⟩ := hview
  unfold make_component_node at h
  split at h
  · simp at h
  rename_i m hdraft
  obtain ⟨rfl, _⟩ := finalize_ok _ _ _ h
  simp only [make_component_draft, htj, ht, bind, Except.bind, make_switch] at hdraft
  obtain ⟨_, _, j, hj, hcls⟩ := make_view_ok _ _ _ _ _ hdraft
  exact ⟨j, hj, hcls⟩

/-- The draft of a document whose type is one the switch ignores: the
default-constructed component with its JSON and its type, and no name. -/
theorem make_component_draft_ignored (P : model_procs_t) (d : json) (app : app_context_t)
    (p : String) (tj : json) (t : component_type_t)
    (htj : d.subscript "type" = .ok tj) (ht : P.to_component_type tj = .ok t)
    (hign : is_ignored_type t = true) :
    make_component_draft P d app p =
      .ok { component_t.init with json := P.dump d, type := t } := by
  simp only [make_component_draft, htj, ht, bind, Except.bind, make_switch]
  cases t <;> simp [is_ignored_type] at hign <;> rfl

theorem validate_in_document_order_append (xs ys : List component_t) (F : field_map_t) :
    validate_in_document_order (xs ++ ys) F =
      match validate_in_document_order xs F with
      | .ok true => validate_in_document_order ys F
      | r => r := by
  induction xs with
  | nil => rfl
  | cons n rest ih =>
    simp only [List.cons_append, validate_in_document_order]
    split
    · split
      · rfl
      · split
        · rfl
        · exact ih
    · exact ih

theorem validate_children_false (cs : List component_t) (M : component_map_t)
    (F : field_map_t) : validate_children cs M F false = .ok false := by
  cases cs <;> simp [validate_children]

theorem validate_component_r_node (c : component_t) (M : component_map_t) (F : field_map_t) :
    validate_component_r c M F =
      if is_required_field c then
        match map_at F c.key with
        | .error e => .error e
        | .ok field =>
          if empty field.data then .ok false else validate_children c.children M F true
      else validate_children c.children M F true := by
  rw [validate_component_r_eq]
  by_cases hr : is_required_field c = true
  · simp only [hr, if_true]
    cases map_at F c.key with
    | error e => rfl
    | ok field =>
      cases hdata : empty field.data with
      | true => simp [hdata, validate_children_false]
      | false => simp [hdata]
  · simp [hr]

mutual
/-- The routine `validate_component_r` examines the components in pre-order and
stops at the first failure. -/
theorem validate_component_r_eq_in_document_order (c : component_t) (M : component_map_t)
    (F : field_map_t) :
    validate_component_r c M F = validate_in_document_order c.nodes F := by
  match c with
  | { type := type, key := key, name := name, label := label, class_id := class_id,
      ref_type := ref_type, is_broken := is_broken, is_disabled := is_disabled,
      is_readonly := is_readonly, is_required := is_required, is_selected := is_selected,
      broken_string := broken_string, debug_string := debug_string, json := json,
      children := children } =>
    have hch := validate_children_eq_in_document_order children M F
    rw [validate_component_r_node, nodes_eq]
    simp only [validate_in_document_order, hch]
theorem validate_children_eq_in_document_order (cs : List component_t) (M : component_map_t)
    (F : field_map_t) :
    validate_children cs M F true = validate_in_document_order (nodes_list cs) F := by
  match cs with
  | [] => rfl
  | c :: rest =>
    have h1 := validate_component_r_eq_in_document_order c M F
    have h2 := validate_children_eq_in_document_order rest M F
    simp only [nodes_list, validate_in_document_order_append, validate_children, ← h1]
    cases validate_component_r c M F with
    | error e => rfl
    | ok v =>
      cases v with
      | true => simpa using h2
      | false => simpa using validate_children_false rest M F
end

/-- The examination stops with false at a required field with empty data that
is reached before any required field without a bound field. -/
theorem validate_in_document_order_false (F : field_map_t) (pre : List component_t)
    (n : component_t) (post : List component_t)
    (hn : is_required_field n = true) (hempty : bound_data_empty F n)
    (hpre : ∀ m ∈ pre, is_required_field m = true → m.key ∈ map_keys F) :
    validate_in_document_order (pre ++ n :: post) F = .ok false := by
  induction pre with
  | nil =>
    obtain ⟨field, hfield, hdata⟩ := hempty
    simp only [List.nil_append, validate_in_document_order, hn, hfield, if_true,
      (empty_iff _).2 hdata]
  | cons m rest ih =>
    have ih2 := ih (fun x hx => hpre x (List.mem_cons_of_mem _ hx))
    simp only [List.cons_append, validate_in_document_order]
    split
    · rename_i hm
      obtain ⟨field, hfield⟩ := map_at_of_mem_keys F m.key
        (hpre m (List.mem_cons_self _ _) hm)
      simp only [hfield]
      split
      · rfl
      · exact ih2
    · exact ih2

/-! ## The components that `deselect_component_r` reaches -/

theorem same_shape_refl (S : store_t) : same_shape S S := fun _ => rfl

theorem same_shape_symm {S T : store_t} (h : same_shape S T) : same_shape T S :=
  fun loc => (h loc).symm

theorem same_shape_trans {S T U : store_t} (h1 : same_shape S T) (h2 : same_shape T U) :
    same_shape S U :=
  fun loc => (h1 loc).trans (h2 loc)

theorem same_shape_read {S T : store_t} (h : same_shape S T) (loc : loc_t) (n : component_t)
    (hn : S.read loc = .ok n) :
    ∃ t, T.read loc = .ok t ∧ own t = own n ∧ t.children.length = n.children.length := by
  have hl := h loc
  simp only [store_t.outline, hn] at hl
  cases ht : T.read loc with
  | error e => simp [ht] at hl
  | ok t =>
    simp only [ht, Option.some.injEq, Prod.mk.injEq] at hl
    exact ⟨t, rfl, hl.1.symm, hl.2.symm⟩

theorem same_shape_of_cleared {S S' : store_t} (h : cleared S S') : same_shape S S' := by
  intro loc
  simp only [store_t.outline]
  cases hr : S.read loc with
  | error e =>
    obtain ⟨e', he'⟩ := h.2.1 loc e hr
    simp [he']
  | ok n =>
    obtain ⟨n', hn', hown, hlen, _⟩ := h.2.2 loc n hr
    simp [hn', hown, hlen]

theorem step_same_shape {S T : store_t} (h : same_shape S T) {a b : loc_t}
    (hstep : step S a b) : step T a b := by
  cases hstep with
  | child n i hn hi =>
    obtain ⟨t, ht, _, hlen⟩ := same_shape_read h a n hn
    exact step.child a t i ht (hlen ▸ hi)
  | dereference n hn htype hbroken =>
    obtain ⟨t, ht, hown, _⟩ := same_shape_read h a n hn
    obtain ⟨h1, h2, h3⟩ := own_fields hown
    have := step.dereference a t ht (h1.trans htype) (h2.trans hbroken)
    rw [h3] at this
    exact this

theorem reachable_same_shape {S T : store_t} (h : same_shape S T) {a b : loc_t}
    (hr : reachable S a b) : reachable T a b :=
  Relation.ReflTransGen.mono (fun _ _ hs => step_same_shape h hs) hr

theorem for_each_mem {α : Type} (body : α → store_t → Except error_t store_t)
    (hbody : ∀ x Sa Sb, body x Sa = .ok Sb → cleared Sa Sb) (xs : List α) :
    ∀ S S', for_each xs body S = .ok S' → ∀ x ∈ xs,
      ∃ Sa Sb, cleared S Sa ∧ body x Sa = .ok Sb ∧ cleared Sb S' := by
  induction xs with
  | nil => exact fun _ _ _ x hx => absurd hx (List.not_mem_nil _)
  | cons y ys ih =>
    intro S S' h x hx
    simp only [for_each] at h
    split at h
    · simp at h
    · rename_i S1 h1
      have hrest : cleared S1 S' :=
        (for_each_cleared (fun _ _ => True) (fun _ _ _ _ _ => trivial) body ys
          (fun z _ Sa Sb hab => ⟨hbody z Sa Sb hab, trivial⟩) S1 S' h).1
      rcases List.mem_cons.1 hx with rfl | hx
      · exact ⟨S, S1, cleared_refl S, h1, hrest⟩
      · obtain ⟨Sa, Sb, ha, hb, hc⟩ := ih S1 S' h x hx
        exact ⟨Sa, Sb, cleared_trans (hbody y S S1 h1) ha, hb, hc⟩

theorem deselected_of_cleared {S S' : store_t} (h : cleared S S') (loc : loc_t)
    (hd : ∀ n, S.read loc = .ok n → n.is_selected = false) :
    ∀ n', S'.read loc = .ok n' → n'.is_selected = false := by
  intro n' hn'
  obtain ⟨n, hn, _, _, hsel⟩ := cleared_read_back h loc n' hn'
  have := hd n hn
  cases hs : n'.is_selected with
  | false => rfl
  | true => rw [hsel hs] at this; exact absurd this (by decide)

/-- A completed `deselect_component_r` leaves deselected every component that
is reached from its argument through child and reference edges. -/
theorem deselect_component_r_reachable (fuel : Nat) :
    ∀ (loc : loc_t) (S S' : store_t), deselect_component_r fuel loc S = .ok S' →
      ∀ target, reachable S loc target →
        ∀ n, S'.read target = .ok n → n.is_selected = false := by
  induction fuel with
  | zero =>
    intro loc S S' h
    simp [deselect_component_r] at h
  | succ fuel ih =>
    intro loc S S' h target hreach
    have hall := deselect_component_r_cleared (fuel + 1) loc S S' h
    simp only [deselect_component_r] at h
    split at h
    · simp at h
    rename_i c0 hc0
    split at h
    · simp at h
    rename_i c1 hc1
    split at h
    · simp at h
    rename_i S2 hS2
    split at h
    · simp at h
    rename_i c2 hc2
    have h01 : cleared S (S.update loc (set_selected false)) := cleared_update S loc
    have h12 : cleared (S.update loc (set_selected false)) S2 := by
      split at hS2
      · split at hS2
        · simp at hS2
        · exact (deselect_component_r_cleared fuel _ _ _ hS2).1
      · simp only [Except.ok.injEq] at hS2
        subst hS2
        exact cleared_refl _
    have hbody : ∀ (i : Nat) (Sa Sb : store_t),
        deselect_component_r fuel (loc.child i) Sa = .ok Sb → cleared Sa Sb :=
      fun i Sa Sb hab => (deselect_component_r_cleared fuel _ Sa Sb hab).1
    have h23 : cleared S2 S' :=
      (for_each_cleared (fun _ _ => True) (fun _ _ _ _ _ => trivial) _ _
        (fun i _ Sa Sb hab => ⟨hbody i Sa Sb hab, trivial⟩) S2 S' h).1
    rcases Relation.ReflTransGen.cases_head hreach with heq | ⟨mid, hstep, hrest⟩
    · subst heq
      intro n hn
      exact hall.2 [] n (by simpa using hn)
    · cases hstep with
      | child n i hn hi =>
        obtain ⟨x1, hx1, _, hl1, _⟩ := h01.2.2 loc n hn
        rw [hc1] at hx1
        simp only [Except.ok.injEq] at hx1
        subst hx1
        obtain ⟨x2, hx2, _, hl2, _⟩ := h12.2.2 loc c1 hc1
        rw [hc2] at hx2
        simp only [Except.ok.injEq] at hx2
        subst hx2
        have himem : i ∈ List.range c2.children.length := by
          rw [List.mem_range, hl2, hl1]
          exact hi
        obtain ⟨Sa, Sb, ha, hb, hc⟩ := for_each_mem _ hbody _ S2 S' h i himem
        have hreach2 : reachable Sa (loc.child i) target :=
          reachable_same_shape
            (same_shape_of_cleared (cleared_trans h01 (cleared_trans h12 ha))) hrest
        exact deselected_of_cleared hc target (ih (loc.child i) Sa Sb hb target hreach2)
      | dereference n hn htype hbroken =>
        obtain ⟨x1, hx1, hown, _, _⟩ := h01.2.2 loc n hn
        rw [hc1] at hx1
        simp only [Except.ok.injEq] at hx1
        subst hx1
        obtain ⟨ht, hb, hk⟩ := own_fields hown
        have hcond : c1.type = component_type_reference ∧ c1.is_broken = false :=
          ⟨ht.trans htype, hb.trans hbroken⟩
        simp only [hcond, and_self, if_true] at hS2
        split at hS2
        · simp at hS2
        · rw [hk] at hS2
          have hreach2 : reachable (S.update loc (set_selected false))
              { root := .entry n.key, path := [] } target :=
            reachable_same_shape (same_shape_of_cleared h01) hrest
          exact deselected_of_cleared h23 target (ih _ _ _ hS2 target hreach2)

/-! ## What `deselect_component_r` leaves unchanged -/

theorem unselected_list_eq (cs : List component_t) :
    unselected_list cs = cs.map component_t.unselected := by
  induction cs with
  | nil => simp [unselected_list]
  | cons c rest ih => simp [unselected_list, ih]

theorem unselected_eq (c : component_t) :
    c.unselected =
      { c with is_selected := false, children := c.children.map component_t.unselected } := by
  cases c
  simp [component_t.unselected, unselected_list_eq]

theorem list_set_self {α : Type} (l : List α) (i : Nat) (a : α) (h : l.get? i = some a) :
    l.set i a = l := by
  induction l generalizing i with
  | nil => rfl
  | cons x rest ih =>
    cases i with
    | zero =>
      simp only [List.get?_cons_zero, Option.some.injEq] at h
      simp [h]
    | succ i =>
      simp only [List.get?_cons_succ] at h
      simp [ih i h]

theorem unselected_update (b : Bool) (path : List Nat) :
    ∀ c : component_t, (c.update path (set_selected b)).unselected = c.unselected := by
  induction path with
  | nil =>
    intro c
    rw [unselected_eq, unselected_eq c]
    rfl
  | cons i rest ih =>
    intro c
    simp only [component_t.update]
    cases hi : c.children.get? i with
    | none => rfl
    | some child =>
      simp only []
      rw [unselected_eq, unselected_eq c]
      simp only [List.map_set, ih child]
      rw [list_set_self (c.children.map component_t.unselected) i child.unselected
        (by rw [List.get?_eq_getElem?, List.getElem?_map, ← List.get?_eq_getElem?, hi]; rfl)]

theorem map_update_map {α β : Type} (h : α → β) (g : α → α) (hg : ∀ v, h (g v) = h v)
    (m : List (String × α)) (key : String) :
    (map_update m key g).map (fun p => (p.1, h p.2)) = m.map (fun p => (p.1, h p.2)) := by
  induction m with
  | nil => rfl
  | cons p rest ih =>
    obtain ⟨k, v⟩ := p
    by_cases hk : k = key
    · simp [map_update, hk, hg]
    · simp [map_update, hk, ih]

theorem store_unselected_update (b : Bool) (S : store_t) (loc : loc_t) :
    (S.update loc (set_selected b)).unselected = S.unselected := by
  obtain ⟨root, path⟩ := loc
  cases root with
  | detached => simp [store_t.update, store_t.unselected, unselected_update]
  | entry key =>
    simp only [store_t.update, store_t.unselected]
    rw [map_update_map component_t.unselected _ (unselected_update b path)]

theorem for_each_invariant {α σ β : Type} (g : σ → β) (body : α → σ → Except error_t σ)
    (hbody : ∀ x s s', body x s = .ok s' → g s' = g s) (xs : List α) :
    ∀ s s', for_each xs body s = .ok s' → g s' = g s := by
  induction xs with
  | nil =>
    intro s s' h
    simp only [for_each, Except.ok.injEq] at h
    rw [h]
  | cons x xs ih =>
    intro s s' h
    simp only [for_each] at h
    split at h
    · simp at h
    · rename_i s1 h1
      rw [ih s1 s' h, hbody x s s1 h1]

/-- A completed `deselect_component_r` leaves a store that, apart from
`is_selected` flags, is the store it started from. -/
theorem deselect_component_r_unselected (fuel : Nat) :
    ∀ (loc : loc_t) (S S' : store_t), deselect_component_r fuel loc S = .ok S' →
      S'.unselected = S.unselected := by
  induction fuel with
  | zero =>
    intro loc S S' h
    simp [deselect_component_r] at h
  | succ fuel ih =>
    intro loc S S' h
    simp only [deselect_component_r] at h
    split at h
    · simp at h
    split at h
    · simp at h
    split at h
    · simp at h
    rename_i S2 hS2
    split at h
    · simp at h
    have h12 : S2.unselected = S.unselected := by
      split at hS2
      · split at hS2
        · simp at hS2
        · rw [ih _ _ _ hS2, store_unselected_update]
      · simp only [Except.ok.injEq] at hS2
        subst hS2
        exact store_unselected_update false S loc
    rw [for_each_invariant store_t.unselected _ (fun i Sa Sb hab => ih (loc.child i) Sa Sb hab)
      _ S2 S' h, h12]

theorem update_self (path : List Nat) :
    ∀ (c n : component_t), c.descend path = some n → n.is_selected = false →
      c.update path (set_selected false) = c := by
  induction path with
  | nil =>
    intro c n hn hsel
    simp only [descend_nil, Option.some.injEq] at hn
    subst hn
    cases c
    simp only [component_t.update, set_selected]
    simp only at hsel
    simp [hsel]
  | cons i rest ih =>
    intro c n hn hsel
    simp only [component_t.update]
    rw [descend_cons] at hn
    cases hi : c.children.get? i with
    | none => rfl
    | some child =>
      simp only [hi] at hn
      simp only []
      rw [ih child n hn hsel, list_set_self _ _ _ hi]
      cases c
      rfl

theorem map_update_self {α : Type} (g : α → α) (m : List (String × α)) (key : String)
    (h : ∀ v, map_at m key = .ok v → g v = v) : map_update m key g = m := by
  induction m with
  | nil => rfl
  | cons p rest ih =>
    obtain ⟨k, v⟩ := p
    by_cases hk : k = key
    · have := h v (by simp [map_at, hk])
      simp [map_update, hk, this]
    · have hrest : ∀ v, map_at rest key = .ok v → g v = v := by
        intro v hv
        exact h v (by simp [map_at, hk, hv])
      simp [map_update, hk, ih hrest]

theorem store_update_self (S : store_t) (loc : loc_t) (n : component_t)
    (hn : S.read loc = .ok n) (hsel : n.is_selected = false) :
    S.update loc (set_selected false) = S := by
  obtain ⟨root, path⟩ := loc
  cases root with
  | detached =>
    simp only [store_t.read, store_t.tree] at hn
    cases hd : S.detached.descend path with
    | none => simp [hd] at hn
    | some x =>
      simp only [hd, Except.ok.injEq] at hn
      subst hn
      simp only [store_t.update]
      rw [update_self path S.detached x hd hsel]
  | entry key =>
    simp only [store_t.read, store_t.tree] at hn
    simp only [store_t.update]
    rw [map_update_self]
    intro v hv
    simp only [hv] at hn
    cases hd : v.descend path with
    | none => simp [hd] at hn
    | some x =>
      simp only [hd, Except.ok.injEq] at hn
      subst hn
      exact update_self path v x hd hsel

theorem for_each_fixed {α σ : Type} (body : α → σ → Except error_t σ) (s : σ) (xs : List α)
    (h : ∀ x ∈ xs, body x s = .ok s) : for_each xs body s = .ok s := by
  induction xs with
  | nil => rfl
  | cons x xs ih =>
    simp only [for_each, h x (List.mem_cons_self _ _)]
    exact ih (fun y hy => h y (List.mem_cons_of_mem _ hy))

/-- Where a first run of `deselect_component_r` completed, a run on a store of
the same shape in which everything reached is already deselected completes
and changes nothing. -/
theorem deselect_component_r_fixed (fuel : Nat) :
    ∀ (loc : loc_t) (S S' T : store_t), deselect_component_r fuel loc S = .ok S' →
      same_shape S T →
      (∀ target n, reachable T loc target → T.read target = .ok n → n.is_selected = false) →
      deselect_component_r fuel loc T = .ok T := by
  induction fuel with
  | zero =>
    intro loc S S' T h
    simp [deselect_component_r] at h
  | succ fuel ih =>
    intro loc S S' T h hshape hT
    simp only [deselect_component_r] at h
    split at h
    · simp at h
    rename_i c0 hc0
    split at h
    · simp at h
    rename_i c1 hc1
    split at h
    · simp at h
    rename_i S2 hS2
    split at h
    · simp at h
    rename_i c2 hc2
    have h01 : cleared S (S.update loc (set_selected false)) := cleared_update S loc
    have h12 : cleared (S.update loc (set_selected false)) S2 := by
      split at hS2
      · split at hS2
        · simp at hS2
        · exact (deselect_component_r_cleared fuel _ _ _ hS2).1
      · simp only [Except.ok.injEq] at hS2
        subst hS2
        exact cleared_refl _
    have hbody : ∀ (i : Nat) (Sa Sb : store_t),
        deselect_component_r fuel (loc.child i) Sa = .ok Sb → cleared Sa Sb :=
      fun i Sa Sb hab => (deselect_component_r_cleared fuel _ Sa Sb hab).1
    have hshape1 : same_shape (S.update loc (set_selected false)) T :=
      same_shape_trans (same_shape_symm (same_shape_of_cleared h01)) hshape
    have hshape2 : same_shape S2 T :=
      same_shape_trans (same_shape_symm (same_shape_of_cleared h12)) hshape1
    obtain ⟨t, ht, hown, _⟩ := same_shape_read hshape1 loc c1 hc1
    obtain ⟨t2, ht2, _, hlen⟩ := same_shape_read hshape2 loc c2 hc2
    rw [ht] at ht2
    simp only [Except.ok.injEq] at ht2
    subst ht2
    have hsel : t.is_selected = false := hT loc t Relation.ReflTransGen.refl ht
    have hupd : T.update loc (set_selected false) = T := store_update_self T loc t ht hsel
    obtain ⟨htype, hbroken, hkey⟩ := own_fields hown
    have hderef : (if t.type = component_type_reference ∧ t.is_broken = false then
          match map_at T.components t.key with
          | .error e => .error e
          | .ok _ => deselect_component_r fuel { root := .entry t.key, path := [] } T
        else .ok T) = Except.ok T := by
      by_cases hcond : t.type = component_type_reference ∧ t.is_broken = false
      · have hcond1 : c1.type = component_type_reference ∧ c1.is_broken = false :=
          ⟨htype ▸ hcond.1, hbroken ▸ hcond.2⟩
        simp only [hcond1, and_self, if_true] at hS2
        simp only [hcond, and_self, if_true]
        split at hS2
        · simp at hS2
        · rename_i v hv
          obtain ⟨tv, htv, _⟩ := same_shape_read hshape1 { root := .entry c1.key, path := [] } v
            ((read_entry_nil _ _ _).2 hv)
          rw [← hkey] at htv hS2
          rw [(read_entry_nil _ _ _).1 htv]
          simp only []
          refine ih _ _ _ T hS2 hshape1 ?_
          intro target n hreach hn
          exact hT target n
            (Relation.ReflTransGen.head (step.dereference loc t ht hcond.1 hcond.2) hreach) hn
      · simp only [hcond, if_false]
    simp only [deselect_component_r, ht, hupd, hderef]
    apply for_each_fixed
    intro i hi
    have hi2 : i ∈ List.range c2.children.length := by
      rw [List.mem_range] at hi ⊢
      rw [← hlen]
      exact hi
    obtain ⟨Sa, Sb, ha, hb, _⟩ := for_each_mem _ hbody _ S2 S' h i hi2
    refine ih (loc.child i) Sa Sb T hb
      (same_shape_trans (same_shape_symm (same_shape_of_cleared ha)) hshape2) ?_
    intro target n hreach hn
    exact hT target n
      (Relation.ReflTransGen.head (step.child loc t i ht (List.mem_range.1 hi)) hreach) hn

/-! ## Termination of `deselect_component_r` -/

theorem exists_common_bound (Q : Nat → Nat → Prop) (n : Nat)
    (h : ∀ i, i < n → ∃ f, ∀ fuel, f ≤ fuel → Q i fuel) :
    ∃ f, ∀ i, i < n → ∀ fuel, f ≤ fuel → Q i fuel := by
  induction n with
  | zero => exact ⟨0, fun i hi => absurd hi (Nat.not_lt_zero _)⟩
  | succ n ih =>
    obtain ⟨f, hf⟩ := ih (fun i hi => h i (Nat.lt_succ_of_lt hi))
    obtain ⟨g, hg⟩ := h n (Nat.lt_succ_self n)
    refine ⟨max f g, ?_⟩
    intro i hi fuel hfuel
    rcases Nat.lt_succ_iff_lt_or_eq.1 hi with hlt | heq
    · exact hf i hlt fuel (le_trans (le_max_left f g) hfuel)
    · subst heq
      exact hg fuel (le_trans (le_max_right f g) hfuel)

/-- Where the steps from a location are well-founded and the references
reached have their keys in the map, `deselect_component_r` completes, given
enough fuel, on every store of the same shape. -/
theorem deselect_component_r_completes_of_acc (S : store_t) (loc : loc_t)
    (hwf : well_founded_from S loc) :
    references_present S loc → (∃ c, S.read loc = .ok c) →
    ∃ fuel0, ∀ fuel, fuel0 ≤ fuel → ∀ T, same_shape S T →
      ∃ T', deselect_component_r fuel loc T = .ok T' := by
  unfold well_founded_from at hwf
  induction hwf with
  | intro loc _ ih =>
    intro hkeys hread
    obtain ⟨c, hc⟩ := hread
    -- fuel for the children
    obtain ⟨f1, hf1⟩ := exists_common_bound
      (fun i fuel => ∀ T, same_shape S T →
        ∃ T', deselect_component_r fuel (loc.child i) T = .ok T')
      c.children.length
      (fun i hi => ih (loc.child i) (step.child loc c i hc hi)
        (fun target n hr => hkeys target n
          (Relation.ReflTransGen.head (step.child loc c i hc hi) hr))
        (read_child S loc c i hc hi))
    -- fuel for the element that a reference leads to
    have hderef : ∃ f2, c.type = component_type_reference → c.is_broken = false →
        ∀ fuel, f2 ≤ fuel → ∀ T, same_shape S T →
          ∃ T', deselect_component_r fuel { root := .entry c.key, path := [] } T = .ok T' := by
      by_cases hcond : c.type = component_type_reference ∧ c.is_broken = false
      · obtain ⟨v, hv⟩ := map_at_of_mem_keys _ _
          (hkeys loc c Relation.ReflTransGen.refl hc hcond.1 hcond.2)
        obtain ⟨f2, hf2⟩ := ih { root := .entry c.key, path := [] }
          (step.dereference loc c hc hcond.1 hcond.2)
          (fun target n hr => hkeys target n
            (Relation.ReflTransGen.head (step.dereference loc c hc hcond.1 hcond.2) hr))
          ⟨v, (read_entry_nil _ _ _).2 hv⟩
        exact ⟨f2, fun _ _ => hf2⟩
      · exact ⟨0, fun h1 h2 => absurd ⟨h1, h2⟩ hcond⟩
    obtain ⟨f2, hf2⟩ := hderef
    refine ⟨max f1 f2 + 1, ?_⟩
    intro fuel hfuel T hshape
    obtain ⟨fuel, rfl⟩ : ∃ fuel', fuel = fuel' + 1 := ⟨fuel - 1, by omega⟩
    have hge1 : f1 ≤ fuel := le_trans (le_max_left f1 f2) (by omega)
    have hge2 : f2 ≤ fuel := le_trans (le_max_right f1 f2) (by omega)
    obtain ⟨t, ht, _, _⟩ := same_shape_read hshape loc c hc
    have hshape1 : same_shape S (T.update loc (set_selected false)) :=
      same_shape_trans hshape (same_shape_of_cleared (cleared_update T loc))
    obtain ⟨t1, ht1, hown1, _⟩ := same_shape_read hshape1 loc c hc
    obtain ⟨htype, hbroken, hkey⟩ := own_fields hown1
    have hderef : ∃ T2, (if t1.type = component_type_reference ∧ t1.is_broken = false then
          match map_at (T.update loc (set_selected false)).components t1.key with
          | .error e => Except.error e
          | .ok _ => deselect_component_r fuel { root := .entry t1.key, path := [] }
              (T.update loc (set_selected false))
        else Except.ok (T.update loc (set_selected false))) = Except.ok T2 ∧
        same_shape S T2 := by
      by_cases hcond : t1.type = component_type_reference ∧ t1.is_broken = false
      · have hcond0 : c.type = component_type_reference ∧ c.is_broken = false :=
          ⟨htype ▸ hcond.1, hbroken ▸ hcond.2⟩
        obtain ⟨v, hv⟩ := map_at_of_mem_keys _ _
          (hkeys loc c Relation.ReflTransGen.refl hc hcond0.1 hcond0.2)
        obtain ⟨v1, hv1, _⟩ := same_shape_read hshape1 { root := .entry c.key, path := [] } v
          ((read_entry_nil _ _ _).2 hv)
        obtain ⟨T2, hT2⟩ := hf2 hcond0.1 hcond0.2 fuel hge2 _ hshape1
        rw [← hkey] at hv1 hT2
        refine ⟨T2, ?_, same_shape_trans hshape1
          (same_shape_of_cleared (deselect_component_r_cleared fuel _ _ _ hT2).1)⟩
        simp only [hcond, and_self, if_true, (read_entry_nil _ _ _).1 hv1, hT2]
      · exact ⟨_, by simp only [hcond, if_false], hshape1⟩
    obtain ⟨T2, hT2, hshape2⟩ := hderef
    obtain ⟨t2, ht2, _, hlen2⟩ := same_shape_read hshape2 loc c hc
    obtain ⟨T3, hT3, _⟩ := for_each_completes (fun Ta => same_shape S Ta)
      (fun i Ta => deselect_component_r fuel (loc.child i) Ta) (List.range t2.children.length)
      (fun i hi Ta hTa => by
        have hi2 : i < c.children.length := by
          rw [← hlen2]
          exact List.mem_range.1 hi
        obtain ⟨Tb, hTb⟩ := hf1 i hi2 fuel hge1 Ta hTa
        exact ⟨Tb, hTb, same_shape_trans hTa
          (same_shape_of_cleared (deselect_component_r_cleared fuel _ _ _ hTb).1)⟩)
      T2 hshape2
    exact ⟨T3, by simp only [deselect_component_r, ht, ht1, hT2, ht2, hT3]⟩

theorem not_acc_of_self {α : Type} (r : α → α → Prop) (x : α) (hx : r x x) : ¬ Acc r x := by
  intro hacc
  induction hacc with
  | intro y _ ih => exact ih y hx hx

theorem not_acc_of_reachable {α : Type} (r : α → α → Prop) (x y : α)
    (hxy : Relation.ReflTransGen r x y) (hy : ¬ Acc (fun b a => r a b) y) :
    ¬ Acc (fun b a => r a b) x := by
  induction hxy with
  | refl => exact hy
  | tail _ hbc ih => exact ih (fun hb => hy (hb.inv hbc))

/-- A reference that is not broken and is stored at its own key makes
`deselect_component_r` recur without end: no amount of fuel is enough. -/
theorem deselect_component_r_self_reference (fuel : Nat) :
    ∀ (S : store_t) (key : String) (r : component_t), map_at S.components key = .ok r →
      r.type = component_type_reference → r.is_broken = false → r.key = key →
      deselect_component_r fuel { root := .entry key, path := [] } S = .error .out_of_fuel := by
  induction fuel with
  | zero => exact fun _ _ _ _ _ _ _ => rfl
  | succ fuel ih =>
    intro S key r hr htype hbroken hkey
    have hread := (read_entry_nil S key r).2 hr
    obtain ⟨r1, hr1, hown, _⟩ :=
      (cleared_update S { root := .entry key, path := [] }).2.2 _ r hread
    obtain ⟨h1, h2, h3⟩ := own_fields hown
    have hmap := (read_entry_nil _ key r1).1 hr1
    have hk1 : r1.key = key := h3.trans hkey
    have hrec := ih _ key r1 hmap (h1.trans htype) (h2.trans hbroken) hk1
    simp only [deselect_component_r, hread, hr1, h1.trans htype, h2.trans hbroken, hk1, hmap,
      hrec, and_self, if_true]

theorem reachable_entry (S : store_t) (loc target : loc_t) (h : reachable S loc target)
    (hroot : loc.root ≠ .detached) : target.root ≠ .detached := by
  induction h with
  | refl => exact hroot
  | tail _ hstep ih =>
    cases hstep with
    | child n i hn hi => exact ih
    | dereference n hn ht hb => simp

/-- In a well-ranked store the steps from every location under a root are
well-founded. -/
theorem well_founded_of_well_ranked (rank : root_t → Nat) (bound : Nat)
    (roots : root_t → Prop) (S : store_t) (h : well_ranked rank bound roots S) (m : Nat) :
    ∀ loc : loc_t, roots loc.root →
      rank loc.root * bound + (bound - loc.path.length) < m → well_founded_from S loc := by
  induction m with
  | zero => exact fun _ _ hm => absurd hm (Nat.not_lt_zero _)
  | succ m ih =>
    intro loc hroot hm
    refine Acc.intro _ ?_
    intro next hstep
    cases hstep with
    | child n i hn hi =>
      have hlen := (h loc n hroot hn).1
      refine ih (loc.child i) hroot ?_
      simp only [loc_t.child, List.length_append, List.length_singleton]
      omega
    | dereference n hn ht hb =>
      have hlen := (h loc n hroot hn).1
      obtain ⟨_, hr, hrank⟩ := (h loc n hroot hn).2 ht hb
      have hmul : (rank (root_t.entry n.key) + 1) * bound ≤ rank loc.root * bound :=
        Nat.mul_le_mul_right _ hrank
      refine ih _ hr ?_
      rw [Nat.add_mul] at hmul
      simp only [List.length_nil]
      omega

/-- In a component map whose references are ranked, the steps from every
element of the map are well-founded and the references have their keys. -/
theorem well_founded_of_references_ranked (rank : String → Nat) (S : store_t)
    (h : references_ranked rank S.components) (key : String) :
    well_founded_from S { root := .entry key, path := [] } ∧
    references_present S { root := .entry key, path := [] } := by
  have hS := well_ranked_of_references_ranked rank S h
  refine ⟨well_founded_of_well_ranked _ _ _ S hS _ _ (by simp) (Nat.lt_succ_self _), ?_⟩
  intro target n hreach hn htype hbroken
  have hroot := reachable_entry S _ target hreach (by simp)
  obtain ⟨⟨v, hv⟩, _⟩ := (hS target n hroot hn).2 htype hbroken
  exact mem_keys_of_map_at _ _ _ hv

/-! ## The widget id -/

theorem to_int_succ (id : Int) (hmin : -2147483648 ≤ id) (hmax : id < 2147483647) :
    to_int (id + 1) = id + 1 := by
  unfold to_int
  omega

theorem to_int_succ_max (id : Int) (h : id = 2147483647) : to_int (id + 1) = -2147483648 := by
  subst h
  rfl

theorem to_int_range (x : Int) : -2147483648 ≤ to_int x ∧ to_int x ≤ 2147483647 := by
  unfold to_int
  omega

/-! ## `make_component_r` and the `app` it is handed -/

theorem make_component_r_app_eq (P : model_procs_t) (d : json) (app : app_context_t)
    (p : String) :
    make_component_r_app P d app p =
      match make_component_node P d app p with
      | .error e => .error e
      | .ok n =>
        match make_children_app P (children_json d) app n.class_id with
        | .error e => .error e
        | .ok made => .ok ({ n with children := n.children ++ made.1 }, made.2) := by
  rw [make_component_r_app]

theorem make_children_app_nil (P : model_procs_t) (app : app_context_t) (cls : String) :
    make_children_app P [] app cls = .ok ([], app) := by
  rw [make_children_app]

theorem make_children_app_cons (P : model_procs_t) (d : json) (ds : List json)
    (app : app_context_t) (cls : String) :
    make_children_app P (d :: ds) app cls =
      match make_component_r_app P d app cls with
      | .error e => .error e
      | .ok made_child =>
        match make_children_app P ds made_child.2 cls with
        | .error e => .error e
        | .ok made => .ok (made_child.1 :: made.1, made.2) := by
  rw [make_children_app]

theorem sizeOf_lt_of_mem_children_json (d child : json) (h : child ∈ children_json d) :
    sizeOf child < sizeOf d :=
  lt_of_lt_of_le (List.sizeOf_lt_of_mem h) (sizeOf_children_json d)

/-- The loop over the children leaves `app` as it was and makes the children
that `make_children` makes, when each call for a child does. -/
theorem make_children_app_spec (P : model_procs_t) (cls : String) (ds : List json)
    (h : ∀ d ∈ ds, ∀ app, make_component_r_app P d app cls =
      (make_component_r P d app cls).map (fun c => (c, app))) :
    ∀ app, make_children_app P ds app cls =
      (make_children P ds app cls).map (fun cs => (cs, app)) := by
  induction ds with
  | nil =>
    intro app
    rw [make_children_app_nil, make_children_nil]
    rfl
  | cons d ds ih =>
    intro app
    rw [make_children_app_cons, make_children_cons, h d (List.mem_cons_self _ _) app]
    cases make_component_r P d app cls with
    | error e => rfl
    | ok c =>
      simp only [Except.map]
      rw [ih (fun x hx => h x (List.mem_cons_of_mem _ hx)) app]
      cases make_children P ds app cls with
      | error e => rfl
      | ok cs => rfl

/-- The state-passing `make_component_r_app` returns the component that
`make_component_r` returns, or fails as it fails, and the `app` it leaves is
the `app` it was handed. -/
theorem make_component_r_app_spec (P : model_procs_t) (size : Nat) :
    ∀ (d : json), sizeOf d ≤ size → ∀ (app : app_context_t) (p : String),
      make_component_r_app P d app p =
        (make_component_r P d app p).map (fun c => (c, app)) := by
  induction size with
  | zero =>
    intro d hd
    have : 0 < sizeOf d := by cases d <;> simp
    omega
  | succ size ih =>
    intro d hd app p
    rw [make_component_r_app_eq, make_component_r_eq]
    cases make_component_node P d app p with
    | error e => rfl
    | ok n =>
      simp only []
      rw [make_children_app_spec P n.class_id (children_json d)
        (fun child hchild app2 => ih child
          (by have := sizeOf_lt_of_mem_children_json d child hchild; omega) app2 n.class_id)
        app]
      cases make_children P (children_json d) app n.class_id with
      | error e => rfl
      | ok cs => rfl

theorem make_component_r_app_ok (P : model_procs_t) (d : json) (app app2 : app_context_t)
    (p : String) (c : component_t) (h : make_component_r_app P d app p = .ok (c, app2)) :
    make_component_r P d app p = .ok c ∧ app2 = app := by
  rw [make_component_r_app_spec P (sizeOf d) d (Nat.le_refl _) app p] at h
  cases hc : make_component_r P d app p with
  | error e => simp [hc, Except.map] at h
  | ok c2 =>
    simp only [hc, Except.map, Except.ok.injEq, Prod.mk.injEq] at h
    exact ⟨by rw [h.1], h.2.symm⟩

theorem make_component_r_app_of (P : model_procs_t) (d : json) (app : app_context_t)
    (p : String) (c : component_t) (h : make_component_r P d app p = .ok c) :
    make_component_r_app P d app p = .ok (c, app) := by
  rw [make_component_r_app_spec P (sizeOf d) d (Nat.le_refl _) app p, h]
  rfl

/-! # The claims -/

/-! ## C1 -/

/-- C1: when every required currency, text-area or text-input component of
the tree of `c` (`c` included) has its key in the field map,
`validate_component_r` returns, and it returns false exactly when one of
these components is bound by its key to a field with empty data. -/
theorem validate_false_iff_required_field_empty (c : component_t) (M : component_map_t)
    (F : field_map_t)
    (hkeys : ∀ n ∈ c.nodes, is_required_field n = true → n.key ∈ map_keys F) :
    ∃ b, validate_component_r c M F = .ok b ∧
      (b = false ↔ ∃ n ∈ c.nodes, is_required_field n = true ∧ bound_data_empty F n) :=
  validate_component_r_spec c M F hkeys

/-- C1, the scenario of section 8: the required text input with key
"CaseAmount" validates to false while its field is empty and to true once the
data is "100". -/
theorem validate_false_iff_required_field_empty_witness :
    (∀ n ∈ amount_input.nodes, is_required_field n = true → n.key ∈ map_keys (amount_fields "")) ∧
    (∃ b, validate_component_r amount_input [] (amount_fields "") = .ok b ∧
      (b = false ↔ ∃ n ∈ amount_input.nodes,
        is_required_field n = true ∧ bound_data_empty (amount_fields "") n)) ∧
    validate_component_r amount_input [] (amount_fields "") = .ok false ∧
    validate_component_r amount_input [] (amount_fields "100") = .ok true :=
  ⟨by decide,
   validate_false_iff_required_field_empty amount_input [] (amount_fields "") (by decide),
   by decide, by decide⟩

/-! ## C2 -/

/-- C2: in a tree that `make_component_r` returns, the root and every owned
descendant has `key = make_key(class_id, name)`, for its own final class and
name. -/
theorem make_component_r_key_is_make_key (P : model_procs_t) (d : json) (app : app_context_t)
    (p : String) (c : component_t) (h : make_component_r P d app p = .ok c) :
    ∀ m ∈ c.nodes, m.key = P.make_key m.class_id m.name := by
  intro m hm
  obtain ⟨d', q, hq⟩ := make_component_r_nodes P d app p c h m hm
  exact (make_component_r_own P d' app q m hq).1

/-- C2 on an example: the view "Details" of class "Work", built with parent
class "Case", and the keys of its four components. -/
theorem make_component_r_key_is_make_key_witness :
    make_component_r spec_procs details_doc case_app "Case" = .ok details_made ∧
      (∀ m ∈ details_made.nodes, m.key = spec_procs.make_key m.class_id m.name) ∧
      details_made.nodes.map (fun m => m.key) =
        ["WorkDetails", "WorkMain", "WorkAmount", "Data-AddressAddress"] :=
  ⟨details_doc_made,
    make_component_r_key_is_make_key spec_procs details_doc case_app "Case" _ details_doc_made,
    rfl⟩

/-! ## C3 -/

/-- C3: in a tree that `make_component_r` returns, the child at index `i` of
any component `parent` is the component made from the document at the same
place with the final class of `parent` as its parent class; so a child that
is neither a view nor a reference whose config has a context has the final
class of `parent` as its class. -/
theorem child_class_is_final_class_of_its_parent (P : model_procs_t) (d : json)
    (app : app_context_t) (p : String) (c : component_t)
    (h : make_component_r P d app p = .ok c)
    (path : List Nat) (i : Nat) (parent child : component_t)
    (hparent : c.descend path = some parent)
    (hchild : parent.children.get? i = some child) :
    ∃ d', doc_descend d (path ++ [i]) = some d' ∧
      make_component_r P d' app parent.class_id = .ok child ∧
      (child.type ≠ component_type_view →
        ¬ (child.type = component_type_reference ∧ config_has_context d' = true) →
        child.class_id = parent.class_id) := by
  obtain ⟨dp, q, hdp, hq⟩ := make_component_r_descend P app path d p c parent h hparent
  obtain ⟨d', hd', hmk⟩ := make_component_r_child P dp app q parent hq i child hchild
  refine ⟨d', ?_, hmk, (make_component_r_own P d' app parent.class_id child hmk).2.2.2.2⟩
  rw [doc_descend_append, hdp]
  exact hd'

/-- C3 on an example: the view "Details" declares class "Work" and is built
with parent class "Case"; its child region "Main" has class "Work". -/
theorem child_class_is_final_class_of_its_parent_witness :
    make_component_r spec_procs details_doc case_app "Case" = .ok details_made ∧
    details_made.descend [] = some details_made ∧
    details_made.children.get? 0 = some main_made ∧
    (∃ d', doc_descend details_doc ([] ++ [0]) = some d' ∧
      make_component_r spec_procs d' case_app details_made.class_id = .ok main_made ∧
      (main_made.type ≠ component_type_view →
        ¬ (main_made.type = component_type_reference ∧ config_has_context d' = true) →
        main_made.class_id = details_made.class_id)) ∧
    main_made.class_id = "Work" :=
  ⟨details_doc_made, rfl, rfl,
    child_class_is_final_class_of_its_parent spec_procs details_doc case_app "Case" details_made
      details_doc_made [] 0 details_made main_made rfl rfl,
    rfl⟩

/-! ## C4 -/

/-- C4: every component of a tree that `make_component_r` returns, at every
depth, has a non-empty name, a non-empty class and a type other than
unspecified; and a document that has, at any depth, a node whose draft
violates one of the three conditions (whatever parent class it is given)
makes the top-level call fail. -/
theorem made_components_are_named_classed_typed (P : model_procs_t) (d : json)
    (app : app_context_t) (p : String) :
    (∀ c, make_component_r P d app p = .ok c →
      ∀ m ∈ c.nodes, m.name ≠ "" ∧ m.class_id ≠ "" ∧ m.type ≠ component_type_unspecified) ∧
    (∀ path d', doc_descend d path = some d' →
      (∀ q n, make_component_draft P d' app q = .ok n →
        empty n.name = true ∨ empty n.class_id = true ∨ n.type = component_type_unspecified) →
      ∃ e, make_component_r P d app p = .error e) := by
  constructor
  · intro c h m hm
    obtain ⟨d', q, hq⟩ := make_component_r_nodes P d app p c h m hm
    obtain ⟨_, h2, h3, h4, _⟩ := make_component_r_own P d' app q m hq
    exact ⟨(empty_eq_false_iff _).1 h2, (empty_eq_false_iff _).1 h3, h4⟩
  · intro path d' hd hviol
    exact make_component_r_error_of_descendant P app path d p d' hd hviol

/-- C4 on examples: the four components of the tree made from `details_doc`;
and a region whose second child has type default-form, for which no name is
assigned, cannot be made. -/
theorem made_components_are_named_classed_typed_witness :
    make_component_r spec_procs details_doc case_app "Case" = .ok details_made ∧
    (∀ m ∈ details_made.nodes,
      m.name ≠ "" ∧ m.class_id ≠ "" ∧ m.type ≠ component_type_unspecified) ∧
    doc_descend bad_grandchild_doc [1] = some (.object [("type", .string "default_form")]) ∧
    (∃ e, make_component_r spec_procs bad_grandchild_doc case_app "Case" = .error e) :=
  ⟨details_doc_made,
    (made_components_are_named_classed_typed spec_procs details_doc case_app "Case").1
      details_made details_doc_made,
    rfl,
    (made_components_are_named_classed_typed spec_procs bad_grandchild_doc case_app "Case").2
      [1] (.object [("type", .string "default_form")]) rfl
      (fun q n hn => by
        have hn2 : n = { component_t.init with
            json := spec_dump (.object [("type", .string "default_form")]),
            type := component_type_default_form } := by
          have : make_component_draft spec_procs (.object [("type", .string "default_form")])
              case_app q = .ok { component_t.init with
                json := spec_dump (.object [("type", .string "default_form")]),
                type := component_type_default_form } := rfl
          rw [this] at hn
          exact (Except.ok.inj hn).symm
        subst hn2
        exact Or.inl rfl)⟩

/-! ## C5 -/

/-- C5: let `K` be stored in a component map with distinct keys, at `path`
below the entry at `key`. Whenever the click handler (the deselection of
every element of the map, then `K.is_selected = true`) completes, `K` is
selected and it is the only selected component among the elements of the map
and their owned descendants; and when `K` is the element of the map at its
own key, a reference with that key dereferences to a selected component. The
handler does complete, given enough fuel, when the references of the map are
ranked. -/
theorem select_component_selects_exactly_one (S : store_t) (key : String)
    (path : List Nat) (K : component_t)
    (hnodup : (map_keys S.components).Nodup)
    (hK : S.read { root := .entry key, path := path } = .ok K) :
    (∀ fuel S', select_component fuel { root := .entry key, path := path } S = .ok S' →
      (∀ k e, (k, e) ∈ S'.components → ∀ at_ n, e.descend at_ = some n →
        (n.is_selected = true ↔ (k = key ∧ at_ = path))) ∧
      (∃ K', S'.read { root := .entry key, path := path } = .ok K' ∧ own K' = own K ∧
        K'.is_selected = true) ∧
      (path = [] → K.key = key → ∀ r : component_t, r.type = component_type_reference →
        r.is_broken = false → r.key = K.key →
        ∃ target, map_at S'.components r.key = .ok target ∧ target.is_selected = true)) ∧
    (∀ rank, references_ranked rank S.components →
      ∃ fuel0, ∀ fuel, fuel0 ≤ fuel →
        ∃ S', select_component fuel { root := .entry key, path := path } S = .ok S') := by
  refine ⟨?_, fun rank hrank => select_component_completes rank S _ hrank⟩
  intro fuel S' h
  obtain ⟨hkeys, ⟨K', hK', hown, _, hsel⟩, hiff, _⟩ :=
    select_component_spec fuel _ S S' K hK h
  refine ⟨?_, ⟨K', hK', hown, hsel⟩, ?_⟩
  · intro k e hmem at_ n hn
    have hat : map_at S'.components k = .ok e :=
      map_at_of_mem_nodup _ k e hmem (by rw [hkeys]; exact hnodup)
    have hread : S'.read { root := .entry k, path := at_ } = .ok n := by
      simp only [store_t.read, store_t.tree, hat, hn]
    rw [hiff k at_ n hread]
    simp
  · intro hpath hkey r _ _ hr
    subst hpath
    rw [hr, hkey]
    simp only [store_t.read, store_t.tree] at hK'
    cases hat : map_at S'.components key with
    | error e => simp [hat] at hK'
    | ok v =>
      simp only [hat, descend_nil, Except.ok.injEq] at hK'
      subst hK'
      exact ⟨v, rfl, hsel⟩

/-- C5 on an example: "CaseAmount", reached through two references of
"CaseMain", is selected while "CaseNote" is; afterwards it is the only
selected component of the map, and both references dereference to it. The
references of the map are ranked, "CaseMain" above the two others. -/
theorem select_component_selects_exactly_one_witness :
    (map_keys selection_before.components).Nodup ∧
    selection_before.read { root := .entry "CaseAmount", path := [] } = .ok amount_input ∧
    select_component 3 { root := .entry "CaseAmount", path := [] } selection_before
      = .ok selection_after ∧
    (∀ k e, (k, e) ∈ selection_after.components → ∀ at_ n, e.descend at_ = some n →
      (n.is_selected = true ↔ (k = "CaseAmount" ∧ at_ = []))) ∧
    (∃ target, map_at selection_after.components amount_reference.key = .ok target ∧
      target.is_selected = true) ∧
    references_ranked selection_rank selection_before.components ∧
    (∃ fuel0, ∀ fuel, fuel0 ≤ fuel →
      ∃ S', select_component fuel { root := .entry "CaseAmount", path := [] } selection_before
        = .ok S') :=
  have hranked : references_ranked selection_rank selection_before.components := by
    unfold references_ranked
    decide
  ⟨by decide, rfl, rfl,
    ((select_component_selects_exactly_one selection_before "CaseAmount" []
      amount_input (by decide) rfl).1 3 selection_after rfl).1,
    ((select_component_selects_exactly_one selection_before "CaseAmount" []
      amount_input (by decide) rfl).1 3 selection_after rfl).2.2 rfl rfl amount_reference
      rfl rfl rfl,
    hranked,
    (select_component_selects_exactly_one selection_before "CaseAmount" []
      amount_input (by decide) rfl).2 selection_rank hranked⟩

/-! ## C6 -/

/-- C6, as stated, fails: the context "@CLASS-Work" is not of the form
"@CLASS <name>", yet the reference made from it is not broken, and its class
is "Work", not the inherited class "Case". -/
theorem dashed_context_is_not_broken :
    (∃ cfg, reference_document spec_procs case_app dashed_context_doc "Case" cfg "Header"
        component_type_view ∧
      cfg.subscript "context" = .ok (json.string "@CLASS-Work")) ∧
    is_class_context "@CLASS-Work" = false ∧ "Case" ≠ "" ∧ "Header" ≠ "" ∧
    make_component_r spec_procs dashed_context_doc case_app "Case" = .ok dashed_context_made ∧
    dashed_context_made.is_broken = false ∧ dashed_context_made.class_id = "Work" :=
  ⟨⟨_, ⟨⟨_, rfl, rfl⟩, rfl, ⟨_, rfl, rfl⟩, ⟨_, rfl, rfl⟩⟩, rfl⟩, by decide, by decide, by decide,
    make_component_r_of _ _ _ _ _ rfl (make_children_nil _ _ _), rfl, rfl⟩

/-- C6, amended: for a reference document whose context is a string that does
not begin with "@CLASS", with a non-empty parent class, a `config.name` that
resolves to a non-empty string, a `config.type` that is read, and child
documents that can all be made with the parent class, `make_component_r`
returns a component that is broken, whose `broken_string` is
"Unsupported context: " followed by the context, and whose class is the
parent class. -/
theorem unsupported_context_marks_broken (P : model_procs_t) (app : app_context_t) (d : json)
    (p : String) (cfg : json) (nm : String) (rt : component_type_t) (context : String)
    (hdoc : reference_document P app d p cfg nm rt)
    (hctx : cfg.subscript "context" = .ok (json.string context))
    (hform : begins_with_class context = false)
    (hp : p ≠ "") (hnm : nm ≠ "")
    (hchildren : ∀ d' ∈ children_json d, ∃ c', make_component_r P d' app p = .ok c') :
    ∃ c, make_component_r P d app p = .ok c ∧ c.is_broken = true ∧
      c.broken_string = "Unsupported context: " ++ context ∧ c.class_id = p := by
  obtain ⟨c, hc, h1, h2, h3, _⟩ := make_component_r_reference P app d p cfg nm rt _ hdoc
    (apply_context_other cfg context _ hctx hform) hnm hp hchildren
  exact ⟨c, hc, h2, h3, h1⟩

/-- C6 on an example: the reference "Header" with context "@PORTAL", built
with parent class "Case". -/
theorem unsupported_context_marks_broken_witness :
    reference_document spec_procs case_app portal_doc "Case"
      (.object [("name", .string "Header"), ("type", .string "view"),
        ("context", .string "@PORTAL")]) "Header" component_type_view ∧
    begins_with_class "@PORTAL" = false ∧
    (∃ c, make_component_r spec_procs portal_doc case_app "Case" = .ok c ∧ c.is_broken = true ∧
      c.broken_string = "Unsupported context: " ++ "@PORTAL" ∧ c.class_id = "Case") ∧
    make_component_r spec_procs portal_doc case_app "Case" = .ok portal_made :=
  have hdoc : reference_document spec_procs case_app portal_doc "Case"
      (.object [("name", .string "Header"), ("type", .string "view"),
        ("context", .string "@PORTAL")]) "Header" component_type_view :=
    ⟨⟨_, rfl, rfl⟩, rfl, ⟨_, rfl, rfl⟩, ⟨_, rfl, rfl⟩⟩
  ⟨hdoc, by decide,
    unsupported_context_marks_broken spec_procs case_app portal_doc "Case" _ "Header"
      component_type_view "@PORTAL" hdoc rfl (by decide) (by decide) (by decide)
      (fun d' hd' => by
        have hlist : children_json portal_doc = [] := rfl
        rw [hlist] at hd'
        exact absurd hd' (List.not_mem_nil _)),
    make_component_r_of _ _ _ _ _ rfl (make_children_nil _ _ _)⟩

/-! ## C7 -/

/-- C7, as stated, fails: `make_component_r` makes of `nested_header_doc` a
broken reference with key "CaseHeader" that owns a reference, not broken,
with the same key. On it, against an empty map, `deselect_component_r` and
`draw_component_debug_r` go on to the child, look "CaseHeader" up and throw
`std::out_of_range`. -/
theorem broken_reference_with_dangling_child_throws :
    make_component_r spec_procs nested_header_doc case_app "Case" = .ok broken_parent ∧
    broken_parent.type = component_type_reference ∧ broken_parent.is_broken = true ∧
    deselect_component_r 3 { root := .detached, path := [] }
      { detached := broken_parent, components := [] } = .error .out_of_range ∧
    draw_component_debug_r 3 { is_item_clicked := fun _ => false, input_text := fun _ s => s }
      { root := .detached, path := [] }
      { store := { detached := broken_parent, components := [] }, fields := [], id := 0,
        component_debug_json := "", queries := 0 } = .error .out_of_range :=
  ⟨make_component_r_of _ _ _ _ _ rfl
      (make_children_of _ _ _ _ _ _ _
        (make_component_r_of _ _ _ _ _ rfl (make_children_nil _ _ _))
        (make_children_nil _ _ _)),
    rfl, rfl, rfl, rfl⟩

/-- C7, amended: on a component of type reference with `is_broken` set, none
of the three routines looks the key of the component up. `draw_component_r`
returns at once: it makes no lookup and does not visit the children, and
leaves the frame as it was but for the widget id, a 32-bit `int` that `id++`
has advanced. `deselect_component_r` clears the flag and does what its loop over the owned
children does; `draw_component_debug_r` runs its click handler and then does
what its loop over the owned children does. So on a broken reference without
owned children `deselect_component_r` completes whatever the map holds, and
`draw_component_debug_r` completes when the map is empty, or the item is not
clicked, or the component is selected already. -/
theorem broken_reference_is_not_dereferenced (fuel : Nat) (P : model_procs_t) (G : imgui_t)
    (show_xray : Bool) (loc : loc_t) (F : frame_t) (c : component_t)
    (hc : F.store.read loc = .ok c) (htype : c.type = component_type_reference)
    (hbroken : c.is_broken = true) :
    deselect_component_r (fuel + 1) loc F.store =
      for_each (List.range c.children.length)
        (fun i S => deselect_component_r fuel (loc.child i) S)
        (F.store.update loc (set_selected false)) ∧
    draw_component_r (fuel + 1) P G show_xray loc F
      = .ok { F with id := to_int (F.id + 1) } ∧
    (-2147483648 ≤ F.id → F.id < 2147483647 → to_int (F.id + 1) = F.id + 1) ∧
    (F.id = 2147483647 → to_int (F.id + 1) = -2147483648) ∧
    draw_component_debug_r (fuel + 1) G loc F =
      (match on_click fuel G loc F with
        | .error e => .error e
        | .ok F1 =>
          for_each (List.range c.children.length)
            (fun i F => draw_component_debug_r fuel G (loc.child i) F) F1) ∧
    (c.children = [] →
      deselect_component_r (fuel + 1) loc F.store =
        .ok (F.store.update loc (set_selected false)) ∧
      (F.store.components = [] ∨ G.is_item_clicked F.queries = false ∨ c.is_selected = true →
        ∃ F', draw_component_debug_r (fuel + 1) G loc F = .ok F')) := by
  have hdeselect : deselect_component_r (fuel + 1) loc F.store =
      for_each (List.range c.children.length)
        (fun i S => deselect_component_r fuel (loc.child i) S)
        (F.store.update loc (set_selected false)) := by
    have hu := read_update false F.store loc loc
    rw [hc] at hu
    obtain ⟨c1, hc1, hown, hlen, _⟩ := hu
    obtain ⟨ht, hb, _⟩ := own_fields hown
    simp only [deselect_component_r, hc, hc1, ht, htype, hb, hbroken]
    simp [hc1, hlen]
  have hdraw : draw_component_r (fuel + 1) P G show_xray loc F =
      .ok { F with id := to_int (F.id + 1) } := by
    simp only [draw_component_r, hc, htype, hbroken]
    simp
  have hdebug : draw_component_debug_r (fuel + 1) G loc F =
      (match on_click fuel G loc F with
        | .error e => .error e
        | .ok F1 =>
          for_each (List.range c.children.length)
            (fun i F => draw_component_debug_r fuel G (loc.child i) F) F1) := by
    simp only [draw_component_debug_r]
    cases hclick : on_click fuel G loc F with
    | error e => rfl
    | ok F1 =>
      obtain ⟨c1, hc1, hown, hlen⟩ := on_click_read fuel G loc F F1 hclick loc c hc
      obtain ⟨_, hb, _⟩ := own_fields hown
      simp only [hc1, hb, hbroken, hlen, if_true]
  refine ⟨hdeselect, hdraw, to_int_succ F.id, to_int_succ_max F.id, hdebug, ?_⟩
  intro hchildren
  rw [hdeselect, hdebug, hchildren]
  refine ⟨rfl, ?_⟩
  intro hcases
  simp only [List.length_nil, List.range_zero, for_each_nil]
  have hok : ∃ F1, on_click fuel G loc F = .ok F1 := by
    simp only [on_click, hc]
    rcases hcases with h | h | h
    · split
      · simp only [select_component, h, map_keys, List.map_nil, for_each_nil]
        exact ⟨_, rfl⟩
      · exact ⟨_, rfl⟩
    · simp [h]
    · simp [h]
  obtain ⟨F1, hF1⟩ := hok
  rw [hF1]
  exact ⟨F1, rfl⟩

/-- C7 on an example: a broken reference without children, outside an empty
component map, its item clicked: the three routines complete; the widget id
goes from 0 to 1, and from 2147483647 to -2147483648. -/
theorem broken_reference_is_not_dereferenced_witness :
    broken_leaf_frame.store.read { root := .detached, path := [] } = .ok broken_leaf ∧
    broken_leaf.type = component_type_reference ∧ broken_leaf.is_broken = true ∧
    deselect_component_r 1 { root := .detached, path := [] } broken_leaf_frame.store =
      .ok (broken_leaf_frame.store.update { root := .detached, path := [] }
        (set_selected false)) ∧
    draw_component_r 1 spec_procs always_clicked false { root := .detached, path := [] }
      broken_leaf_frame = .ok { broken_leaf_frame with id := 1 } ∧
    draw_component_r 1 spec_procs always_clicked false { root := .detached, path := [] }
      { broken_leaf_frame with id := 2147483647 }
      = .ok { broken_leaf_frame with id := -2147483648 } ∧
    (∃ F', draw_component_debug_r 1 always_clicked { root := .detached, path := [] }
      broken_leaf_frame = .ok F') :=
  ⟨rfl, rfl, rfl,
    ((broken_reference_is_not_dereferenced 0 spec_procs always_clicked false
      { root := .detached, path := [] } broken_leaf_frame broken_leaf rfl rfl
      rfl).2.2.2.2.2 rfl).1,
    (broken_reference_is_not_dereferenced 0 spec_procs always_clicked false
      { root := .detached, path := [] } broken_leaf_frame broken_leaf rfl rfl rfl).2.1,
    (broken_reference_is_not_dereferenced 0 spec_procs always_clicked false
      { root := .detached, path := [] } { broken_leaf_frame with id := 2147483647 }
      broken_leaf rfl rfl rfl).2.1,
    ((broken_reference_is_not_dereferenced 0 spec_procs always_clicked false
      { root := .detached, path := [] } broken_leaf_frame broken_leaf rfl rfl
      rfl).2.2.2.2.2 rfl).2
      (Or.inl rfl)⟩

/-! ## C8 -/

/-- C8, as stated, fails: a reference document whose context is "@CLASS "
followed by a non-empty name and whose name resolves to a non-empty string,
but one of whose children is not a component document, makes
`make_component_r` throw. -/
theorem class_context_with_bad_child_fails :
    (∃ cfg, reference_document spec_procs case_app bad_child_doc "Case" cfg "Address"
        component_type_view ∧
      cfg.subscript "context" = .ok (json.string ("@CLASS " ++ "Data-Address"))) ∧
    "Data-Address" ≠ "" ∧ "Address" ≠ "" ∧
    make_component_r spec_procs bad_child_doc case_app "Case" = .error .json_error := by
  refine ⟨⟨_, ⟨⟨_, rfl, rfl⟩, rfl, ⟨_, rfl, rfl⟩, ⟨_, rfl, rfl⟩⟩, rfl⟩, by decide, by decide, ?_⟩
  rw [make_component_r_eq]
  have hnode : make_component_node spec_procs bad_child_doc case_app "Case" =
      .ok { address_lines_made with json := spec_dump bad_child_doc, children := [] } := rfl
  have hchildren : children_json bad_child_doc = [.string "oops"] := rfl
  have hclass : address_lines_made.class_id = "Data-Address" := rfl
  have hchild : make_component_r spec_procs (.string "oops") case_app "Data-Address" =
      .error .json_error := make_component_r_error_of_node _ _ _ _ _ rfl
  rw [hnode, hchildren]
  simp only [make_children_cons, hclass, hchild]

/-- C8, amended: for a reference document whose context is "@CLASS " followed
by a non-empty name `n`, whose `config.name` resolves to a non-empty string,
whose `config.type` is read, and whose child documents can all be made with
parent class `n`, `make_component_r` returns a component of class `n` that is
not broken, and its children are the components made from the child documents
with `n` as parent class. -/
theorem class_context_sets_class (P : model_procs_t) (app : app_context_t) (d : json)
    (p : String) (cfg : json) (nm : String) (rt : component_type_t) (n : String)
    (hdoc : reference_document P app d p cfg nm rt)
    (hctx : cfg.subscript "context" = .ok (json.string ("@CLASS " ++ n)))
    (hn : n ≠ "") (hnm : nm ≠ "")
    (hchildren : ∀ d' ∈ children_json d, ∃ c', make_component_r P d' app n = .ok c') :
    ∃ c, make_component_r P d app p = .ok c ∧ c.class_id = n ∧ c.is_broken = false ∧
      List.Forall₂ (fun d' c' => make_component_r P d' app n = .ok c')
        (children_json d) c.children := by
  obtain ⟨c, hc, h1, h2, _, h4⟩ := make_component_r_reference P app d p cfg nm rt _ hdoc
    (apply_context_class cfg n _ hctx) hnm hn hchildren
  exact ⟨c, hc, h1, h2, h4⟩

/-- C8 on an example: the reference "Address" with context
"@CLASS Data-Address", built with parent class "Case", has class
"Data-Address", and so has its child. -/
theorem class_context_sets_class_witness :
    reference_document spec_procs case_app address_lines_doc "Case"
      (.object [("name", .string "Address"), ("type", .string "view"),
        ("context", .string "@CLASS Data-Address")]) "Address" component_type_view ∧
    (∀ d' ∈ children_json address_lines_doc,
      ∃ c', make_component_r spec_procs d' case_app "Data-Address" = .ok c') ∧
    (∃ c, make_component_r spec_procs address_lines_doc case_app "Case" = .ok c ∧
      c.class_id = "Data-Address" ∧ c.is_broken = false ∧
      List.Forall₂ (fun d' c' => make_component_r spec_procs d' case_app "Data-Address" = .ok c')
        (children_json address_lines_doc) c.children) :=
  have hdoc : reference_document spec_procs case_app address_lines_doc "Case"
      (.object [("name", .string "Address"), ("type", .string "view"),
        ("context", .string "@CLASS Data-Address")]) "Address" component_type_view :=
    ⟨⟨_, rfl, rfl⟩, rfl, ⟨_, rfl, rfl⟩, ⟨_, rfl, rfl⟩⟩
  have hchildren : ∀ d' ∈ children_json address_lines_doc,
      ∃ c', make_component_r spec_procs d' case_app "Data-Address" = .ok c' := by
    intro d' hd'
    have hlist : children_json address_lines_doc =
        [.object [("type", .string "region"), ("name", .string "Lines")]] := rfl
    rw [hlist, List.mem_singleton] at hd'
    subst hd'
    exact ⟨lines_made, lines_doc_made⟩
  ⟨hdoc, hchildren,
    class_context_sets_class spec_procs case_app address_lines_doc "Case" _ "Address"
      component_type_view "Data-Address" hdoc rfl (by decide) (by decide) hchildren⟩

/-! ## C9 -/

/-- C9: `validate_component_r` does not look at the component map: its result
is the same for any two maps; and a reference without owned children
validates to true whatever the map and the field map hold. -/
theorem validate_ignores_component_map :
    (∀ (c : component_t) (F : field_map_t) (M1 M2 : component_map_t),
      validate_component_r c M1 F = validate_component_r c M2 F) ∧
    (∀ (c : component_t) (M : component_map_t) (F : field_map_t),
      c.type = component_type_reference → c.children = [] →
      validate_component_r c M F = .ok true) := by
  refine ⟨fun c F M1 M2 => validate_component_r_map_irrelevant c M1 M2 F, ?_⟩
  intro c M F ht hc
  rw [validate_component_r_eq]
  simp [is_required_field, ht, hc, is_field_type, validate_children]

/-- C9 on an example: the reference to "CaseAmount" validates to true although
its target in the map is a required field with empty data, which itself
validates to false. -/
theorem validate_ignores_component_map_witness :
    amount_reference.type = component_type_reference ∧ amount_reference.children = [] ∧
    validate_component_r amount_reference [("CaseAmount", amount_input)] (amount_fields "")
      = .ok true ∧
    validate_component_r amount_input [("CaseAmount", amount_input)] (amount_fields "")
      = .ok false :=
  ⟨rfl, rfl,
   validate_ignores_component_map.2 amount_reference [("CaseAmount", amount_input)]
     (amount_fields "") rfl rfl,
   by decide⟩

/-! ## C10 -/

/-- C10: a tree without any currency, text-area or text-input component
validates to true for every component map and every field map, the empty one
included; no lookup fails. -/
theorem validate_true_without_fields (c : component_t)
    (hnone : ∀ n ∈ c.nodes, is_field_type n.type = false)
    (M : component_map_t) (F : field_map_t) :
    validate_component_r c M F = .ok true := by
  have hreq : ∀ n ∈ c.nodes, is_required_field n = false := by
    intro n hn
    simp [is_required_field, hnone n hn]
  obtain ⟨b, hb, hiff⟩ := validate_component_r_spec c M F
    (fun n hn h => by rw [hreq n hn] at h; exact absurd h (by decide))
  cases b with
  | true => exact hb
  | false =>
    obtain ⟨n, hn, h, _⟩ := hiff.1 rfl
    rw [hreq n hn] at h
    exact absurd h (by decide)

/-- C10 on an example: a region owning a reference and an unknown component
validates to true against the empty field map. -/
theorem validate_true_without_fields_witness :
    (∀ n ∈ plain_region.nodes, is_field_type n.type = false) ∧
    validate_component_r plain_region [] [] = .ok true :=
  ⟨by decide, validate_true_without_fields plain_region (by decide) [] []⟩

/-! ## C19 -/

/-- C19: whenever `make_component_r` succeeds on a document, the children of
the returned component correspond one to one, in order, to the documents that
the loop over `component_json["children"]` visits: there are as many, and the
child at index `i` is the result of `make_component_r` on the document at
index `i` with the final class of the returned component as parent class.
These documents are the elements of the children array, and there are none
when the key is absent. -/
theorem children_are_made_in_document_order (P : model_procs_t) (d : json)
    (app : app_context_t) (p : String) (c : component_t)
    (h : make_component_r P d app p = .ok c) :
    c.children.length = (children_json d).length ∧
    (∀ i d', (children_json d).get? i = some d' →
      ∃ child, c.children.get? i = some child ∧
        make_component_r P d' app c.class_id = .ok child) ∧
    (∀ i child, c.children.get? i = some child →
      ∃ d', (children_json d).get? i = some d' ∧
        make_component_r P d' app c.class_id = .ok child) ∧
    (d.contains "children" = false → c.children = []) ∧
    (∀ xs, d.subscript "children" = .ok (json.array xs) → children_json d = xs) := by
  obtain ⟨n, _, hcs, hcn⟩ := make_component_r_ok P d app p c h
  have hcls : c.class_id = n.class_id := by rw [hcn]
  have hall := make_children_ok P app _ _ _ hcs
  rw [← hcls] at hall
  refine ⟨hall.length_eq.symm, ?_, ?_, ?_, ?_⟩
  · intro i d' hd'
    exact forall₂_get?_left hall i d' hd'
  · intro i child hchild
    exact forall₂_get? hall i child hchild
  · intro habsent
    have hlen := hall.length_eq
    rw [children_json_absent d habsent] at hlen
    exact List.length_eq_zero.1 hlen.symm
  · intro xs hxs
    exact children_json_array d xs hxs

/-- C19 on an example: the region "Main" has two children, made from the two
elements of its children array, in their order. -/
theorem children_are_made_in_document_order_witness :
    make_component_r spec_procs main_doc case_app "Work" = .ok main_made ∧
    main_made.children.length = (children_json main_doc).length ∧
    children_json main_doc = [amount_doc, address_doc] ∧
    main_made.children = [amount_made, address_made] ∧
    (∀ i d', (children_json main_doc).get? i = some d' →
      ∃ child, main_made.children.get? i = some child ∧
        make_component_r spec_procs d' case_app main_made.class_id = .ok child) :=
  ⟨main_doc_made,
    (children_are_made_in_document_order spec_procs main_doc case_app "Work" main_made
      main_doc_made).1,
    rfl, rfl,
    (children_are_made_in_document_order spec_procs main_doc case_app "Work" main_made
      main_doc_made).2.1⟩

/-! ## C13 -/

/-- C13: on a document of type view, `make_component_r` does not use the
parent class: for any two parent classes the two calls have the same outcome,
the same error or the same tree; and the class of a returned component is the
string at the "classID" of the document. -/
theorem view_ignores_parent_class (P : model_procs_t) (d : json) (app : app_context_t)
    (p1 p2 : String)
    (hview : ∃ tj, d.subscript "type" = .ok tj ∧
      P.to_component_type tj = .ok component_type_view) :
    make_component_r P d app p1 = make_component_r P d app p2 ∧
    (∀ c, make_component_r P d app p1 = .ok c →
      ∃ j, d.subscript "classID" = .ok j ∧ j.get_string = .ok c.class_id) := by
  constructor
  · rw [make_component_r_eq, make_component_r_eq P d app p2,
      make_component_node_view P d app p1 p2 hview]
  · intro c h
    obtain ⟨n, hn, _, hcn⟩ := make_component_r_ok P d app p1 c h
    obtain ⟨j, hj, hcls⟩ := make_component_node_view_class P d app p1 n hview hn
    refine ⟨j, hj, ?_⟩
    rw [hcn]
    exact hcls

/-- C13 on an example: the view "Details", built with parent class "Case" and
with parent class "Other", is the same tree, of class "Work". -/
theorem view_ignores_parent_class_witness :
    (∃ tj, details_doc.subscript "type" = .ok tj ∧
      spec_procs.to_component_type tj = .ok component_type_view) ∧
    make_component_r spec_procs details_doc case_app "Case" =
      make_component_r spec_procs details_doc case_app "Other" ∧
    make_component_r spec_procs details_doc case_app "Other" = .ok details_made ∧
    details_made.class_id = "Work" :=
  ⟨⟨_, rfl, rfl⟩,
    (view_ignores_parent_class spec_procs details_doc case_app "Case" "Other"
      ⟨_, rfl, rfl⟩).1,
    (view_ignores_parent_class spec_procs details_doc case_app "Case" "Other"
      ⟨_, rfl, rfl⟩).1 ▸ details_doc_made,
    rfl⟩

/-! ## C18 -/

/-- C18: a document whose type maps to `component_type_count`,
`component_type_default_form` or `component_type_unspecified` cannot be made:
for every `app` and every parent class `make_component_r` throws its runtime
error, since the switch assigns neither name nor class; and every document
that has such a document anywhere among its descendants cannot be made
either. -/
theorem ignored_types_cannot_be_made (P : model_procs_t) (d tj : json) (t : component_type_t)
    (htj : d.subscript "type" = .ok tj) (ht : P.to_component_type tj = .ok t)
    (hign : t = component_type_count ∨ t = component_type_default_form ∨
      t = component_type_unspecified) :
    (∀ app p, make_component_r P d app p = .error .runtime_error) ∧
    (∀ root path app p, doc_descend root path = some d →
      ∃ e, make_component_r P root app p = .error e) := by
  have hign2 : is_ignored_type t = true := by
    rcases hign with h | h | h <;> rw [h] <;> rfl
  constructor
  · intro app p
    apply make_component_r_error_of_node
    simp only [make_component_node, make_component_draft_ignored P d app p tj t htj ht hign2,
      finalize]
    rfl
  · intro root path app p hd
    refine make_component_r_error_of_descendant P app path root p d hd ?_
    intro q n hn
    rw [make_component_draft_ignored P d app q tj t htj ht hign2] at hn
    simp only [Except.ok.injEq] at hn
    subst hn
    exact Or.inl rfl

/-- C18 on an example: a document of type "default_form" cannot be made, nor
can the region that has it as second child. -/
theorem ignored_types_cannot_be_made_witness :
    (json.object [("type", .string "default_form")]).subscript "type"
      = .ok (.string "default_form") ∧
    spec_procs.to_component_type (.string "default_form") = .ok component_type_default_form ∧
    make_component_r spec_procs (.object [("type", .string "default_form")]) case_app "Case"
      = .error .runtime_error ∧
    doc_descend bad_grandchild_doc [1] = some (.object [("type", .string "default_form")]) ∧
    (∃ e, make_component_r spec_procs bad_grandchild_doc case_app "Case" = .error e) :=
  ⟨rfl, rfl,
    (ignored_types_cannot_be_made spec_procs (.object [("type", .string "default_form")])
      (.string "default_form") component_type_default_form rfl rfl (Or.inr (Or.inl rfl))).1
      case_app "Case",
    rfl,
    (ignored_types_cannot_be_made spec_procs (.object [("type", .string "default_form")])
      (.string "default_form") component_type_default_form rfl rfl (Or.inr (Or.inl rfl))).2
      bad_grandchild_doc [1] case_app "Case" rfl⟩

/-! ## C12 -/

/-- C12, as stated, fails: the required text input "CaseAmount" is bound to a
field with empty data and `is_dirty = false`, and `validate_component_r`
returns false. -/
theorem untouched_required_empty_field_is_invalid :
    is_required_field amount_input = true ∧ amount_input.children = [] ∧
    map_at (amount_fields "") amount_input.key = .ok { data := "", is_dirty := false } ∧
    validate_component_r amount_input [] (amount_fields "") = .ok false :=
  ⟨rfl, rfl, rfl, rfl⟩

/-- C12, amended: `validate_component_r` does not read `is_dirty`. For a
childless required currency, text-area or text-input component whose key is
bound to a field, it returns false when the data of the field is empty and
true otherwise, whatever `is_dirty` is. -/
theorem validate_ignores_is_dirty (c : component_t) (M : component_map_t) (F : field_map_t)
    (data : String) (is_dirty : Bool)
    (hrequired : is_required_field c = true) (hchildless : c.children = [])
    (hfield : map_at F c.key = .ok { data := data, is_dirty := is_dirty }) :
    validate_component_r c M F = .ok (!empty data) ∧
    (validate_component_r c M F = .ok false ↔ data = "") := by
  have h : validate_component_r c M F = .ok (!empty data) := by
    rw [validate_component_r_eq]
    simp only [hrequired, hfield, hchildless, if_true]
    cases hdata : empty data <;> simp [validate_children]
  refine ⟨h, ?_⟩
  rw [h, ← empty_iff]
  cases empty data <;> simp

/-- C12 on an example: the required text input "CaseAmount" bound to a field
that has been touched: false when the data is empty, true when it is "100". -/
theorem validate_ignores_is_dirty_witness :
    is_required_field amount_input = true ∧ amount_input.children = [] ∧
    validate_component_r amount_input [] [("CaseAmount", { data := "", is_dirty := true })]
      = .ok (!empty "") ∧
    validate_component_r amount_input [] [("CaseAmount", { data := "100", is_dirty := true })]
      = .ok (!empty "100") ∧
    (!empty "") = false ∧ (!empty "100") = true :=
  ⟨rfl, rfl,
    (validate_ignores_is_dirty amount_input [] [("CaseAmount", { data := "", is_dirty := true })]
      "" true rfl rfl rfl).1,
    (validate_ignores_is_dirty amount_input []
      [("CaseAmount", { data := "100", is_dirty := true })] "100" true rfl rfl rfl).1,
    rfl, rfl⟩

/-! ## C15 -/

/-- C15: `validate_component_r` examines the components in pre-order over the
owned children and stops at the first failure: its outcome is that of
`validate_in_document_order` on the pre-order listing. So when a required
currency, text-area or text-input component `n` bound to empty data comes, in
pre-order, before every required such component whose key the field map
lacks, the routine returns false, without a lookup failure. -/
theorem validate_short_circuits_in_document_order (c : component_t) (M : component_map_t)
    (F : field_map_t) :
    validate_component_r c M F = validate_in_document_order c.nodes F ∧
    (∀ pre n post, c.nodes = pre ++ n :: post →
      is_required_field n = true → bound_data_empty F n →
      (∀ m ∈ pre, is_required_field m = true → m.key ∈ map_keys F) →
      validate_component_r c M F = .ok false) := by
  refine ⟨validate_component_r_eq_in_document_order c M F, ?_⟩
  intro pre n post hsplit hn hempty hpre
  rw [validate_component_r_eq_in_document_order, hsplit]
  exact validate_in_document_order_false F pre n post hn hempty hpre

/-- C15 on an example: a region owns the required input "CaseAmount", bound
to empty data, and after it the required input "CaseGhost", which the field
map does not bind: validation returns false, and "CaseGhost" is never looked
up. -/
theorem validate_short_circuits_in_document_order_witness :
    amount_then_ghost.nodes = [amount_then_ghost] ++ amount_input :: [ghost_input] ∧
    is_required_field amount_input = true ∧
    bound_data_empty (amount_fields "") amount_input ∧
    (∀ m ∈ [amount_then_ghost], is_required_field m = true →
      m.key ∈ map_keys (amount_fields "")) ∧
    is_required_field ghost_input = true ∧ ghost_input.key ∉ map_keys (amount_fields "") ∧
    validate_component_r amount_then_ghost [] (amount_fields "") = .ok false :=
  ⟨rfl, rfl, ⟨_, rfl, rfl⟩, by decide, rfl, by decide,
    (validate_short_circuits_in_document_order amount_then_ghost [] (amount_fields "")).2
      [amount_then_ghost] amount_input [ghost_input] rfl rfl ⟨_, rfl, rfl⟩ (by decide)⟩

/-! ## C16 -/

/-- C16, as stated, fails: under a view without a template, the required input
"CaseAmount" is bound to empty data, but the required input "CaseGhost",
which the field map does not bind, comes before it: `validate_component_r`
throws `std::out_of_range` and does not return false. -/
theorem unsupported_view_validation_can_throw :
    ghost_then_amount_view.type = component_type_view ∧
    ghost_then_amount_view.ref_type = component_type_unspecified ∧
    ghost_then_amount_view.nodes = [ghost_then_amount_view, ghost_input, amount_input] ∧
    is_required_field amount_input = true ∧
    bound_data_empty (amount_fields "") amount_input ∧
    validate_component_r ghost_then_amount_view [] (amount_fields "")
      = .error .out_of_range :=
  ⟨rfl, rfl, rfl, rfl, ⟨_, rfl, rfl⟩, rfl⟩

/-- C16, amended: on a view whose `ref_type` is unspecified or unknown,
`draw_component_r` visits no owned child: it returns with nothing changed
but the widget id, so no field is looked up or marked dirty and the field map
is as before. The widget id is a 32-bit `int` that `id++` has advanced: it is
one more than it was, except that after 2147483647 it is -2147483648.
`validate_component_r` on the same view walks
the children: a required currency, text-area or text-input component under
the view that is bound to empty data makes it return false, provided no
required such component before it, in pre-order, lacks its key in the field
map. -/
theorem unsupported_view_is_validated_but_not_drawn (fuel : Nat) (P : model_procs_t)
    (G : imgui_t) (show_xray : Bool) (loc : loc_t) (F : frame_t) (c : component_t)
    (hc : F.store.read loc = .ok c) (hview : c.type = component_type_view)
    (href : c.ref_type = component_type_unspecified ∨ c.ref_type = component_type_unknown) :
    draw_component_r (fuel + 1) P G show_xray loc F
      = .ok { F with id := to_int (F.id + 1) } ∧
    (-2147483648 ≤ F.id → F.id < 2147483647 → to_int (F.id + 1) = F.id + 1) ∧
    (F.id = 2147483647 → to_int (F.id + 1) = -2147483648) ∧
    (∀ M pre n post, c.nodes = pre ++ n :: post →
      is_required_field n = true → bound_data_empty F.fields n →
      (∀ m ∈ pre, is_required_field m = true → m.key ∈ map_keys F.fields) →
      validate_component_r c M F.fields = .ok false) := by
  refine ⟨?_, to_int_succ F.id, to_int_succ_max F.id, ?_⟩
  · simp only [draw_component_r, hc, hview]
    simp [href]
  · intro M pre n post hsplit hn hempty hpre
    rw [validate_component_r_eq_in_document_order, hsplit]
    exact validate_in_document_order_false F.fields pre n post hn hempty hpre

/-- C16 on an example: a view without a template owns the required input
"CaseAmount", bound to empty data: drawing the view leaves the field map as it
is and takes the widget id from 0 to 1, and from 2147483647 to -2147483648;
validating it returns false. -/
theorem unsupported_view_is_validated_but_not_drawn_witness :
    amount_view_frame.store.read { root := .entry "CaseDetails", path := [] }
      = .ok amount_view ∧
    amount_view.type = component_type_view ∧
    amount_view.ref_type = component_type_unspecified ∧
    draw_component_r 1 spec_procs always_clicked false
      { root := .entry "CaseDetails", path := [] } amount_view_frame
      = .ok { amount_view_frame with id := 1 } ∧
    draw_component_r 1 spec_procs always_clicked false
      { root := .entry "CaseDetails", path := [] }
      { amount_view_frame with id := 2147483647 }
      = .ok { amount_view_frame with id := -2147483648 } ∧
    amount_view.nodes = [amount_view] ++ amount_input :: [] ∧
    validate_component_r amount_view [] amount_view_frame.fields = .ok false :=
  ⟨rfl, rfl, rfl,
    (unsupported_view_is_validated_but_not_drawn 0 spec_procs always_clicked false
      { root := .entry "CaseDetails", path := [] } amount_view_frame amount_view rfl rfl
      (Or.inl rfl)).1,
    (unsupported_view_is_validated_but_not_drawn 0 spec_procs always_clicked false
      { root := .entry "CaseDetails", path := [] } { amount_view_frame with id := 2147483647 }
      amount_view rfl rfl (Or.inl rfl)).1,
    rfl,
    (unsupported_view_is_validated_but_not_drawn 0 spec_procs always_clicked false
      { root := .entry "CaseDetails", path := [] } amount_view_frame amount_view rfl rfl
      (Or.inl rfl)).2.2.2 [] [amount_view] amount_input [] rfl rfl ⟨_, rfl, rfl⟩ (by decide)⟩

/-! ## C14 -/

/-- C14: when `deselect_component_r` completes, then afterwards its argument,
every owned descendant of it, and every component reached from them through
owned children and through references that are not broken, followed to their
element of the map, has `is_selected = false`. The components reached are the
same before and after the call. -/
theorem deselect_component_r_deselects_all_reached (fuel : Nat) (loc : loc_t)
    (S S' : store_t) (h : deselect_component_r fuel loc S = .ok S') :
    (∀ target, reachable S loc target ↔ reachable S' loc target) ∧
    (∀ target n, reachable S' loc target → S'.read target = .ok n →
      n.is_selected = false) := by
  have hshape := same_shape_of_cleared (deselect_component_r_cleared fuel loc S S' h).1
  refine ⟨fun target => ⟨reachable_same_shape hshape,
    reachable_same_shape (same_shape_symm hshape)⟩, ?_⟩
  intro target n hreach hn
  exact deselect_component_r_reachable fuel loc S S' h target
    (reachable_same_shape (same_shape_symm hshape) hreach) n hn

theorem deselect_component_r_deselects_all_reached_witness :
    deselect_component_r 3 { root := .entry "CaseMain", path := [] } selection_both
      = .ok selection_main_cleared ∧
    selection_both.read { root := .entry "CaseAmount", path := [] }
      = .ok { amount_input with is_selected := true } ∧
    reachable selection_main_cleared { root := .entry "CaseMain", path := [] }
      { root := .entry "CaseAmount", path := [] } ∧
    selection_main_cleared.read { root := .entry "CaseAmount", path := [] }
      = .ok amount_input ∧
    amount_input.is_selected = false :=
  have hreach : reachable selection_main_cleared { root := .entry "CaseMain", path := [] }
      { root := .entry "CaseAmount", path := [] } :=
    Relation.ReflTransGen.head
      (step.child { root := .entry "CaseMain", path := [] } two_references 1 rfl (by decide))
      (Relation.ReflTransGen.head
        (step.dereference { root := .entry "CaseMain", path := [1] } amount_reference
          rfl rfl rfl)
        Relation.ReflTransGen.refl)
  ⟨rfl, rfl, hreach, rfl,
    (deselect_component_r_deselects_all_reached 3 { root := .entry "CaseMain", path := [] }
      selection_both selection_main_cleared rfl).2
      { root := .entry "CaseAmount", path := [] } amount_input hreach rfl⟩

/-! ## C20 -/

/-- C20: a completed `deselect_component_r` changes nothing except
`is_selected` flags. The component map has the same keys; every location that
held a component, under the argument or under any element of the map, holds
one with the same members other than `is_selected` and the same number of
children, and no location holds a component that held none; with all
`is_selected` flags cleared, the store after is the store before. Running the
routine again on the result leaves that result as it is. -/
theorem deselect_component_r_changes_only_is_selected (fuel : Nat) (loc : loc_t)
    (S S' : store_t) (h : deselect_component_r fuel loc S = .ok S') :
    map_keys S'.components = map_keys S.components ∧
    (∀ at_ n, S.read at_ = .ok n → ∃ n', S'.read at_ = .ok n' ∧
      n'.type = n.type ∧ n'.key = n.key ∧ n'.name = n.name ∧ n'.label = n.label ∧
      n'.class_id = n.class_id ∧ n'.ref_type = n.ref_type ∧ n'.is_broken = n.is_broken ∧
      n'.is_disabled = n.is_disabled ∧ n'.is_readonly = n.is_readonly ∧
      n'.is_required = n.is_required ∧ n'.json = n.json ∧
      n'.broken_string = n.broken_string ∧ n'.debug_string = n.debug_string ∧
      n'.children.length = n.children.length) ∧
    (∀ at_ n', S'.read at_ = .ok n' → ∃ n, S.read at_ = .ok n) ∧
    S'.unselected = S.unselected ∧
    deselect_component_r fuel loc S' = .ok S' := by
  have hc := (deselect_component_r_cleared fuel loc S S' h).1
  refine ⟨hc.1, ?_, ?_, deselect_component_r_unselected fuel loc S S' h, ?_⟩
  · intro at_ n hn
    obtain ⟨n', hn', hown, hlen, _⟩ := hc.2.2 at_ n hn
    have h1 := congrArg component_t.type hown
    have h2 := congrArg component_t.key hown
    have h3 := congrArg component_t.name hown
    have h4 := congrArg component_t.label hown
    have h5 := congrArg component_t.class_id hown
    have h6 := congrArg component_t.ref_type hown
    have h7 := congrArg component_t.is_broken hown
    have h8 := congrArg component_t.is_disabled hown
    have h9 := congrArg component_t.is_readonly hown
    have h10 := congrArg component_t.is_required hown
    have h11 := congrArg component_t.json hown
    have h12 := congrArg component_t.broken_string hown
    have h13 := congrArg component_t.debug_string hown
    exact ⟨n', hn', h1, h2, h3, h4, h5, h6, h7, h8, h9, h10, h11, h12, h13, hlen⟩
  · intro at_ n' hn'
    obtain ⟨n, hn, _⟩ := cleared_read_back hc at_ n' hn'
    exact ⟨n, hn⟩
  · refine deselect_component_r_fixed fuel loc S S' S' h (same_shape_of_cleared hc) ?_
    intro target n hreach hn
    exact deselect_component_r_reachable fuel loc S S' h target
      (reachable_same_shape (same_shape_symm (same_shape_of_cleared hc)) hreach) n hn

theorem deselect_component_r_changes_only_is_selected_witness :
    deselect_component_r 3 { root := .entry "CaseMain", path := [] } selection_both
      = .ok selection_main_cleared ∧
    map_keys selection_main_cleared.components = ["CaseMain", "CaseAmount", "CaseNote"] ∧
    selection_main_cleared.unselected = selection_both.unselected ∧
    deselect_component_r 3 { root := .entry "CaseMain", path := [] } selection_main_cleared
      = .ok selection_main_cleared :=
  ⟨rfl, rfl,
    (deselect_component_r_changes_only_is_selected 3 { root := .entry "CaseMain", path := [] }
      selection_both selection_main_cleared rfl).2.2.2.1,
    (deselect_component_r_changes_only_is_selected 3 { root := .entry "CaseMain", path := [] }
      selection_both selection_main_cleared rfl).2.2.2.2⟩

/-! ## C17 -/

/-- C17: `deselect_component_r` terminates, that is, completes once the fuel
is enough, on every component and component map in which every reference that
is not broken and is reached from the component has its key in the map, and
the relation "owned child of, or map target of a reference that is not broken"
is well-founded from the component. A map that stores a reference that is not
broken at its own key is excluded by this precondition: the relation is not
well-founded from any component that reaches that element, and on that
element the routine recurs without end. -/
theorem deselect_component_r_terminates (S : store_t) (loc : loc_t) :
    (∀ c, S.read loc = .ok c → references_present S loc → well_founded_from S loc →
      ∃ fuel0, ∀ fuel, fuel0 ≤ fuel → ∃ S', deselect_component_r fuel loc S = .ok S') ∧
    (∀ key r, map_at S.components key = .ok r → r.type = component_type_reference →
      r.is_broken = false → r.key = key →
      reachable S loc { root := .entry key, path := [] } →
      ¬ well_founded_from S loc ∧
      ∀ fuel, deselect_component_r fuel { root := .entry key, path := [] } S
        = .error .out_of_fuel) := by
  constructor
  · intro c hc hkeys hwf
    obtain ⟨fuel0, h⟩ := deselect_component_r_completes_of_acc S loc hwf hkeys ⟨c, hc⟩
    exact ⟨fuel0, fun fuel hfuel => h fuel hfuel S (same_shape_refl S)⟩
  · intro key r hr htype hbroken hkey hreach
    refine ⟨?_, fun fuel => deselect_component_r_self_reference fuel S key r hr htype hbroken hkey⟩
    have hself : step S { root := .entry key, path := [] } { root := .entry key, path := [] } := by
      have := step.dereference { root := .entry key, path := [] } r
        ((read_entry_nil S key r).2 hr) htype hbroken
      rw [hkey] at this
      exact this
    exact not_acc_of_reachable (step S) _ _ hreach
      (not_acc_of_self (fun b a => step S a b) _ hself)

theorem deselect_component_r_terminates_witness :
    selection_before.read { root := .entry "CaseMain", path := [] } = .ok two_references ∧
    references_present selection_before { root := .entry "CaseMain", path := [] } ∧
    well_founded_from selection_before { root := .entry "CaseMain", path := [] } ∧
    (∃ fuel0, ∀ fuel, fuel0 ≤ fuel →
      ∃ S', deselect_component_r fuel { root := .entry "CaseMain", path := [] } selection_before
        = .ok S') ∧
    deselect_component_r 3 { root := .entry "CaseMain", path := [] } selection_before
      = .ok selection_before ∧
    map_at loop_store.components "CaseLoop" = .ok loop_reference ∧
    loop_reference.type = component_type_reference ∧
    loop_reference.is_broken = false ∧
    loop_reference.key = "CaseLoop" ∧
    ¬ well_founded_from loop_store { root := .entry "CaseLoop", path := [] } ∧
    (∀ fuel, deselect_component_r fuel { root := .entry "CaseLoop", path := [] } loop_store
      = .error .out_of_fuel) :=
  have hranked : references_ranked selection_rank selection_before.components := by
    unfold references_ranked
    decide
  have hwf := well_founded_of_references_ranked selection_rank selection_before hranked "CaseMain"
  ⟨rfl, hwf.2, hwf.1,
    (deselect_component_r_terminates selection_before
      { root := .entry "CaseMain", path := [] }).1 two_references rfl hwf.2 hwf.1,
    rfl, rfl, rfl, rfl, rfl,
    ((deselect_component_r_terminates loop_store
      { root := .entry "CaseLoop", path := [] }).2 "CaseLoop" loop_reference rfl rfl rfl rfl
      Relation.ReflTransGen.refl).1,
    ((deselect_component_r_terminates loop_store
      { root := .entry "CaseLoop", path := [] }).2 "CaseLoop" loop_reference rfl rfl rfl rfl
      Relation.ReflTransGen.refl).2⟩

/-! ## C11 -/

/-- C11, as stated, fails: called with an `app` whose component map is empty,
`make_component_r` makes the view "Details" with key "WorkDetails", and the
component map of the `app` that the call leaves has no entry at that key. -/
theorem made_component_is_not_in_the_map :
    case_app.resources.components = [] ∧
    (∃ app2, make_component_r_app spec_procs details_doc case_app "Case"
        = .ok (details_made, app2) ∧
      details_made.key = "WorkDetails" ∧
      map_at app2.resources.components details_made.key = .error .out_of_range) :=
  ⟨rfl, case_app, make_component_r_app_of _ _ _ _ _ details_doc_made, rfl, rfl⟩

/-- C11, amended: `make_component_r` does not write to the component map.
After a successful call the map of `app` holds what it held before the call,
so it has an entry at the key of a constructed component only when it had one
before; the constructed components, the returned root and every descendant,
are in the returned tree, each with the key that `make_key` gives for its
class and name. -/
theorem make_component_r_leaves_the_map (P : model_procs_t) (d : json)
    (app app2 : app_context_t) (p : String) (c : component_t)
    (h : make_component_r_app P d app p = .ok (c, app2)) :
    app2.resources.components = app.resources.components ∧
    (∀ m ∈ c.nodes,
      m.key = P.make_key m.class_id m.name ∧
      map_at app2.resources.components m.key = map_at app.resources.components m.key) := by
  obtain ⟨hc, happ⟩ := make_component_r_app_ok P d app app2 p c h
  subst happ
  refine ⟨rfl, ?_⟩
  intro m hm
  obtain ⟨d', q, hq⟩ := make_component_r_nodes P d app2 p c hc m hm
  exact ⟨(make_component_r_own P d' app2 q m hq).1, rfl⟩

/-- C11 on an example: the call that makes the view "Details" leaves the empty
component map of `case_app` empty. -/
theorem make_component_r_leaves_the_map_witness :
    make_component_r_app spec_procs details_doc case_app "Case"
      = .ok (details_made, case_app) ∧
    case_app.resources.components = [] ∧
    (∀ m ∈ details_made.nodes,
      m.key = spec_procs.make_key m.class_id m.name ∧
      map_at case_app.resources.components m.key = .error .out_of_range) :=
  ⟨make_component_r_app_of _ _ _ _ _ details_doc_made,
    (make_component_r_leaves_the_map spec_procs details_doc case_app case_app "Case"
      details_made (make_component_r_app_of _ _ _ _ _ details_doc_made)).1,
    fun m hm =>
      ⟨((make_component_r_leaves_the_map spec_procs details_doc case_app case_app "Case"
        details_made (make_component_r_app_of _ _ _ _ _ details_doc_made)).2 m hm).1, rfl⟩⟩

end dx_api_explorer
